import Mathlib

/-!
# Verification of the `wc` counting engines of coreutils-contest

Shallow embedding of the buffer-counting functions found under `20_06_2025/`
(one namespace per implementation directory) together with the properties
proved about them.

Conventions of the embedding

* A byte is a natural number (`unsigned char`, `uint8_t`: values below 256).
  Theorems about code that reads `unsigned char` or `uint8_t` are proved for
  arbitrary naturals, hence in particular for bytes.  Code that reads the
  buffer through `char` sees the value `char_of_byte char_signed b`, for either
  signedness of `char`; theorems about it assume the buffer holds bytes.
* A C buffer `const unsigned char* buffer` is the function `Nat → Nat` giving
  the byte stored at each offset; the separate `size` argument says how many
  of them the callee may read.  `ofList` turns a byte sequence into such a
  buffer (offsets past the end read as 0, like the terminator of a C string).
* Pointers into a buffer (`p`, `end`, `aligned_end`) are offsets from `buffer`.
* The `long` fields of the gemeni2.5pro and grok3 `Counts` are integers.  A
  signed increment (`++`) that overflows is undefined behaviour in C, so `++`
  is the integer successor (the executions in which it does not overflow).
  fast_wc.c also has two additions with an unsigned right operand,
  `counts->bytes += size` and `counts->lines += line_count_in_buffer`, which C
  computes in `unsigned long` (modulo 2^64) and converts back to `long`.
  `gemeni25pro.process_buffer` takes them as integer additions, which
  describes the calls in which no counter leaves the range of `long`;
  `gemeni25pro.lp64.process_buffer` computes them in 64 bits (`long_add_u64`)
  and is the one used where the incoming counts are arbitrary;
  `lp64_eq_unbounded` says where the two agree.
* Unsigned machine arithmetic wraps and is written with an explicit `%`:
  `uint8_t` results modulo 2^8, `unsigned` modulo 2^32, `uint64_t` and `size_t`
  modulo 2^64.
* A `while` loop is a function defined by well-founded recursion on the
  distance of its index to the loop bound, so every loop is total.
* A read loop (`fread`, `read`) is run on the list of chunks the calls return;
  `fread_chunks` gives the chunks `fread` returns for a given stream.
* The test functions that sit inside the sources build their inputs in memory
  (`memset`, `strcpy`, element stores); such memory is again a function
  `Nat → Nat`, and what it held before the stores is a parameter.  A loop of
  stores into a `malloc` block yields `none` once a store falls outside it.
-/

namespace Wc

/-- The buffer holding the byte sequence `l` (reads past the end give 0). -/
def ofList (l : List Nat) : Nat → Nat := fun i => l.getD i 0

/-- The first `size` bytes of a buffer, in order. -/
def bytesOf (buffer : Nat → Nat) (size : Nat) : List Nat :=
  (List.range size).map buffer

/-- C library `isspace` in the "C" locale (no implementation calls `setlocale`):
true exactly for space, `\t`, `\n`, `\v`, `\f`, `\r`. -/
def isspace (c : Nat) : Bool :=
  c == 0x20 || c == 0x09 || c == 0x0A || c == 0x0B || c == 0x0C || c == 0x0D

/-! ## Arm NEON intrinsics used by the sources (`uint8x16_t` = 16 lanes) -/

/-- Intrinsic `vdupq_n_u8`: all 16 lanes set to `v`. -/
def vdupq_n_u8 (v : Nat) : List Nat := List.replicate 16 v

/-- Intrinsic `vld1q_u8`: load the 16 bytes at offsets `p .. p+15`. -/
def vld1q_u8 (buffer : Nat → Nat) (p : Nat) : List Nat :=
  (List.range 16).map (fun k => buffer (p + k))

/-- Intrinsic `vceqq_u8`: lane-wise equality, `0xFF` where equal and `0x00` elsewhere. -/
def vceqq_u8 (a b : List Nat) : List Nat :=
  List.zipWith (fun x y => if x = y then 0xFF else 0x00) a b

/-- Intrinsic `vshrq_n_u8`: lane-wise logical shift right by `n` bits. -/
def vshrq_n_u8 (a : List Nat) (n : Nat) : List Nat :=
  a.map (fun x => x / 2 ^ n)

/-- Intrinsic `vaddvq_u8`: add across the lanes; the result is a `uint8_t`,
so the sum is taken modulo 256. -/
def vaddvq_u8 (a : List Nat) : Nat := a.sum % 256

/-! ## Reference notions used in the statements -/

/-- Number of newline bytes (`0x0A`) of a byte sequence. -/
def newlines (S : List Nat) : Nat := S.count 0x0A

/-- The maximal runs of non-whitespace bytes of `S` with respect to the
whitespace test `ws`: the non-empty pieces obtained by cutting `S` at every
whitespace byte. -/
def maximalRuns (ws : Nat → Bool) (S : List Nat) : List (List Nat) :=
  (S.splitOnP ws).filter (fun r => !r.isEmpty)

/-- Number of words of `S`: the number of maximal runs of non-whitespace bytes. -/
def wordCount (ws : Nat → Bool) (S : List Nat) : Nat := (maximalRuns ws S).length

/-- Position `i` is a word start of the buffer when entered with carried-in
state `in_word_prev`: byte `i` is not whitespace, and either `i > 0` and byte
`i-1` is whitespace, or `i = 0` and `in_word_prev` is false. -/
def isWordStart (ws : Nat → Bool) (buffer : Nat → Nat) (in_word_prev : Bool) (i : Nat) : Bool :=
  !ws (buffer i) && ((0 < i && ws (buffer (i - 1))) || (i == 0 && !in_word_prev))

/-- Number of word-start positions among the offsets `0 .. size-1`. -/
def wordStarts (ws : Nat → Bool) (buffer : Nat → Nat) (size : Nat) (in_word_prev : Bool) : Nat :=
  ((List.range size).filter (isWordStart ws buffer in_word_prev)).length

/-! ## List-level scans used to describe the loops -/

/-- Words counted by a left-to-right scan that counts a word at its first
byte, entered with carried-in state `w`. -/
def starts (ws : Nat → Bool) : List Nat → Bool → Nat
  | [], _ => 0
  | b :: bs, w => if ws b then starts ws bs false else (if w then 0 else 1) + starts ws bs true

/-- The in-word state after scanning a byte sequence entered with state `w`:
`w` itself for the empty sequence, otherwise whether the last byte is a word byte. -/
def lastFlag (ws : Nat → Bool) : List Nat → Bool → Bool
  | [], w => w
  | b :: bs, _ => lastFlag ws bs (!ws b)

/-- Words counted by a left-to-right scan that counts a word at the whitespace
byte closing it, entered with carried-in state `w`; a word still open at the
end is not included. -/
def closes (ws : Nat → Bool) : List Nat → Bool → Nat
  | [], _ => 0
  | b :: bs, w => if ws b then (if w then 1 else 0) + closes ws bs false else closes ws bs true

/-- The `n` bytes of a buffer at offsets `p .. p+n-1`. -/
def bytesFrom (buffer : Nat → Nat) (p n : Nat) : List Nat := (List.range' p n).map buffer

end Wc

/-! ## gemeni2.5pro/fast_wc.c -/

namespace gemeni25pro

open Wc

/-- Source `typedef struct { long lines; long words; long bytes; } Counts;` -/
structure Counts where
  lines : Int
  words : Int
  bytes : Int
deriving DecidableEq, Repr

/-- The NEON block loop of `process_buffer` (lines 42-52):
`while (p < aligned_end) { ...; line_count_in_buffer += vaddvq_u8(result); p += 16; }`
with the `uint64_t` accumulator `line_count_in_buffer`. -/
def process_buffer.neon_loop (buffer : Nat → Nat) (aligned_end : Nat)
    (p : Nat) (line_count_in_buffer : Nat) : Nat :=
  if p < aligned_end then
    let nl_vector := vdupq_n_u8 0x0A
    let chunk := vld1q_u8 buffer p
    let result := vceqq_u8 chunk nl_vector
    let result := vshrq_n_u8 result 7
    process_buffer.neon_loop buffer aligned_end (p + 16)
      ((line_count_in_buffer + vaddvq_u8 result) % 2 ^ 64)
  else line_count_in_buffer
termination_by aligned_end - p
decreasing_by omega

/-- The scalar loop of `process_buffer` (lines 58-76): the word state machine,
and the newline test when the build has no `__ARM_NEON`. -/
def process_buffer.scalar_loop (arm_neon : Bool) (buffer : Nat → Nat) (end_ : Nat)
    (p : Nat) (counts : Counts) (in_word : Bool) : Counts × Bool :=
  if p < end_ then
    let counts :=
      if !arm_neon && buffer p == 0x0A then { counts with lines := counts.lines + 1 }
      else counts
    if isspace (buffer p) then
      process_buffer.scalar_loop arm_neon buffer end_ (p + 1) counts false
    else
      let counts := if !in_word then { counts with words := counts.words + 1 } else counts
      process_buffer.scalar_loop arm_neon buffer end_ (p + 1) counts true
  else (counts, in_word)
termination_by end_ - p
decreasing_by all_goals omega

/-- The leftover loop of `process_buffer` (lines 80-86): newline test on the
bytes after the last whole 16-byte block. -/
def process_buffer.leftover_loop (buffer : Nat → Nat) (end_ : Nat)
    (p : Nat) (counts : Counts) : Counts :=
  if p < end_ then
    let counts :=
      if buffer p == 0x0A then { counts with lines := counts.lines + 1 } else counts
    process_buffer.leftover_loop buffer end_ (p + 1) counts
  else counts
termination_by end_ - p
decreasing_by omega

/-- Source `process_buffer` (lines 24-90).  `arm_neon` says whether the build
defines `__ARM_NEON`; the result is the updated `*counts` and the returned flag. -/
def process_buffer (arm_neon : Bool) (buffer : Nat → Nat) (size : Nat)
    (counts : Counts) (in_word_prev : Bool) : Counts × Bool :=
  let in_word := in_word_prev
  let counts := { counts with bytes := counts.bytes + size }
  let end_ := size
  let aligned_end := (size / 16) * 16
  let counts :=
    if arm_neon then
      { counts with lines := counts.lines + process_buffer.neon_loop buffer aligned_end 0 0 }
    else counts
  let r := process_buffer.scalar_loop arm_neon buffer end_ 0 counts in_word
  let counts := r.1
  let in_word := r.2
  let counts :=
    if arm_neon then process_buffer.leftover_loop buffer end_ aligned_end counts else counts
  (counts, in_word)

/-- The read loop of `process_file` (lines 98-100) and of `main` (lines 119-121)
on the sequence of chunks delivered by `fread`:
`in_word = process_buffer(buffer, bytes_read, &file_counts, in_word);` -/
def process_file.loop (arm_neon : Bool) :
    List (List Nat) → Counts × Bool → Counts × Bool
  | [], st => st
  | chunk :: rest, st =>
    process_file.loop arm_neon rest
      (process_buffer arm_neon (ofList chunk) chunk.length st.1 st.2)

/-- The end-of-stream finalization the specification asks of a stream driver
("if `in_word == true`, increment `counts.words` by one"), applied to the pair
left by the read loop.  No code of fast_wc.c performs this step; it is stated
here only to compare the specification with `process_file`. -/
def spec_finalize (st : Counts × Bool) : Counts :=
  if st.2 then { st.1 with words := st.1.words + 1 } else st.1

end gemeni25pro

/-! ## chatgpt_o4-mini-high/wc.c -/

namespace chatgpt_o4_mini_high

/-- The value of `char c = buf[i]` when the byte stored at `buf[i]` is `b`:
`b` itself where `char` is unsigned, and `b - 256` for the high-bit bytes where
`char` is signed (the signedness of `char` is implementation-defined). -/
def char_of_byte (char_signed : Bool) (b : Nat) : Int :=
  if char_signed && decide (128 ≤ b) then (b : Int) - 256 else (b : Int)

/-- Source `is_ascii_space` (lines 18-21):
`return (unsigned)(c - 9) < (13 - 9 + 1) || c == ' ';`
where `c` is promoted to `int` and the cast to `unsigned` reduces modulo 2^32. -/
def is_ascii_space (c : Int) : Int :=
  if decide ((c - 9) % 2 ^ 32 < 13 - 9 + 1) || c == 0x20 then 1 else 0

end chatgpt_o4_mini_high

/-! ## claude_opus_4/wc_optimized.c -/

namespace claude_opus_4

open Wc

/-- Source `typedef struct { size_t lines; size_t words; size_t bytes; } counts_t;`
(`size_t` is 64 bits wide on the target; increments wrap modulo 2^64). -/
structure counts_t where
  lines : Nat
  words : Nat
  bytes : Nat
deriving DecidableEq, Repr

/-- The local `is_space` of `count_words_and_lines` (lines 79 and 95):
`(ch == ' ' || ch == '\t' || ch == '\n' || ch == '\r')`. -/
def count_words_and_lines.is_space (ch : Nat) : Bool :=
  ch == 0x20 || ch == 0x09 || ch == 0x0A || ch == 0x0D

/-- The per-byte body shared by the unrolled loop (lines 76-85) and the
remainder loop (lines 92-101) of `count_words_and_lines`. -/
def count_words_and_lines.body (ch : Nat) (st : counts_t × Bool) : counts_t × Bool :=
  let c := st.1
  let in_word := st.2
  let c := if ch == 0x0A then { c with lines := (c.lines + 1) % 2 ^ 64 } else c
  let is_space := count_words_and_lines.is_space ch
  if in_word && is_space then
    ({ c with words := (c.words + 1) % 2 ^ 64 }, false)
  else if !in_word && !is_space then
    (c, true)
  else (c, in_word)

/-- The unrolled loop of `count_words_and_lines` (lines 74-88):
`while (i + 8 <= len) { for (int j = 0; j < 8; j++) { ch = data[i + j]; ... } i += 8; }`.
The result is the final `i` and the state (`i + 8` does not wrap: `len` is the
size of an object in memory). -/
def count_words_and_lines.unrolled_loop (data : Nat → Nat) (len : Nat)
    (i : Nat) (st : counts_t × Bool) : Nat × (counts_t × Bool) :=
  if i + 8 ≤ len then
    let st := (List.range 8).foldl
      (fun st j => count_words_and_lines.body (data (i + j)) st) st
    count_words_and_lines.unrolled_loop data len (i + 8) st
  else (i, st)
termination_by len - i
decreasing_by omega

/-- The remainder loop of `count_words_and_lines` (lines 91-102):
`while (i < len) { ch = data[i++]; ... }`. -/
def count_words_and_lines.remainder_loop (data : Nat → Nat) (len : Nat)
    (i : Nat) (st : counts_t × Bool) : counts_t × Bool :=
  if i < len then
    count_words_and_lines.remainder_loop data len (i + 1)
      (count_words_and_lines.body (data i) st)
  else st
termination_by len - i
decreasing_by omega

/-- Source `count_words_and_lines` (lines 69-106); the result is the updated `*c`. -/
def count_words_and_lines (data : Nat → Nat) (len : Nat) (c : counts_t) : counts_t :=
  let in_word := false
  let i := 0
  let r := count_words_and_lines.unrolled_loop data len i (c, in_word)
  let st := count_words_and_lines.remainder_loop data len r.1 r.2
  if st.2 then { st.1 with words := (st.1.words + 1) % 2 ^ 64 } else st.1

end claude_opus_4

/-! ## Further intrinsics and reference notions -/

namespace Wc

/-- Intrinsic `vandq_u8`: lane-wise bitwise AND. -/
def vandq_u8 (a b : List Nat) : List Nat := List.zipWith (fun x y => x &&& y) a b

/-- Intrinsic `vorrq_u8`: lane-wise bitwise OR. -/
def vorrq_u8 (a b : List Nat) : List Nat := List.zipWith (fun x y => x ||| y) a b

/-- Intrinsic `vreinterpretq_u64_u8`: the 16 byte lanes seen as two 64-bit
lanes, lanes 0..7 forming the first and lanes 8..15 the second (little endian). -/
def vreinterpretq_u64_u8 (a : List Nat) : List Nat :=
  [(a.take 8).foldr (fun x acc => x + 256 * acc) 0,
   ((a.drop 8).take 8).foldr (fun x acc => x + 256 * acc) 0]

/-- Intrinsic `vgetq_lane_u64`: the 64-bit lane number `lane`. -/
def vgetq_lane_u64 (v : List Nat) (lane : Nat) : Nat := v.getD lane 0

/-- Compiler builtin `__builtin_popcountll`: the number of 1 bits of a 64-bit value. -/
def popcountll (x : Nat) : Nat := ((List.range 64).filter (fun i => x.testBit i)).length

/-- The chunks returned by successive calls `fread(buf, 1, cap, fp)` on a stream
holding the bytes `S`: each call fills the buffer until `cap` bytes are read or
the stream ends, so every chunk but the last has exactly `cap` bytes, and the
call that finds the stream exhausted returns 0. -/
def fread_chunks (cap : Nat) (S : List Nat) : List (List Nat) :=
  if S = [] ∨ cap = 0 then []
  else S.take cap :: fread_chunks cap (S.drop cap)
termination_by S.length
decreasing_by
  rename_i h
  have h1 : S ≠ [] := fun hS => h (Or.inl hS)
  have h2 : cap ≠ 0 := fun hc => h (Or.inr hc)
  have h3 : 0 < S.length := List.length_pos.mpr h1
  simp only [List.length_drop]
  omega

/-- Position `i` closes a word: byte `i` is whitespace, `i > 0`, and byte `i-1`
is not whitespace. -/
def isWordEnd (ws : Nat → Bool) (buffer : Nat → Nat) (i : Nat) : Bool :=
  decide (0 < i) && ws (buffer i) && !ws (buffer (i - 1))

/-- Number of words closed by a whitespace byte among the offsets `0 .. size-1`. -/
def wordEnds (ws : Nat → Bool) (buffer : Nat → Nat) (size : Nat) : Nat :=
  ((List.range size).filter (isWordEnd ws buffer)).length

end Wc

/-! ## chatgpt_o3/src/wc.c -/

namespace chatgpt_o3

open Wc

/-- Source `typedef struct { uint64_t lines; uint64_t words; uint64_t bytes; } wc_counts_t;`
(wc.h lines 8-12). -/
structure wc_counts_t where
  lines : Nat
  words : Nat
  bytes : Nat
deriving DecidableEq, Repr

/-- Source `is_ascii_space` (wc.c lines 12-14); the `uint8_t` result is 1 or 0. -/
def is_ascii_space (c : Nat) : Nat :=
  if c == 0x20 || c == 0x0A || c == 0x09 || c == 0x0D || c == 0x0C || c == 0x0B then 1 else 0

/-- The word state machine written twice in `wc_count_buffer` (lines 42-47 and 57-62):
`if(!is_ws && !in_word){ words++; in_word=1; } else if(is_ws){ in_word=0; }`
on the pair (`words`, `in_word`). -/
def wc_count_buffer.word_step (is_ws : Nat) (st : Nat × Bool) : Nat × Bool :=
  if is_ws == 0 && !st.2 then ((st.1 + 1) % 2 ^ 64, true)
  else if is_ws != 0 then (st.1, false)
  else st

/-- The vectorised loop of `wc_count_buffer` (lines 23-50) on the state
(`ptr`, `lines`, `words`, `in_word`). -/
def wc_count_buffer.vector_loop (data : Nat → Nat) (end_ : Nat)
    (ptr : Nat) (lines : Nat) (st : Nat × Bool) : Nat × Nat × (Nat × Bool) :=
  if ptr + 16 ≤ end_ then
    let v := vld1q_u8 data ptr
    let nl_mask := vceqq_u8 v (vdupq_n_u8 0x0A)
    let nl_bytes := vandq_u8 nl_mask (vdupq_n_u8 1)
    let lines := (lines + vaddvq_u8 nl_bytes) % 2 ^ 64
    let ws :=
      vorrq_u8 (vorrq_u8 (vceqq_u8 v (vdupq_n_u8 0x20)) (vceqq_u8 v (vdupq_n_u8 0x09)))
        (vorrq_u8 (vceqq_u8 v (vdupq_n_u8 0x0A))
          (vorrq_u8 (vceqq_u8 v (vdupq_n_u8 0x0D))
            (vorrq_u8 (vceqq_u8 v (vdupq_n_u8 0x0C)) (vceqq_u8 v (vdupq_n_u8 0x0B)))))
    let ws_arr := ws
    let st := (List.range 16).foldl
      (fun st i =>
        let is_ws := if ws_arr.getD i 0 == 0xFF then 1 else 0
        wc_count_buffer.word_step is_ws st) st
    wc_count_buffer.vector_loop data end_ (ptr + 16) lines st
  else (ptr, lines, st)
termination_by end_ - ptr
decreasing_by omega

/-- The tail loop of `wc_count_buffer` (lines 53-63). -/
def wc_count_buffer.tail_loop (data : Nat → Nat) (end_ : Nat)
    (ptr : Nat) (lines : Nat) (st : Nat × Bool) : Nat × (Nat × Bool) :=
  if ptr < end_ then
    let c := data ptr
    let lines := if c == 0x0A then (lines + 1) % 2 ^ 64 else lines
    let is_ws := is_ascii_space c
    wc_count_buffer.tail_loop data end_ (ptr + 1) lines (wc_count_buffer.word_step is_ws st)
  else (lines, st)
termination_by end_ - ptr
decreasing_by omega

/-- Source `wc_count_buffer` (lines 16-68); the result is the updated `*out`. -/
def wc_count_buffer (data : Nat → Nat) (len : Nat) (out : wc_counts_t) : wc_counts_t :=
  let lines := 0
  let words := 0
  let bytes := len % 2 ^ 64
  let in_word := false
  let end_ := len
  let r := wc_count_buffer.vector_loop data end_ 0 lines (words, in_word)
  let t := wc_count_buffer.tail_loop data end_ r.1 r.2.1 r.2.2
  { lines := (out.lines + t.1) % 2 ^ 64,
    words := (out.words + t.2.1) % 2 ^ 64,
    bytes := (out.bytes + bytes) % 2 ^ 64 }

/-- The read loop of `wc_stream` (lines 98-103) on the sequence of chunks
returned by `fread(buf,1,cap,fp)` (the loop ends at the first empty one): `wc_count_buffer(buf,n,&c);`
(the local `in_word` of `wc_stream` is never passed on). -/
def wc_stream.loop : List (List Nat) → wc_counts_t → wc_counts_t
  | [], c => c
  | chunk :: rest, c =>
    if chunk.length != 0 then
      wc_stream.loop rest (wc_count_buffer (ofList chunk) chunk.length c)
    else c

end chatgpt_o3

/-! ## claude_opus_4/wc_optimized.c (continued) -/

namespace claude_opus_4

open Wc

/-- The 64-byte loop of `count_newlines_neon` (lines 30-49) on the state
(`data`, `len`, `count`); each of the four blocks adds `vaddvq_u8(eq) / 255`. -/
def count_newlines_neon.loop64 (mem : Nat → Nat) (data len count : Nat) : Nat × Nat × Nat :=
  if 64 ≤ len then
    let nl_vec := vdupq_n_u8 0x0A
    let v0 := vld1q_u8 mem data
    let v1 := vld1q_u8 mem (data + 16)
    let v2 := vld1q_u8 mem (data + 32)
    let v3 := vld1q_u8 mem (data + 48)
    let eq0 := vceqq_u8 v0 nl_vec
    let eq1 := vceqq_u8 v1 nl_vec
    let eq2 := vceqq_u8 v2 nl_vec
    let eq3 := vceqq_u8 v3 nl_vec
    let count := (count + vaddvq_u8 eq0 / 255) % 2 ^ 64
    let count := (count + vaddvq_u8 eq1 / 255) % 2 ^ 64
    let count := (count + vaddvq_u8 eq2 / 255) % 2 ^ 64
    let count := (count + vaddvq_u8 eq3 / 255) % 2 ^ 64
    count_newlines_neon.loop64 mem (data + 64) (len - 64) count
  else (data, len, count)
termination_by len
decreasing_by omega

/-- The 16-byte loop of `count_newlines_neon` (lines 52-58). -/
def count_newlines_neon.loop16 (mem : Nat → Nat) (data len count : Nat) : Nat × Nat × Nat :=
  if 16 ≤ len then
    let nl_vec := vdupq_n_u8 0x0A
    let v := vld1q_u8 mem data
    let eq := vceqq_u8 v nl_vec
    let count := (count + vaddvq_u8 eq / 255) % 2 ^ 64
    count_newlines_neon.loop16 mem (data + 16) (len - 16) count
  else (data, len, count)
termination_by len
decreasing_by omega

/-- The byte loop of `count_newlines_neon` (lines 61-63):
`while (len--) { if (*data++ == '\n') count++; }`. -/
def count_newlines_neon.loop1 (mem : Nat → Nat) (data len count : Nat) : Nat :=
  if len ≠ 0 then
    let count := if mem data == 0x0A then (count + 1) % 2 ^ 64 else count
    count_newlines_neon.loop1 mem (data + 1) (len - 1) count
  else count
termination_by len
decreasing_by omega

/-- Source `count_newlines_neon` (lines 24-66); `mem` is the memory `data` points into. -/
def count_newlines_neon (mem : Nat → Nat) (len : Nat) : Nat :=
  let count := 0
  let r := count_newlines_neon.loop64 mem 0 len count
  let r := count_newlines_neon.loop16 mem r.1 r.2.1 r.2.2
  count_newlines_neon.loop1 mem r.1 r.2.1 r.2.2

/-- The read loop of `process_file_buffered` (lines 145-148) on the sequence of
chunks returned by `fread(buffer, 1, BUFFER_SIZE, fp)` (the loop ends at the
first empty one): `c->bytes += bytes_read; count_words_and_lines(buffer, bytes_read, c);` -/
def process_file_buffered.loop : List (List Nat) → counts_t → counts_t
  | [], c => c
  | chunk :: rest, c =>
    if 0 < chunk.length then
      let c := { c with bytes := (c.bytes + chunk.length) % 2 ^ 64 }
      process_file_buffered.loop rest (count_words_and_lines (ofList chunk) chunk.length c)
    else c

end claude_opus_4

/-! ## chatgpt_o4-mini-high/wc.c (continued) -/

namespace chatgpt_o4_mini_high

open Wc

/-- Source `struct stats { uint64_t lines; uint64_t words; uint64_t bytes; };` -/
structure stats where
  lines : Nat
  words : Nat
  bytes : Nat
deriving DecidableEq, Repr

/-- The loop of `count_buffer` (lines 27-40); `in_word` only takes the values 0 and 1. -/
def count_buffer.loop (char_signed : Bool) (buf : Nat → Nat) (len : Nat)
    (i : Nat) (s : stats) (in_word : Bool) : stats :=
  if i < len then
    let c := char_of_byte char_signed (buf i)
    let s := if c == 0x0A then { s with lines := (s.lines + 1) % 2 ^ 64 } else s
    let sp := is_ascii_space c
    if sp == 0 then
      count_buffer.loop char_signed buf len (i + 1) s true
    else if in_word then
      count_buffer.loop char_signed buf len (i + 1)
        { s with words := (s.words + 1) % 2 ^ 64 } false
    else
      count_buffer.loop char_signed buf len (i + 1) s in_word
  else s
termination_by len - i
decreasing_by all_goals omega

/-- Source `count_buffer` (lines 24-43); the result is the updated `*s`. -/
def count_buffer (char_signed : Bool) (buf : Nat → Nat) (len : Nat) (s : stats) : stats :=
  let in_word := false
  let s := { s with bytes := (s.bytes + len) % 2 ^ 64 }
  count_buffer.loop char_signed buf len 0 s in_word

/-- The pattern of `unit_tests` (test_wc.c lines 44-48 and 51-54): `count_buffer`
on zeroed stats followed by the caller's finalization
`if (len > 0 && !is_ascii_space(last byte)) s.words++;`. -/
def unit_tests.count_and_finalize (char_signed : Bool) (buf : Nat → Nat) (len : Nat) : stats :=
  let s := count_buffer char_signed buf len ⟨0, 0, 0⟩
  if decide (0 < len) && is_ascii_space (char_of_byte char_signed (buf (len - 1))) == 0 then
    { s with words := (s.words + 1) % 2 ^ 64 }
  else s

/-- Source `enum { BUF_SIZE = 1 << 20 };` (line 47). -/
def BUF_SIZE : Nat := 1 <<< 20

/-- Effect of a successful `read(fd, buf, BUF_SIZE)` that delivers `chunk`:
the bytes are stored from `buf[0]` on and the rest of `buf` is left as it was. -/
def read_into (buf : Nat → Nat) (chunk : List Nat) : Nat → Nat :=
  fun i => if i < chunk.length then chunk.getD i 0 else buf i

/-- The read loop of `process_fd` (lines 55-57).  The successive results of
`read` are given as a list: `some chunk` for a call returning `chunk.length`
bytes, `none` for a call returning -1; once the list is used up `read` returns
0 (end of file).  The result is the last `r`, the buffer and `local`. -/
def process_fd.loop (char_signed : Bool) :
    List (Option (List Nat)) → (Nat → Nat) → stats → Int × (Nat → Nat) × stats
  | [], buf, loc => (0, buf, loc)
  | none :: _, buf, loc => (-1, buf, loc)
  | some chunk :: rest, buf, loc =>
    if 0 < chunk.length then
      let buf := read_into buf chunk
      process_fd.loop char_signed rest buf (count_buffer char_signed buf chunk.length loc)
    else (0, buf, loc)

/-- Source `process_fd` (lines 46-73).  `malloc_ok` says whether `malloc`
succeeded and `buf0` is the content of the fresh buffer; the result is the
return value and the final `*s`. -/
def process_fd (char_signed : Bool) (malloc_ok : Bool) (buf0 : Nat → Nat)
    (reads : List (Option (List Nat))) (s : stats) : Int × stats :=
  if !malloc_ok then (-1, s)
  else
    let r := process_fd.loop char_signed reads buf0 ⟨0, 0, 0⟩
    let buf := r.2.1
    let loc := r.2.2
    if r.1 < 0 then (-1, s)
    else
      let loc :=
        if 0 < loc.bytes then
          let last := char_of_byte char_signed (buf ((loc.bytes - 1) % BUF_SIZE))
          if is_ascii_space last == 0 then { loc with words := (loc.words + 1) % 2 ^ 64 }
          else loc
        else loc
      (0, loc)

end chatgpt_o4_mini_high

/-! ## claude4_sonnet/wc.c -/

namespace claude4_sonnet

open Wc
open chatgpt_o4_mini_high (char_of_byte)

/-- Source `wc_counts_t` (lines 19-24), four `size_t` fields. -/
structure wc_counts_t where
  lines : Nat
  words : Nat
  chars : Nat
  bytes : Nat
deriving DecidableEq, Repr

/-- Source `wc_options_t` (lines 27-33), five `int` fields. -/
structure wc_options_t where
  count_lines : Int
  count_words : Int
  count_chars : Int
  count_bytes : Int
  max_line_length : Int
deriving DecidableEq, Repr

/-- The NEON loop of `count_lines_simd` (lines 46-59) on the state (`ptr`, `count`). -/
def count_lines_simd.neon_loop (data : Nat → Nat) (simd_end : Nat)
    (ptr count : Nat) : Nat × Nat :=
  if ptr < simd_end then
    let newline_vec := vdupq_n_u8 0x0A
    let chunk := vld1q_u8 data ptr
    let cmp := vceqq_u8 chunk newline_vec
    let pairs := vreinterpretq_u64_u8 cmp
    let low := vgetq_lane_u64 pairs 0
    let high := vgetq_lane_u64 pairs 1
    let count := (count + popcountll low / 8) % 2 ^ 64
    let count := (count + popcountll high / 8) % 2 ^ 64
    count_lines_simd.neon_loop data simd_end (ptr + 16) count
  else (ptr, count)
termination_by simd_end - ptr
decreasing_by omega

/-- The loop over the remaining bytes of `count_lines_simd` (lines 62-65);
`*ptr` is read as a `char`. -/
def count_lines_simd.tail_loop (char_signed : Bool) (data : Nat → Nat) (end_ : Nat)
    (ptr count : Nat) : Nat :=
  if ptr < end_ then
    let count :=
      if char_of_byte char_signed (data ptr) == 0x0A then (count + 1) % 2 ^ 64 else count
    count_lines_simd.tail_loop char_signed data end_ (ptr + 1) count
  else count
termination_by end_ - ptr
decreasing_by omega

/-- The fallback loop of `count_lines_simd` (lines 71-73), used when the build
has no `__ARM_NEON`. -/
def count_lines_simd.fallback_loop (char_signed : Bool) (data : Nat → Nat) (size : Nat)
    (i count : Nat) : Nat :=
  if i < size then
    let count :=
      if char_of_byte char_signed (data i) == 0x0A then (count + 1) % 2 ^ 64 else count
    count_lines_simd.fallback_loop char_signed data size (i + 1) count
  else count
termination_by size - i
decreasing_by omega

/-- Source `count_lines_simd` (lines 36-76); `arm_neon` says whether the build
defines `__ARM_NEON`. -/
def count_lines_simd (arm_neon char_signed : Bool) (data : Nat → Nat) (size : Nat) : Nat :=
  if arm_neon then
    let ptr := 0
    let end_ := size
    let count := 0
    let simd_end := end_ - (end_ - ptr) % 16
    let r := count_lines_simd.neon_loop data simd_end ptr count
    count_lines_simd.tail_loop char_signed data end_ r.1 r.2
  else
    count_lines_simd.fallback_loop char_signed data size 0 0

/-- The loop of `count_words_optimized` (lines 85-95). -/
def count_words_optimized.loop (char_signed : Bool) (data : Nat → Nat) (size : Nat)
    (i count : Nat) (in_word : Bool) : Nat :=
  if i < size then
    let c := char_of_byte char_signed (data i)
    let is_space :=
      (c == 0x20 || c == 0x09 || c == 0x0A || c == 0x0D || c == 0x0C || c == 0x0B)
    if !is_space && !in_word then
      count_words_optimized.loop char_signed data size (i + 1) ((count + 1) % 2 ^ 64) true
    else if is_space then
      count_words_optimized.loop char_signed data size (i + 1) count false
    else
      count_words_optimized.loop char_signed data size (i + 1) count in_word
  else count
termination_by size - i
decreasing_by all_goals omega

/-- Source `count_words_optimized` (lines 79-98). -/
def count_words_optimized (char_signed : Bool) (data : Nat → Nat) (size : Nat) : Nat :=
  if size == 0 then 0
  else count_words_optimized.loop char_signed data size 0 0 false

/-- Source `count_chars_ascii` (lines 101-103). -/
def count_chars_ascii (_data : Nat → Nat) (size : Nat) : Nat := size

/-- Source `count_data` (lines 106-126). -/
def count_data (arm_neon char_signed : Bool) (data : Nat → Nat) (size : Nat)
    (opts : wc_options_t) : wc_counts_t :=
  let counts : wc_counts_t := ⟨0, 0, 0, 0⟩
  let counts := if opts.count_bytes != 0 then { counts with bytes := size } else counts
  let counts :=
    if opts.count_chars != 0 then { counts with chars := count_chars_ascii data size }
    else counts
  let counts :=
    if opts.count_lines != 0 then
      { counts with lines := count_lines_simd arm_neon char_signed data size }
    else counts
  let counts :=
    if opts.count_words != 0 then
      { counts with words := count_words_optimized char_signed data size }
    else counts
  counts

end claude4_sonnet

/-! ## grok3/wc.c -/

namespace Wc

/-- C library `isspace` applied to an `int` argument, "C" locale: true exactly
for the six values space, `\t`, `\n`, `\v`, `\f`, `\r`.  A negative argument
arises when a high-bit byte is read through a signed `char`; the C standard
leaves that call undefined (except for `EOF`), and the C libraries return 0
for it, which is what this definition does. -/
def isspace_int (c : Int) : Bool :=
  c == 0x20 || c == 0x09 || c == 0x0A || c == 0x0B || c == 0x0C || c == 0x0D

end Wc

namespace grok3

open Wc
open chatgpt_o4_mini_high (char_of_byte)

/-- Source `typedef struct { long lines; long words; long chars; } Counts;`
(the counters only change by `++`, a signed increment: the integer successor). -/
structure Counts where
  lines : Int
  words : Int
  chars : Int
deriving DecidableEq, Repr

/-- The loop of `process_buffer` (lines 24-35) on the state (`counts`, `in_word`). -/
def process_buffer.loop (char_signed : Bool) (buffer : Nat → Nat) (size : Nat)
    (i : Nat) (counts : Counts) (in_word : Bool) : Counts × Bool :=
  if i < size then
    let counts := { counts with chars := counts.chars + 1 }
    let counts :=
      if char_of_byte char_signed (buffer i) == 0x0A then
        { counts with lines := counts.lines + 1 }
      else counts
    if isspace_int (char_of_byte char_signed (buffer i)) then
      process_buffer.loop char_signed buffer size (i + 1) counts false
    else if !in_word then
      process_buffer.loop char_signed buffer size (i + 1)
        { counts with words := counts.words + 1 } true
    else
      process_buffer.loop char_signed buffer size (i + 1) counts in_word
  else (counts, in_word)
termination_by size - i
decreasing_by all_goals omega

/-- Source `process_buffer` (lines 20-37). -/
def process_buffer (char_signed : Bool) (buffer : Nat → Nat) (size : Nat) : Counts :=
  let counts : Counts := ⟨0, 0, 0⟩
  let in_word := false
  (process_buffer.loop char_signed buffer size 0 counts in_word).1

/-- The inner loop of `process_stdin` (lines 80-91) over the `bytes_read` bytes
just read, on the state (`counts`, `in_word`). -/
def process_stdin.inner_loop (char_signed : Bool) (buffer : Nat → Nat) (bytes_read : Nat)
    (i : Nat) (counts : Counts) (in_word : Bool) : Counts × Bool :=
  if i < bytes_read then
    let counts := { counts with chars := counts.chars + 1 }
    let counts :=
      if char_of_byte char_signed (buffer i) == 0x0A then
        { counts with lines := counts.lines + 1 }
      else counts
    if isspace_int (char_of_byte char_signed (buffer i)) then
      process_stdin.inner_loop char_signed buffer bytes_read (i + 1) counts false
    else if !in_word then
      process_stdin.inner_loop char_signed buffer bytes_read (i + 1)
        { counts with words := counts.words + 1 } true
    else
      process_stdin.inner_loop char_signed buffer bytes_read (i + 1) counts in_word
  else (counts, in_word)
termination_by bytes_read - i
decreasing_by all_goals omega

/-- The read loop of `process_stdin` (lines 79-92) on the sequence of chunks
returned by successful calls `read(STDIN_FILENO, buffer, sizeof(buffer))`; the
loop ends at the first empty chunk (end of input). -/
def process_stdin.loop (char_signed : Bool) :
    List (List Nat) → Counts × Bool → Counts × Bool
  | [], st => st
  | chunk :: rest, st =>
    if 0 < chunk.length then
      process_stdin.loop char_signed rest
        (process_stdin.inner_loop char_signed (ofList chunk) chunk.length 0 st.1 st.2)
    else st

/-- Source `process_stdin` (lines 73-94) on the chunks returned by `read`. -/
def process_stdin (char_signed : Bool) (chunks : List (List Nat)) : Counts :=
  let counts : Counts := ⟨0, 0, 0⟩
  let in_word := false
  (process_stdin.loop char_signed chunks (counts, in_word)).1

end grok3

/-! ## Test drivers inside the sources, and word boundaries of a byte sequence -/

namespace Wc

/-- Whether a byte sequence is non-empty and ends in a non-whitespace byte. -/
def endsInWord (ws : Nat → Bool) (A : List Nat) : Bool :=
  match A.getLast? with
  | some a => !ws a
  | none => false

/-- Whether a byte sequence is non-empty and starts with a non-whitespace byte. -/
def startsInWord (ws : Nat → Bool) (B : List Nat) : Bool :=
  match B.head? with
  | some b => !ws b
  | none => false

/-- C library `memset(s, c, n)` on the memory `mem`, `s` being offset 0. -/
def memset (mem : Nat → Nat) (c n : Nat) : Nat → Nat :=
  fun j => if j < n then c else mem j

/-- C library `strcpy(dst, src)` on the memory `mem`: the bytes of the string
`src` are stored from offset `dst` on, followed by the terminating NUL. -/
def strcpy (mem : Nat → Nat) (dst : Nat) (src : List Nat) : Nat → Nat :=
  fun j =>
    if dst ≤ j ∧ j < dst + src.length then src.getD (j - dst) 0
    else if j = dst + src.length then 0
    else mem j

/-- The search of `strlen` from offset `p`, looking at no more than `fuel` bytes. -/
def strlen.loop (mem : Nat → Nat) : Nat → Nat → Nat
  | 0, p => p
  | fuel + 1, p => if mem p = 0 then p else strlen.loop mem fuel (p + 1)

/-- C library `strlen` of the string at offset 0 of `mem`: the offset of the
first NUL among the first `limit` bytes (`limit`, the extent of the memory that
can be read, when there is none). -/
def strlen (mem : Nat → Nat) (limit : Nat) : Nat := strlen.loop mem limit 0

end Wc

namespace claude4_sonnet

open Wc

/-- The loop `for (int i = 10; i < 99; i += 10) large[i] = '\n';` of
`test_count_lines_simd` (lines 311-313). -/
def test_count_lines_simd.loop (large : Nat → Nat) (i : Nat) : Nat → Nat :=
  if i < 99 then test_count_lines_simd.loop (Function.update large i 0x0A) (i + 10)
  else large
termination_by 99 - i
decreasing_by omega

/-- The array `large` of `test_count_lines_simd` (lines 308-313) once filled:
`memset(large, 'a', 99); large[99] = '\0';` and then the loop; `mem0` is the
content of the array before. -/
def test_count_lines_simd.large (mem0 : Nat → Nat) : Nat → Nat :=
  test_count_lines_simd.loop (Function.update (memset mem0 0x61 99) 99 0) 10

end claude4_sonnet

namespace grok3

open Wc

/-- The string literal "hello " (without its terminating NUL). -/
def run_integration_tests.hello : List Nat := [0x68, 0x65, 0x6C, 0x6C, 0x6F, 0x20]

/-- Source `process_file` (lines 40-70) on a file that exists and holds `file`,
with `fstat` and `mmap` succeeding: zero counts for an empty file, otherwise
`process_buffer(buffer, st.st_size)` on the mapped content. -/
def process_file (char_signed : Bool) (file : List Nat) : Counts :=
  let counts : Counts := ⟨0, 0, 0⟩
  if file.length = 0 then counts
  else process_buffer char_signed (ofList file) file.length

end grok3

/-! ## 64-bit arithmetic on `long` counters -/

namespace Wc

/-- Conversion of a `long` to `unsigned long` (`uint64_t`, `size_t`): the value
modulo 2^64. -/
def to_u64 (x : Int) : Nat := (x % 2 ^ 64).toNat

/-- Conversion of an `unsigned long` to `long` (64 bits, two's complement): values
from 2^63 on become negative. -/
def to_long (n : Nat) : Int :=
  if n % 2 ^ 64 < 2 ^ 63 then ((n % 2 ^ 64 : Nat) : Int) else ((n % 2 ^ 64 : Nat) : Int) - 2 ^ 64

/-- The C statement `x += n` for `long x` and an unsigned 64-bit `n` (`size_t`,
`uint64_t`): by the usual arithmetic conversions the sum is computed in
`unsigned long`, so it wraps modulo 2^64, and is converted back to `long`. -/
def long_add_u64 (x : Int) (n : Nat) : Int := to_long ((to_u64 x + n) % 2 ^ 64)

end Wc

namespace gemeni25pro.lp64

open Wc

/-- Source `process_buffer` (lines 24-90) with the two additions whose right
operand is unsigned, `counts->bytes += size` (line 28) and
`counts->lines += line_count_in_buffer` (line 53), carried out in 64 bits.  The
loops are those of `gemeni25pro.process_buffer`; their `counts->lines++` and
`counts->words++` are signed increments. -/
def process_buffer (arm_neon : Bool) (buffer : Nat → Nat) (size : Nat)
    (counts : Counts) (in_word_prev : Bool) : Counts × Bool :=
  let in_word := in_word_prev
  let counts := { counts with bytes := long_add_u64 counts.bytes size }
  let end_ := size
  let aligned_end := (size / 16) * 16
  let counts :=
    if arm_neon then
      { counts with
        lines := long_add_u64 counts.lines
          (gemeni25pro.process_buffer.neon_loop buffer aligned_end 0 0) }
    else counts
  let r := gemeni25pro.process_buffer.scalar_loop arm_neon buffer end_ 0 counts in_word
  let counts := r.1
  let in_word := r.2
  let counts :=
    if arm_neon then gemeni25pro.process_buffer.leftover_loop buffer end_ aligned_end counts
    else counts
  (counts, in_word)

/-- The read loop of `process_file` (lines 98-100) and of `main` (lines 119-121)
on the sequence of chunks delivered by `fread`, over the 64-bit `process_buffer`. -/
def process_file.loop (arm_neon : Bool) :
    List (List Nat) → Counts × Bool → Counts × Bool
  | [], st => st
  | chunk :: rest, st =>
    process_file.loop arm_neon rest
      (process_buffer arm_neon (ofList chunk) chunk.length st.1 st.2)

end gemeni25pro.lp64

namespace grok3

open Wc

/-- The loop `for (int i = 0; i < bound; i += 6) strcpy(large_content + i, "hello ");`
of `run_integration_tests` (lines 174-176) on a block of `alloc` bytes, `bound`
being `1024 * 1024`.  A `strcpy` stores the 6 bytes of the string and its NUL;
the result is `none` as soon as one of them would fall outside the block
(undefined behaviour in C). -/
def run_integration_tests.loop (alloc bound : Nat) (large_content : Nat → Nat) (i : Nat) :
    Option (Nat → Nat) :=
  if i < bound then
    if i + (run_integration_tests.hello.length + 1) ≤ alloc then
      run_integration_tests.loop alloc bound
        (strcpy large_content i run_integration_tests.hello) (i + 6)
    else none
  else some large_content
termination_by bound - i
decreasing_by omega

/-- The block `large_content = malloc(1024 * 1024 + 1)` after the loop of lines
174-176; `mem0` is the content of the fresh block. -/
def run_integration_tests.large_content (mem0 : Nat → Nat) : Option (Nat → Nat) :=
  run_integration_tests.loop (1024 * 1024 + 1) (1024 * 1024) mem0 0

end grok3

/-! # Lemmas and theorems -/

namespace Wc
theorem bytesFrom_zero (buffer : Nat → Nat) (p : Nat) : bytesFrom buffer p 0 = [] := by
  simp [bytesFrom]

theorem bytesFrom_succ (buffer : Nat → Nat) (p n : Nat) :
    bytesFrom buffer p (n + 1) = buffer p :: bytesFrom buffer (p + 1) n := by
  simp [bytesFrom, List.range'_succ]

theorem bytesFrom_add (buffer : Nat → Nat) (p m n : Nat) :
    bytesFrom buffer p (m + n) = bytesFrom buffer p m ++ bytesFrom buffer (p + m) n := by
  induction m generalizing p with
  | zero => simp [bytesFrom_zero]
  | succ m ih =>
    rw [show m + 1 + n = (m + n) + 1 by omega, bytesFrom_succ, bytesFrom_succ, ih]
    simp [Nat.add_assoc, Nat.add_comm 1 m]

theorem bytesOf_eq_bytesFrom (buffer : Nat → Nat) (size : Nat) :
    bytesOf buffer size = bytesFrom buffer 0 size := by
  simp [bytesOf, bytesFrom, List.range_eq_range']

theorem bytesOf_ofList (l : List Nat) : bytesOf (ofList l) l.length = l := by
  apply List.ext_getElem
  · simp [bytesOf]
  · intro i h1 h2
    simp [bytesOf, ofList, List.getD_eq_getElem?_getD, List.getElem?_eq_getElem h2]
end Wc

namespace gemeni25pro
open Wc

theorem scalar_loop_eq (arm_neon : Bool) (buffer : Nat → Nat) (n : Nat) :
    ∀ (p : Nat) (counts : Counts) (in_word : Bool),
      process_buffer.scalar_loop arm_neon buffer (p + n) p counts in_word =
        (⟨counts.lines + (if arm_neon then 0 else newlines (bytesFrom buffer p n)),
          counts.words + starts isspace (bytesFrom buffer p n) in_word, counts.bytes⟩,
         lastFlag isspace (bytesFrom buffer p n) in_word) := by
  induction n with
  | zero =>
    intro p counts in_word
    rw [process_buffer.scalar_loop]
    cases arm_neon <;> simp [bytesFrom_zero, newlines, starts, lastFlag]
  | succ n ih =>
    intro p counts in_word
    rw [process_buffer.scalar_loop]
    have hp : p < p + (n + 1) := by omega
    have he : p + (n + 1) = (p + 1) + n := by omega
    simp only [hp, if_true]
    rw [he, bytesFrom_succ]
    cases arm_neon <;> cases in_word <;> by_cases hs : isspace (buffer p) = true <;>
      by_cases hn : (buffer p == 10) = true <;>
      simp [ih, newlines, starts, lastFlag, hs, hn, List.count_cons] <;> omega

theorem leftover_loop_eq (buffer : Nat → Nat) (n : Nat) :
    ∀ (p : Nat) (counts : Counts),
      process_buffer.leftover_loop buffer (p + n) p counts =
        { counts with lines := counts.lines + newlines (bytesFrom buffer p n) } := by
  induction n with
  | zero =>
    intro p counts
    rw [process_buffer.leftover_loop]
    simp [bytesFrom_zero, newlines]
  | succ n ih =>
    intro p counts
    rw [process_buffer.leftover_loop]
    have hp : p < p + (n + 1) := by omega
    have he : p + (n + 1) = (p + 1) + n := by omega
    simp only [hp, if_true]
    rw [he, bytesFrom_succ]
    by_cases hn : (buffer p == 10) = true <;>
      simp [ih, newlines, hn, List.count_cons] <;> omega

theorem vld1q_u8_eq_bytesFrom (buffer : Nat → Nat) (p : Nat) :
    vld1q_u8 buffer p = bytesFrom buffer p 16 := by
  simp [vld1q_u8, bytesFrom, List.range'_eq_map_range]

theorem lanes_sum (l : List Nat) :
    ∀ n, l.length = n →
      (vshrq_n_u8 (vceqq_u8 l (List.replicate n 0x0A)) 7).sum = l.count 0x0A := by
  induction l with
  | nil => intro n _; simp [vshrq_n_u8, vceqq_u8]
  | cons x xs ih =>
    intro n hn
    cases n with
    | zero => simp at hn
    | succ m =>
      have hm : xs.length = m := by simpa using hn
      have h := ih m hm
      simp only [vshrq_n_u8, vceqq_u8] at h
      by_cases hx : x = 10
      · simp [vshrq_n_u8, vceqq_u8, List.replicate_succ, List.count_cons, hx]
        simp at h
        omega
      · simp [vshrq_n_u8, vceqq_u8, List.replicate_succ, List.count_cons, hx]
        simp at h
        omega

theorem block_count (buffer : Nat → Nat) (p : Nat) :
    vaddvq_u8 (vshrq_n_u8 (vceqq_u8 (vld1q_u8 buffer p) (vdupq_n_u8 0x0A)) 7) =
      newlines (bytesFrom buffer p 16) := by
  have hlen : (bytesFrom buffer p 16).length = 16 := by simp [bytesFrom]
  have hle : (bytesFrom buffer p 16).count 0x0A ≤ 16 := by
    have := List.count_le_length 0x0A (bytesFrom buffer p 16)
    omega
  rw [vaddvq_u8, vdupq_n_u8, vld1q_u8_eq_bytesFrom, lanes_sum _ 16 hlen, newlines]
  omega

theorem neon_loop_eq (buffer : Nat → Nat) (k : Nat) :
    ∀ (p acc : Nat), acc + newlines (bytesFrom buffer p (16 * k)) < 2 ^ 64 →
      process_buffer.neon_loop buffer (p + 16 * k) p acc =
        acc + newlines (bytesFrom buffer p (16 * k)) := by
  induction k with
  | zero =>
    intro p acc _
    rw [process_buffer.neon_loop]
    simp [bytesFrom_zero, newlines]
  | succ k ih =>
    intro p acc h
    rw [process_buffer.neon_loop]
    have hp : p < p + 16 * (k + 1) := by omega
    have he : p + 16 * (k + 1) = (p + 16) + 16 * k := by omega
    have hs : bytesFrom buffer p (16 * (k + 1)) = bytesFrom buffer p 16 ++ bytesFrom buffer (p + 16) (16 * k) := by
      rw [show 16 * (k + 1) = 16 + 16 * k by omega, bytesFrom_add]
    simp only [hp, if_true, block_count]
    rw [hs] at h ⊢
    simp only [newlines, List.count_append] at h ⊢
    rw [he, Nat.mod_eq_of_lt (by omega), ih _ _ (by simp only [newlines]; omega)]
    simp only [newlines]
    omega
end gemeni25pro

namespace Wc

theorem starts_append (ws : Nat → Bool) (a b : List Nat) :
    ∀ w, starts ws (a ++ b) w = starts ws a w + starts ws b (lastFlag ws a w) := by
  induction a with
  | nil => intro w; simp [starts, lastFlag]
  | cons x xs ih =>
    intro w
    by_cases hx : ws x = true <;> simp [starts, lastFlag, hx, ih] <;> omega

theorem lastFlag_append (ws : Nat → Bool) (a b : List Nat) :
    ∀ w, lastFlag ws (a ++ b) w = lastFlag ws b (lastFlag ws a w) := by
  induction a with
  | nil => intro w; simp [lastFlag]
  | cons x xs ih => intro w; simp [lastFlag, ih]

theorem starts_wordCount (ws : Nat → Bool) (S : List Nat) :
    starts ws S false = wordCount ws S ∧
    starts ws S true + (if ((S.splitOnP ws).headD []).isEmpty then 0 else 1) = wordCount ws S := by
  induction S with
  | nil => simp [starts, wordCount, maximalRuns]
  | cons x xs ih =>
    obtain ⟨ih1, ih2⟩ := ih
    cases hsp : xs.splitOnP ws with
    | nil => exact absurd hsp (List.splitOnP_ne_nil ws xs)
    | cons h t =>
      simp only [wordCount, maximalRuns, hsp] at ih1 ih2
      by_cases hx : ws x = true
      · simp [starts, wordCount, maximalRuns, List.splitOnP_cons, hx, hsp, ih1]
      · cases h with
        | nil =>
          simp [starts, wordCount, maximalRuns, List.splitOnP_cons, hx, hsp] at ih1 ih2 ⊢
          omega
        | cons y ys =>
          simp [starts, wordCount, maximalRuns, List.splitOnP_cons, hx, hsp] at ih1 ih2 ⊢
          omega

theorem starts_false (ws : Nat → Bool) (S : List Nat) :
    starts ws S false = wordCount ws S := (starts_wordCount ws S).1

theorem starts_true_dropWhile (ws : Nat → Bool) (S : List Nat) :
    starts ws S true = starts ws (S.dropWhile (fun b => !ws b)) false := by
  induction S with
  | nil => simp [starts]
  | cons x xs ih =>
    by_cases hx : ws x = true
    · simp [starts, List.dropWhile, hx]
    · simp [starts, List.dropWhile, hx, ih]

theorem bytesOf_succ (buffer : Nat → Nat) (n : Nat) :
    bytesOf buffer (n + 1) = buffer 0 :: bytesOf (fun i => buffer (i + 1)) n := by
  simp [bytesOf, List.range_succ_eq_map, List.map_map, Function.comp_def]

theorem starts_eq_wordStarts (ws : Nat → Bool) (size : Nat) :
    ∀ (buffer : Nat → Nat) (w : Bool),
      starts ws (bytesOf buffer size) w = wordStarts ws buffer size w := by
  induction size with
  | zero => intro buffer w; simp [bytesOf, starts, wordStarts]
  | succ n ih =>
    intro buffer w
    have hshift : ∀ i, isWordStart ws buffer w (i + 1) =
        isWordStart ws (fun i => buffer (i + 1)) (!ws (buffer 0)) i := by
      intro i
      cases i with
      | zero => simp [isWordStart]
      | succ j => simp [isWordStart]
    rw [bytesOf_succ, wordStarts, List.range_succ_eq_map, List.filter_cons, List.filter_map]
    have hcomp : (isWordStart ws buffer w ∘ Nat.succ) =
        isWordStart ws (fun i => buffer (i + 1)) (!ws (buffer 0)) := by
      funext i; exact hshift i
    rw [hcomp]
    by_cases hx : ws (buffer 0) = true
    · have h0 : isWordStart ws buffer w 0 = false := by simp [isWordStart, hx]
      simp [starts, hx, h0, ih, wordStarts]
    · have hx' : ws (buffer 0) = false := by simpa using hx
      cases w with
      | true =>
        have h0 : isWordStart ws buffer true 0 = false := by simp [isWordStart]
        simp [starts, hx', h0, ih, wordStarts]
      | false =>
        have h0 : isWordStart ws buffer false 0 = true := by simp [isWordStart, hx']
        simp [starts, hx', h0, ih, wordStarts]
        omega

end Wc

namespace gemeni25pro
open Wc

theorem scalar_loop_all (arm_neon : Bool) (buffer : Nat → Nat) (size : Nat)
    (counts : Counts) (in_word : Bool) :
    process_buffer.scalar_loop arm_neon buffer size 0 counts in_word =
      (⟨counts.lines + (if arm_neon then 0 else newlines (bytesOf buffer size)),
        counts.words + starts isspace (bytesOf buffer size) in_word, counts.bytes⟩,
       lastFlag isspace (bytesOf buffer size) in_word) := by
  have h := scalar_loop_eq arm_neon buffer size 0 counts in_word
  rw [Nat.zero_add] at h
  rw [h, bytesOf_eq_bytesFrom]

theorem leftover_loop_tail (buffer : Nat → Nat) (size : Nat) (counts : Counts) :
    process_buffer.leftover_loop buffer size (size / 16 * 16) counts =
      { counts with
        lines := counts.lines + newlines (bytesFrom buffer (size / 16 * 16) (size % 16)) } := by
  have h := leftover_loop_eq buffer (size % 16) (size / 16 * 16) counts
  rw [show size / 16 * 16 + size % 16 = size by omega] at h
  exact h

theorem neon_loop_blocks (buffer : Nat → Nat) (size : Nat) (h : size < 2 ^ 64) :
    process_buffer.neon_loop buffer (size / 16 * 16) 0 0 =
      newlines (bytesFrom buffer 0 (size / 16 * 16)) := by
  have hlen : (bytesFrom buffer 0 (16 * (size / 16))).length = 16 * (size / 16) := by
    simp [bytesFrom]
  have hle : newlines (bytesFrom buffer 0 (16 * (size / 16))) ≤ 16 * (size / 16) := by
    have := List.count_le_length 0x0A (bytesFrom buffer 0 (16 * (size / 16)))
    simp only [newlines]
    omega
  have h2 := neon_loop_eq buffer (size / 16) 0 0 (by omega)
  rw [Nat.zero_add, Nat.zero_add] at h2
  rw [show size / 16 * 16 = 16 * (size / 16) by omega]
  exact h2

theorem newlines_split (buffer : Nat → Nat) (size : Nat) :
    newlines (bytesOf buffer size) =
      newlines (bytesFrom buffer 0 (size / 16 * 16)) +
        newlines (bytesFrom buffer (size / 16 * 16) (size % 16)) := by
  have h := bytesFrom_add buffer 0 (size / 16 * 16) (size % 16)
  rw [show size / 16 * 16 + size % 16 = size by omega, Nat.zero_add] at h
  rw [bytesOf_eq_bytesFrom, h, newlines, newlines, newlines, List.count_append]

theorem process_buffer_words (arm_neon : Bool) (buffer : Nat → Nat) (size : Nat)
    (counts : Counts) (in_word_prev : Bool) :
    (process_buffer arm_neon buffer size counts in_word_prev).1.words =
      counts.words + starts isspace (bytesOf buffer size) in_word_prev := by
  cases arm_neon <;> simp [process_buffer, scalar_loop_all, leftover_loop_tail]

theorem process_buffer_bytes (arm_neon : Bool) (buffer : Nat → Nat) (size : Nat)
    (counts : Counts) (in_word_prev : Bool) :
    (process_buffer arm_neon buffer size counts in_word_prev).1.bytes = counts.bytes + size := by
  cases arm_neon <;> simp [process_buffer, scalar_loop_all, leftover_loop_tail]

theorem process_buffer_flag (arm_neon : Bool) (buffer : Nat → Nat) (size : Nat)
    (counts : Counts) (in_word_prev : Bool) :
    (process_buffer arm_neon buffer size counts in_word_prev).2 =
      lastFlag isspace (bytesOf buffer size) in_word_prev := by
  cases arm_neon <;> simp [process_buffer, scalar_loop_all, leftover_loop_tail]

theorem process_buffer_lines (arm_neon : Bool) (buffer : Nat → Nat) (size : Nat)
    (counts : Counts) (in_word_prev : Bool) (h : size < 2 ^ 64) :
    (process_buffer arm_neon buffer size counts in_word_prev).1.lines =
      counts.lines + newlines (bytesOf buffer size) := by
  cases arm_neon
  · simp [process_buffer, scalar_loop_all]
  · simp [process_buffer, scalar_loop_all, leftover_loop_tail, neon_loop_blocks buffer size h,
      newlines_split buffer size]
    omega

theorem process_buffer_eq (arm_neon : Bool) (buffer : Nat → Nat) (size : Nat)
    (counts : Counts) (in_word_prev : Bool) (h : size < 2 ^ 64) :
    process_buffer arm_neon buffer size counts in_word_prev =
      (⟨counts.lines + newlines (bytesOf buffer size),
        counts.words + starts isspace (bytesOf buffer size) in_word_prev,
        counts.bytes + size⟩,
       lastFlag isspace (bytesOf buffer size) in_word_prev) := by
  have h1 := process_buffer_lines arm_neon buffer size counts in_word_prev h
  have h2 := process_buffer_words arm_neon buffer size counts in_word_prev
  have h3 := process_buffer_bytes arm_neon buffer size counts in_word_prev
  have h4 := process_buffer_flag arm_neon buffer size counts in_word_prev
  generalize process_buffer arm_neon buffer size counts in_word_prev = r at h1 h2 h3 h4
  obtain ⟨⟨l, w, b⟩, f⟩ := r
  simp only at h1 h2 h3 h4
  rw [h1, h2, h3, h4]

theorem loop_frame (arm_neon : Bool) (chunks : List (List Nat)) :
    ∀ (counts : Counts) (in_word : Bool),
      (process_file.loop arm_neon chunks (counts, in_word)).1.words =
          counts.words + starts isspace chunks.flatten in_word ∧
      (process_file.loop arm_neon chunks (counts, in_word)).1.bytes =
          counts.bytes + chunks.flatten.length ∧
      (process_file.loop arm_neon chunks (counts, in_word)).2 =
          lastFlag isspace chunks.flatten in_word := by
  induction chunks with
  | nil => intro counts in_word; simp [process_file.loop, starts, lastFlag]
  | cons c cs ih =>
    intro counts in_word
    have hw := process_buffer_words arm_neon (ofList c) c.length counts in_word
    have hb := process_buffer_bytes arm_neon (ofList c) c.length counts in_word
    have hf := process_buffer_flag arm_neon (ofList c) c.length counts in_word
    rw [bytesOf_ofList] at hw hf
    obtain ⟨i1, i2, i3⟩ := ih (process_buffer arm_neon (ofList c) c.length counts in_word).1
      (process_buffer arm_neon (ofList c) c.length counts in_word).2
    simp only [process_file.loop, List.flatten_cons, starts_append, lastFlag_append,
      List.length_append]
    rw [i1, i2, i3, hw, hb, hf]
    refine ⟨?_, ?_, rfl⟩ <;> push_cast <;> omega

theorem loop_lines (arm_neon : Bool) (chunks : List (List Nat)) :
    ∀ (counts : Counts) (in_word : Bool), (∀ c ∈ chunks, c.length < 2 ^ 64) →
      (process_file.loop arm_neon chunks (counts, in_word)).1.lines =
          counts.lines + newlines chunks.flatten := by
  induction chunks with
  | nil => intro counts in_word _; simp [process_file.loop, newlines]
  | cons c cs ih =>
    intro counts in_word hlen
    have hl := process_buffer_lines arm_neon (ofList c) c.length counts in_word
      (hlen c (List.mem_cons_self c cs))
    rw [bytesOf_ofList] at hl
    have i1 := ih (process_buffer arm_neon (ofList c) c.length counts in_word).1
      (process_buffer arm_neon (ofList c) c.length counts in_word).2
      (fun c' hc' => hlen c' (List.mem_cons_of_mem c hc'))
    simp only [process_file.loop, List.flatten_cons]
    rw [i1, hl]
    simp only [newlines, List.count_append]
    push_cast
    omega

theorem length_le_flatten (chunks : List (List Nat)) :
    ∀ c ∈ chunks, c.length ≤ chunks.flatten.length := by
  induction chunks with
  | nil => intro c hc; simp at hc
  | cons x xs ih =>
    intro c hc
    rcases List.mem_cons.mp hc with h | h
    · subst h; simp
    · have := ih c h
      simp only [List.flatten_cons, List.length_append]
      omega

end gemeni25pro

namespace Wc

theorem starts_all_space (ws : Nat → Bool) (S : List Nat) (h : ∀ b ∈ S, ws b = true) :
    ∀ w, starts ws S w = 0 := by
  induction S with
  | nil => intro w; rfl
  | cons x xs ih =>
    intro w
    have hx : ws x = true := h x (List.mem_cons_self x xs)
    simp [starts, hx, ih (fun b hb => h b (List.mem_cons_of_mem x hb))]

theorem lastFlag_all_space (ws : Nat → Bool) (S : List Nat) (h : ∀ b ∈ S, ws b = true)
    (hne : S ≠ []) : ∀ w, lastFlag ws S w = false := by
  induction S with
  | nil => exact absurd rfl hne
  | cons x xs ih =>
    intro w
    have hx : ws x = true := h x (List.mem_cons_self x xs)
    cases xs with
    | nil => simp [lastFlag, hx]
    | cons y ys =>
      have hrec := ih (fun b hb => h b (List.mem_cons_of_mem x hb)) (by simp) (!ws x)
      simpa [lastFlag] using hrec

end Wc

namespace gemeni25pro
open Wc

/-! ### Claims about `process_buffer` -/

/-- C1 (split invariance): for every sequence of chunks (empty chunks allowed)
whose concatenation `S` fits a `size_t` length, feeding the chunks in order
through `process_buffer`, starting from `Counts {0,0,0}` and `in_word = false`
and threading the returned flag, gives the same lines, words, bytes and the
same final flag as one call of `process_buffer` on `S`.  Holds for both builds. -/
theorem process_buffer_split_invariance (arm_neon : Bool) (chunks : List (List Nat))
    (hsize : chunks.flatten.length < 2 ^ 64) :
    process_file.loop arm_neon chunks (⟨0, 0, 0⟩, false) =
      process_buffer arm_neon (ofList chunks.flatten) chunks.flatten.length ⟨0, 0, 0⟩ false := by
  have hlen : ∀ c ∈ chunks, c.length < 2 ^ 64 := fun c hc =>
    Nat.lt_of_le_of_lt (length_le_flatten chunks c hc) hsize
  obtain ⟨h1, h2, h3⟩ := loop_frame arm_neon chunks ⟨0, 0, 0⟩ false
  have h4 := loop_lines arm_neon chunks ⟨0, 0, 0⟩ false hlen
  rw [process_buffer_eq arm_neon _ _ _ _ hsize, bytesOf_ofList]
  generalize process_file.loop arm_neon chunks (⟨0, 0, 0⟩, false) = r at h1 h2 h3 h4
  obtain ⟨⟨l, w, b⟩, f⟩ := r
  simp only at h1 h2 h3 h4
  rw [h1, h2, h3, h4]

/-- Witness of C1 on the chunks "wor", "", "ld ". -/
theorem process_buffer_split_invariance_witness :
    ([[119, 111, 114], [], [108, 100, 32]] : List (List Nat)).flatten.length < 2 ^ 64 ∧
    process_file.loop true [[119, 111, 114], [], [108, 100, 32]] (⟨0, 0, 0⟩, false) =
      process_buffer true (ofList ([[119, 111, 114], [], [108, 100, 32]] : List (List Nat)).flatten)
        ([[119, 111, 114], [], [108, 100, 32]] : List (List Nat)).flatten.length ⟨0, 0, 0⟩ false :=
  ⟨by decide, process_buffer_split_invariance true _ (by decide)⟩

/-- C2 (word definition): for every byte sequence `S`, the call
`process_buffer(S, len(S), counts = {0,0,0}, in_word_prev = false)` leaves
`counts.words` equal to the number of maximal runs of non-whitespace bytes of
`S`, whitespace being the six bytes recognised by `isspace`. -/
theorem process_buffer_word_definition (arm_neon : Bool) (S : List Nat) :
    ((process_buffer arm_neon (ofList S) S.length ⟨0, 0, 0⟩ false).1.words : Int) =
      wordCount isspace S := by
  rw [process_buffer_words, bytesOf_ofList, starts_false]
  simp

/-- C3 (word-start transitions): for every buffer, size, incoming counts and
`in_word_prev`, `counts.words` grows by exactly the number of offsets `i < size`
where byte `i` is not whitespace and either `i > 0` and byte `i-1` is whitespace
or `i = 0` and `in_word_prev` is false.  In particular, with
`in_word_prev = true` a leading non-whitespace run is not counted: the growth is
the number of maximal runs left after removing that leading run. -/
theorem process_buffer_word_starts (arm_neon : Bool) (buffer : Nat → Nat) (size : Nat)
    (counts : Counts) (in_word_prev : Bool) :
    (process_buffer arm_neon buffer size counts in_word_prev).1.words =
        counts.words + wordStarts isspace buffer size in_word_prev ∧
    (process_buffer arm_neon buffer size counts true).1.words =
        counts.words +
          wordCount isspace ((bytesOf buffer size).dropWhile (fun b => !isspace b)) := by
  constructor
  · rw [process_buffer_words, starts_eq_wordStarts]
  · rw [process_buffer_words, starts_true_dropWhile, starts_false]

/-- C4, refutation of the claim as stated: on the input "one two three" of the
repository's own unit test, `process_buffer` returns `in_word = true` and has
already counted the open word (`words = 3`, the number of maximal runs), so the
finalization "if in_word, words++" gives 4, not the number of maximal runs. -/
theorem process_buffer_deferred_counting_counterexample :
    (process_buffer true
      (ofList [111, 110, 101, 32, 116, 119, 111, 32, 116, 104, 114, 101, 101]) 13
      ⟨0, 0, 0⟩ false).2 = true ∧
    (process_buffer true
      (ofList [111, 110, 101, 32, 116, 119, 111, 32, 116, 104, 114, 101, 101]) 13
      ⟨0, 0, 0⟩ false).1.words = 3 ∧
    wordCount isspace [111, 110, 101, 32, 116, 119, 111, 32, 116, 104, 114, 101, 101] = 3 ∧
    (spec_finalize (process_buffer true
      (ofList [111, 110, 101, 32, 116, 119, 111, 32, 116, 104, 114, 101, 101]) 13
      ⟨0, 0, 0⟩ false)).words = 4 := by
  rw [process_buffer_eq true _ _ _ _ (by decide)]
  decide

/-- C4 as amended: a word still open at the end of a buffer has already been
counted at its first byte.  For every chunk sequence fed from `Counts {0,0,0}`
and `in_word = false`, `counts.words` after the last chunk, without any
finalization, is the number of maximal non-whitespace runs of the whole
stream; the finalization "if in_word, words++" would add one to that number
exactly when the final flag is true. -/
theorem process_buffer_open_word_counted (arm_neon : Bool) (chunks : List (List Nat)) :
    (process_file.loop arm_neon chunks (⟨0, 0, 0⟩, false)).1.words =
        wordCount isspace chunks.flatten ∧
    (spec_finalize (process_file.loop arm_neon chunks (⟨0, 0, 0⟩, false))).words =
        wordCount isspace chunks.flatten +
          (if (process_file.loop arm_neon chunks (⟨0, 0, 0⟩, false)).2 then 1 else 0) := by
  obtain ⟨h1, -, -⟩ := loop_frame arm_neon chunks ⟨0, 0, 0⟩ false
  rw [starts_false] at h1
  simp only [Int.zero_add] at h1
  refine ⟨h1, ?_⟩
  unfold spec_finalize
  split <;> simp [h1]

/-- C7 (empty input is a no-op): for every buffer, every `Counts` value and
every `in_word_prev`, a call with `size = 0` leaves lines, words and bytes
unchanged and returns `in_word_prev`. -/
theorem process_buffer_empty (arm_neon : Bool) (buffer : Nat → Nat) (counts : Counts)
    (in_word_prev : Bool) :
    process_buffer arm_neon buffer 0 counts in_word_prev = (counts, in_word_prev) := by
  rw [process_buffer_eq arm_neon buffer 0 counts in_word_prev (by decide)]
  simp [bytesOf, newlines, starts, lastFlag]

/-- C8 (whitespace-only slice): for every non-empty buffer whose `size` bytes
are all whitespace and every `in_word_prev`, `process_buffer` returns false and
leaves `counts.words` unchanged. -/
theorem process_buffer_whitespace_only (arm_neon : Bool) (buffer : Nat → Nat) (size : Nat)
    (counts : Counts) (in_word_prev : Bool) (hpos : 0 < size)
    (hws : ∀ i, i < size → isspace (buffer i) = true) :
    (process_buffer arm_neon buffer size counts in_word_prev).2 = false ∧
    (process_buffer arm_neon buffer size counts in_word_prev).1.words = counts.words := by
  have hall : ∀ b ∈ bytesOf buffer size, isspace b = true := by
    intro b hb
    simp only [bytesOf, List.mem_map, List.mem_range] at hb
    obtain ⟨i, hi, rfl⟩ := hb
    exact hws i hi
  have hne : bytesOf buffer size ≠ [] := by
    intro h
    have := congrArg List.length h
    simp [bytesOf] at this
    omega
  rw [process_buffer_flag, process_buffer_words, starts_all_space _ _ hall,
    lastFlag_all_space _ _ hall hne]
  simp

/-- Witness of C8 on the input " \n \n " of the unit test "Whitespace Only". -/
theorem process_buffer_whitespace_only_witness :
    (0 < 5 ∧ ∀ i, i < 5 → isspace (ofList [32, 10, 32, 10, 32] i) = true) ∧
    (process_buffer true (ofList [32, 10, 32, 10, 32]) 5 ⟨0, 0, 0⟩ true).2 = false ∧
    (process_buffer true (ofList [32, 10, 32, 10, 32]) 5 ⟨0, 0, 0⟩ true).1.words = 0 :=
  ⟨⟨by decide, by decide⟩,
   process_buffer_whitespace_only true (ofList [32, 10, 32, 10, 32]) 5 ⟨0, 0, 0⟩ true
     (by decide) (by decide)⟩

end gemeni25pro

namespace chatgpt_o4_mini_high

/-- C9 (byte classification of `is_ascii_space`): for every byte value `b`
(0..255) and either signedness of `char` (high-bit bytes are negative `char`
values when `char` is signed), `is_ascii_space` is non-zero on the `char` read
from `b` if and only if `b` is one of 0x20, 0x09, 0x0A, 0x0B, 0x0C, 0x0D. -/
theorem is_ascii_space_classification (char_signed : Bool) (b : Nat) (hb : b < 256) :
    is_ascii_space (char_of_byte char_signed b) ≠ 0 ↔
      (b = 0x20 ∨ b = 0x09 ∨ b = 0x0A ∨ b = 0x0B ∨ b = 0x0C ∨ b = 0x0D) := by
  cases char_signed <;> simp [is_ascii_space, char_of_byte] <;> omega

/-- Witness of C9 at the high-bit byte 0xFF read through a signed `char`
(the `char` value -1), which is a word byte. -/
theorem is_ascii_space_classification_witness :
    (255 < 256) ∧
    (is_ascii_space (char_of_byte true 255) ≠ 0 ↔
      (255 = 0x20 ∨ 255 = 0x09 ∨ 255 = 0x0A ∨ 255 = 0x0B ∨ 255 = 0x0C ∨ 255 = 0x0D)) :=
  ⟨by decide, is_ascii_space_classification true 255 (by decide)⟩

end chatgpt_o4_mini_high

namespace Wc

theorem closes_lastFlag (ws : Nat → Bool) (S : List Nat) :
    ∀ w, closes ws S w + (if lastFlag ws S w then 1 else 0) =
      starts ws S w + (if w then 1 else 0) := by
  induction S with
  | nil => intro w; simp [closes, lastFlag, starts]
  | cons x xs ih =>
    intro w
    by_cases hx : ws x = true
    · have h := ih false
      simp only [closes, lastFlag, starts, hx, if_true, Bool.not_true] at h ⊢
      simp only [Bool.false_eq_true, if_false] at h
      omega
    · have hx' : ws x = false := by simpa using hx
      have h := ih true
      simp only [closes, lastFlag, starts, hx', Bool.not_false] at h ⊢
      simp only [if_true] at h
      cases w <;> simp at h ⊢ <;> omega

theorem starts_word (ws : Nat → Bool) (A : List Nat) (h : ∀ a ∈ A, ws a = false) (hne : A ≠ []) :
    ∀ w, starts ws A w = (if w then 0 else 1) ∧ lastFlag ws A w = true := by
  induction A with
  | nil => exact absurd rfl hne
  | cons x xs ih =>
    intro w
    have hx : ws x = false := h x (List.mem_cons_self x xs)
    cases xs with
    | nil => simp [starts, lastFlag, hx]
    | cons y ys =>
      have hrec := ih (fun a ha => h a (List.mem_cons_of_mem x ha)) (by simp) true
      have hs : starts ws (x :: y :: ys) w = (if w then 0 else 1) + starts ws (y :: ys) true := by
        rw [starts]; simp [hx]
      have hl : lastFlag ws (x :: y :: ys) w = lastFlag ws (y :: ys) true := by
        rw [lastFlag]; simp [hx]
      rw [hs, hl, hrec.1, hrec.2]
      simp

end Wc

namespace claude_opus_4
open Wc

theorem unrolled_inner (data : Nat → Nat) (i : Nat) (st : counts_t × Bool) :
    (List.range 8).foldl (fun st j => count_words_and_lines.body (data (i + j)) st) st =
      (bytesFrom data i 8).foldl (fun st ch => count_words_and_lines.body ch st) st := by
  simp [bytesFrom, List.range'_eq_map_range, List.foldl_map]

theorem unrolled_loop_eq (data : Nat → Nat) (len : Nat) (k : Nat) :
    ∀ (i : Nat) (st : counts_t × Bool), i + 8 * k ≤ len → len < i + 8 * k + 8 →
      count_words_and_lines.unrolled_loop data len i st =
        (i + 8 * k,
         (bytesFrom data i (8 * k)).foldl (fun st ch => count_words_and_lines.body ch st) st) := by
  induction k with
  | zero =>
    intro i st h1 h2
    rw [count_words_and_lines.unrolled_loop]
    have hn : ¬ (i + 8 ≤ len) := by omega
    simp [hn, bytesFrom_zero]
  | succ k ih =>
    intro i st h1 h2
    rw [count_words_and_lines.unrolled_loop]
    have hp : i + 8 ≤ len := by omega
    simp only [hp, if_true, unrolled_inner]
    rw [ih (i + 8) _ (by omega) (by omega)]
    rw [show 8 * (k + 1) = 8 + 8 * k by omega, bytesFrom_add, List.foldl_append]
    simp only [Prod.mk.injEq, and_true]
    omega

theorem remainder_loop_eq (data : Nat → Nat) (n : Nat) :
    ∀ (i : Nat) (st : counts_t × Bool),
      count_words_and_lines.remainder_loop data (i + n) i st =
        (bytesFrom data i n).foldl (fun st ch => count_words_and_lines.body ch st) st := by
  induction n with
  | zero =>
    intro i st
    rw [count_words_and_lines.remainder_loop]
    simp [bytesFrom_zero]
  | succ n ih =>
    intro i st
    rw [count_words_and_lines.remainder_loop]
    have hp : i < i + (n + 1) := by omega
    simp only [hp, if_true]
    rw [show i + (n + 1) = (i + 1) + n by omega, ih, bytesFrom_succ, List.foldl_cons]

theorem loops_eq (data : Nat → Nat) (len : Nat) (st : counts_t × Bool) :
    count_words_and_lines.remainder_loop data len
        (count_words_and_lines.unrolled_loop data len 0 st).1
        (count_words_and_lines.unrolled_loop data len 0 st).2 =
      (bytesOf data len).foldl (fun st ch => count_words_and_lines.body ch st) st := by
  rw [unrolled_loop_eq data len (len / 8) 0 st (by omega) (by omega)]
  have h := remainder_loop_eq data (len % 8) (0 + 8 * (len / 8))
    ((bytesFrom data 0 (8 * (len / 8))).foldl (fun st ch => count_words_and_lines.body ch st) st)
  rw [show 0 + 8 * (len / 8) + len % 8 = len by omega] at h
  simp only []
  rw [h, ← List.foldl_append, ← bytesFrom_add, bytesOf_eq_bytesFrom]
  congr 2
  omega

theorem body_eq (ch : Nat) (c : counts_t) (w : Bool) :
    count_words_and_lines.body ch (c, w) =
      (⟨if ch == 0x0A then (c.lines + 1) % 2 ^ 64 else c.lines,
        if w && count_words_and_lines.is_space ch then (c.words + 1) % 2 ^ 64 else c.words,
        c.bytes⟩,
       !count_words_and_lines.is_space ch) := by
  by_cases hn : (ch == 10) = true <;>
    by_cases hs : count_words_and_lines.is_space ch = true <;> cases w <;>
    simp [count_words_and_lines.body, hn, hs]

theorem body_fold (bs : List Nat) :
    ∀ (c : counts_t) (w : Bool), c.lines < 2 ^ 64 → c.words < 2 ^ 64 →
      bs.foldl (fun st ch => count_words_and_lines.body ch st) (c, w) =
        (⟨(c.lines + newlines bs) % 2 ^ 64,
          (c.words + closes count_words_and_lines.is_space bs w) % 2 ^ 64, c.bytes⟩,
         lastFlag count_words_and_lines.is_space bs w) := by
  induction bs with
  | nil =>
    intro c w hl hw
    simp only [List.foldl_nil, newlines, List.count_nil, closes, lastFlag, Nat.add_zero,
      Nat.mod_eq_of_lt hl, Nat.mod_eq_of_lt hw]
  | cons x xs ih =>
    intro c w hl hw
    have hm : (0 : Nat) < 2 ^ 64 := by decide
    have hl2 : (if x == 0x0A then (c.lines + 1) % 2 ^ 64 else c.lines) < 2 ^ 64 := by
      split
      · exact Nat.mod_lt _ hm
      · exact hl
    have hw2 : (if w && count_words_and_lines.is_space x then (c.words + 1) % 2 ^ 64
        else c.words) < 2 ^ 64 := by
      split
      · exact Nat.mod_lt _ hm
      · exact hw
    rw [List.foldl_cons, body_eq, ih _ _ hl2 hw2]
    simp only [newlines, closes, lastFlag, List.count_cons]
    by_cases hn : (x == 10) = true <;>
      by_cases hs : count_words_and_lines.is_space x = true <;> cases w <;>
      simp [hn, hs] <;> omega

theorem count_words_and_lines_eq (data : Nat → Nat) (len : Nat) (c : counts_t)
    (hl : c.lines < 2 ^ 64) (hw : c.words < 2 ^ 64) :
    count_words_and_lines data len c =
      ⟨(c.lines + newlines (bytesOf data len)) % 2 ^ 64,
       (c.words + wordCount count_words_and_lines.is_space (bytesOf data len)) % 2 ^ 64,
       c.bytes⟩ := by
  have hcl := closes_lastFlag count_words_and_lines.is_space (bytesOf data len) false
  rw [starts_false] at hcl
  simp only [count_words_and_lines, loops_eq, body_fold _ c false hl hw]
  cases hf : lastFlag count_words_and_lines.is_space (bytesOf data len) false <;>
    simp [hf] at hcl ⊢ <;> omega

end claude_opus_4

namespace claude_opus_4
open Wc

/-! ### Claims about `count_words_and_lines` -/

/-- C10, refutation of the claim as stated: a form feed (0x0C) or a vertical
tab (0x0B) between the two non-whitespace bytes 'a' and 'b' does not separate
them; `count_words_and_lines` counts one word, not two. -/
theorem count_words_and_lines_formfeed_counterexample :
    (count_words_and_lines (ofList [0x61, 0x0C, 0x62]) 3 ⟨0, 0, 0⟩).words = 1 ∧
    (count_words_and_lines (ofList [0x61, 0x0B, 0x62]) 3 ⟨0, 0, 0⟩).words = 1 := by
  rw [count_words_and_lines_eq _ _ _ (by decide) (by decide),
    count_words_and_lines_eq _ _ _ (by decide) (by decide)]
  decide

/-- C10 as amended: in `count_words_and_lines` a byte ends/separates words if and
only if it is one of the four bytes 0x20, 0x09, 0x0A, 0x0D.  For all non-empty
byte sequences `A` and `B` free of these four bytes and every byte `ch`, the
input `A ++ [ch] ++ B` counts two words when `ch` is one of the four and one
word otherwise (so form feed and vertical tab do not separate words). -/
theorem count_words_and_lines_separators (A B : List Nat) (ch : Nat)
    (hA : A ≠ []) (hB : B ≠ [])
    (hAw : ∀ a ∈ A, a ≠ 0x20 ∧ a ≠ 0x09 ∧ a ≠ 0x0A ∧ a ≠ 0x0D)
    (hBw : ∀ b ∈ B, b ≠ 0x20 ∧ b ≠ 0x09 ∧ b ≠ 0x0A ∧ b ≠ 0x0D) :
    (count_words_and_lines (ofList (A ++ ch :: B)) (A ++ ch :: B).length ⟨0, 0, 0⟩).words =
      if ch = 0x20 ∨ ch = 0x09 ∨ ch = 0x0A ∨ ch = 0x0D then 2 else 1 := by
  have hAs : ∀ a ∈ A, count_words_and_lines.is_space a = false := by
    intro a ha
    have := hAw a ha
    simp [count_words_and_lines.is_space, this]
  have hBs : ∀ b ∈ B, count_words_and_lines.is_space b = false := by
    intro b hb
    have := hBw b hb
    simp [count_words_and_lines.is_space, this]
  have hA1 := starts_word _ A hAs hA false
  have hB1 := starts_word _ B hBs hB
  rw [count_words_and_lines_eq _ _ _ (by decide) (by decide), bytesOf_ofList,
    ← starts_false, starts_append, hA1.1, hA1.2]
  by_cases hc : ch = 0x20 ∨ ch = 0x09 ∨ ch = 0x0A ∨ ch = 0x0D
  · have hs : count_words_and_lines.is_space ch = true := by
      simp only [count_words_and_lines.is_space, Bool.or_eq_true, beq_iff_eq]
      tauto
    simp [starts, hs, hc, (hB1 false).1]
  · have hs : count_words_and_lines.is_space ch = false := by
      have hn : ¬ count_words_and_lines.is_space ch = true := by
        simp only [count_words_and_lines.is_space, Bool.or_eq_true, beq_iff_eq]
        tauto
      simpa using hn
    simp [starts, hs, hc, (hB1 true).1]

/-- Witness of the amended C10 on "a b" (a space between 'a' and 'b'). -/
theorem count_words_and_lines_separators_witness :
    (([0x61] : List Nat) ≠ [] ∧ ([0x62] : List Nat) ≠ [] ∧
      (∀ a ∈ ([0x61] : List Nat), a ≠ 0x20 ∧ a ≠ 0x09 ∧ a ≠ 0x0A ∧ a ≠ 0x0D) ∧
      (∀ b ∈ ([0x62] : List Nat), b ≠ 0x20 ∧ b ≠ 0x09 ∧ b ≠ 0x0A ∧ b ≠ 0x0D)) ∧
    (count_words_and_lines (ofList ([0x61] ++ 0x20 :: [0x62]))
        (([0x61] : List Nat) ++ 0x20 :: [0x62]).length ⟨0, 0, 0⟩).words =
      if (0x20 = 0x20 ∨ 0x20 = 0x09 ∨ 0x20 = 0x0A ∨ 0x20 = 0x0D) then 2 else 1 :=
  ⟨⟨by decide, by decide, by decide, by decide⟩,
   count_words_and_lines_separators [0x61] [0x62] 0x20 (by decide) (by decide)
     (by decide) (by decide)⟩

end claude_opus_4

namespace Wc

theorem zipWith_replicate_right {α : Type} (f : Nat → Nat → α) (c : Nat) (l : List Nat) :
    ∀ n, l.length = n → List.zipWith f l (List.replicate n c) = l.map (fun x => f x c) := by
  induction l with
  | nil => intro n _; simp
  | cons x xs ih =>
    intro n hn
    cases n with
    | zero => simp at hn
    | succ m =>
      have hm : xs.length = m := by simpa using hn
      simp [List.replicate_succ, ih m hm]

theorem zipWith_map_map (h : Nat → Nat → Nat) (f g : Nat → Nat) (l : List Nat) :
    List.zipWith h (l.map f) (l.map g) = l.map (fun x => h (f x) (g x)) := by
  induction l with
  | nil => simp
  | cons x xs ih => simp [ih]

theorem foldl_range_getD {σ : Type} (g : Nat → σ → σ) (L : List Nat) :
    ∀ s : σ, (List.range L.length).foldl (fun st i => g (L.getD i 0) st) s =
      L.foldl (fun st x => g x st) s := by
  induction L with
  | nil => intro s; simp
  | cons x xs ih =>
    intro s
    rw [List.length_cons, List.range_succ_eq_map, List.foldl_cons, List.foldl_map]
    simpa using ih (g x s)

theorem vceqq_u8_dup (l : List Nat) (c : Nat) (h : l.length = 16) :
    vceqq_u8 l (vdupq_n_u8 c) = l.map (fun x => if x = c then 0xFF else 0x00) := by
  rw [vceqq_u8, vdupq_n_u8, zipWith_replicate_right _ _ _ 16 h]

theorem bytesFrom_length (buffer : Nat → Nat) (p n : Nat) :
    (bytesFrom buffer p n).length = n := by
  simp [bytesFrom]

end Wc

namespace chatgpt_o3
open Wc

theorem is_ascii_space_eq (c : Nat) : is_ascii_space c = if isspace c then 1 else 0 := by
  unfold is_ascii_space isspace
  by_cases h1 : c = 0x20 <;> by_cases h2 : c = 0x0A <;> by_cases h3 : c = 0x09 <;>
    by_cases h4 : c = 0x0D <;> by_cases h5 : c = 0x0C <;> by_cases h6 : c = 0x0B <;>
    simp [h1, h2, h3, h4, h5, h6]

theorem ws_lane (x : Nat) :
    (((if x = 0x20 then 0xFF else 0x00) ||| (if x = 0x09 then 0xFF else 0x00)) |||
      ((if x = 0x0A then 0xFF else 0x00) |||
        ((if x = 0x0D then 0xFF else 0x00) |||
          ((if x = 0x0C then 0xFF else 0x00) ||| (if x = 0x0B then 0xFF else 0x00))))) =
      (if isspace x then 0xFF else 0x00 : Nat) := by
  unfold isspace
  by_cases h1 : x = 0x20
  · subst h1; decide
  by_cases h2 : x = 0x09
  · subst h2; decide
  by_cases h3 : x = 0x0A
  · subst h3; decide
  by_cases h4 : x = 0x0D
  · subst h4; decide
  by_cases h5 : x = 0x0C
  · subst h5; decide
  by_cases h6 : x = 0x0B
  · subst h6; decide
  simp [h1, h2, h3, h4, h5, h6]

theorem ws_mask (l : List Nat) (h : l.length = 16) :
    vorrq_u8 (vorrq_u8 (vceqq_u8 l (vdupq_n_u8 0x20)) (vceqq_u8 l (vdupq_n_u8 0x09)))
        (vorrq_u8 (vceqq_u8 l (vdupq_n_u8 0x0A))
          (vorrq_u8 (vceqq_u8 l (vdupq_n_u8 0x0D))
            (vorrq_u8 (vceqq_u8 l (vdupq_n_u8 0x0C)) (vceqq_u8 l (vdupq_n_u8 0x0B))))) =
      l.map (fun x => if isspace x then 0xFF else 0x00) := by
  simp only [vceqq_u8_dup _ _ h, vorrq_u8, zipWith_map_map, ws_lane]

theorem nl_sum (l : List Nat) (h : l.length = 16) :
    vaddvq_u8 (vandq_u8 (vceqq_u8 l (vdupq_n_u8 0x0A)) (vdupq_n_u8 1)) = newlines l := by
  have hmap : vandq_u8 (vceqq_u8 l (vdupq_n_u8 0x0A)) (vdupq_n_u8 1) =
      l.map (fun x => if x = 0x0A then 1 else 0) := by
    rw [vceqq_u8_dup _ _ h, vandq_u8, vdupq_n_u8,
      zipWith_replicate_right _ _ _ 16 (by simpa using h), List.map_map]
    apply List.map_congr_left
    intro x _
    by_cases hx : x = 10 <;> simp [hx]
  have hsum : ∀ l : List Nat, (l.map (fun x => if x = 0x0A then 1 else 0)).sum = l.count 0x0A := by
    intro l
    induction l with
    | nil => simp
    | cons x xs ih =>
      by_cases hx : x = 10 <;> simp [List.count_cons, hx, ih] <;> omega
  have hle := List.count_le_length 0x0A l
  rw [hmap, vaddvq_u8, hsum, newlines]
  omega

theorem word_step_eq (b : Nat) (n : Nat) (w : Bool) :
    wc_count_buffer.word_step (if isspace b then 1 else 0) (n, w) =
      (if !isspace b && !w then (n + 1) % 2 ^ 64 else n, !isspace b) := by
  cases hb : isspace b <;> cases w <;> simp [wc_count_buffer.word_step]

theorem word_fold (bs : List Nat) :
    ∀ (n : Nat) (w : Bool), n < 2 ^ 64 →
      bs.foldl (fun st b => wc_count_buffer.word_step (if isspace b then 1 else 0) st) (n, w) =
        ((n + starts isspace bs w) % 2 ^ 64, lastFlag isspace bs w) := by
  induction bs with
  | nil =>
    intro n w hn
    simp only [List.foldl_nil, starts, lastFlag, Nat.add_zero, Nat.mod_eq_of_lt hn]
  | cons x xs ih =>
    intro n w hn
    have hm : (0 : Nat) < 2 ^ 64 := by decide
    have hn2 : (if !isspace x && !w then (n + 1) % 2 ^ 64 else n) < 2 ^ 64 := by
      split
      · exact Nat.mod_lt _ hm
      · exact hn
    rw [List.foldl_cons, word_step_eq, ih _ _ hn2]
    cases hx : isspace x <;> cases w <;> simp [starts, lastFlag, hx] <;> omega

theorem vector_block (data : Nat → Nat) (ptr : Nat) (n : Nat) (w : Bool) (hn : n < 2 ^ 64) :
    (List.range 16).foldl
      (fun st i =>
        wc_count_buffer.word_step
          (if ((bytesFrom data ptr 16).map (fun x => if isspace x then 0xFF else 0x00)).getD i 0
              == 0xFF then 1 else 0) st) (n, w) =
      ((n + starts isspace (bytesFrom data ptr 16) w) % 2 ^ 64,
        lastFlag isspace (bytesFrom data ptr 16) w) := by
  have hlen : ((bytesFrom data ptr 16).map (fun x => if isspace x then 0xFF else 0x00)).length
      = 16 := by simp [bytesFrom]
  have h := foldl_range_getD
    (fun x st => wc_count_buffer.word_step (if x == 0xFF then 1 else 0) st)
    ((bytesFrom data ptr 16).map (fun x => if isspace x then 0xFF else 0x00)) (n, w)
  rw [hlen] at h
  rw [h, List.foldl_map, ← word_fold _ n w hn]
  congr 1
  funext st b
  cases isspace b <;> simp

theorem vector_loop_eq (data : Nat → Nat) (end_ : Nat) (k : Nat) :
    ∀ (ptr lines n : Nat) (w : Bool), lines < 2 ^ 64 → n < 2 ^ 64 →
      ptr + 16 * k ≤ end_ → end_ < ptr + 16 * k + 16 →
      wc_count_buffer.vector_loop data end_ ptr lines (n, w) =
        (ptr + 16 * k, (lines + newlines (bytesFrom data ptr (16 * k))) % 2 ^ 64,
          ((n + starts isspace (bytesFrom data ptr (16 * k)) w) % 2 ^ 64,
            lastFlag isspace (bytesFrom data ptr (16 * k)) w)) := by
  induction k with
  | zero =>
    intro ptr lines n w hl hn h1 h2
    rw [wc_count_buffer.vector_loop]
    have hc : ¬ (ptr + 16 ≤ end_) := by omega
    simp only [hc, if_false, Nat.mul_zero, bytesFrom_zero, newlines, List.count_nil, starts,
      lastFlag, Nat.add_zero, Nat.mod_eq_of_lt hl, Nat.mod_eq_of_lt hn]
  | succ k ih =>
    intro ptr lines n w hl hn h1 h2
    have hm : (0 : Nat) < 2 ^ 64 := by decide
    rw [wc_count_buffer.vector_loop]
    have hc : ptr + 16 ≤ end_ := by omega
    have hlen : (bytesFrom data ptr 16).length = 16 := bytesFrom_length data ptr 16
    simp only [hc, if_true, gemeni25pro.vld1q_u8_eq_bytesFrom, ws_mask _ hlen, nl_sum _ hlen,
      vector_block data ptr n w hn]
    rw [ih (ptr + 16) _ _ _ (Nat.mod_lt _ hm) (Nat.mod_lt _ hm) (by omega) (by omega)]
    rw [show 16 * (k + 1) = 16 + 16 * k by omega, bytesFrom_add, starts_append, lastFlag_append]
    simp only [newlines, List.count_append, Prod.mk.injEq]
    refine ⟨by omega, by omega, by omega, trivial⟩

theorem tail_loop_eq (data : Nat → Nat) (m : Nat) :
    ∀ (ptr lines n : Nat) (w : Bool), lines < 2 ^ 64 → n < 2 ^ 64 →
      wc_count_buffer.tail_loop data (ptr + m) ptr lines (n, w) =
        ((lines + newlines (bytesFrom data ptr m)) % 2 ^ 64,
          ((n + starts isspace (bytesFrom data ptr m) w) % 2 ^ 64,
            lastFlag isspace (bytesFrom data ptr m) w)) := by
  induction m with
  | zero =>
    intro ptr lines n w hl hn
    rw [wc_count_buffer.tail_loop]
    simp only [Nat.add_zero, Nat.lt_irrefl, if_false, bytesFrom_zero, newlines, List.count_nil,
      starts, lastFlag, Nat.mod_eq_of_lt hl, Nat.mod_eq_of_lt hn]
  | succ m ih =>
    intro ptr lines n w hl hn
    have hm : (0 : Nat) < 2 ^ 64 := by decide
    rw [wc_count_buffer.tail_loop]
    have hc : ptr < ptr + (m + 1) := by omega
    have hl2 : (if data ptr == 0x0A then (lines + 1) % 2 ^ 64 else lines) < 2 ^ 64 := by
      split
      · exact Nat.mod_lt _ hm
      · exact hl
    have hn2 : (if !isspace (data ptr) && !w then (n + 1) % 2 ^ 64 else n) < 2 ^ 64 := by
      split
      · exact Nat.mod_lt _ hm
      · exact hn
    simp only [hc, if_true, is_ascii_space_eq, word_step_eq]
    rw [show ptr + (m + 1) = (ptr + 1) + m by omega, ih _ _ _ _ hl2 hn2, bytesFrom_succ]
    by_cases hx : (data ptr == 10) = true <;> cases hs : isspace (data ptr) <;> cases w <;>
      simp [newlines, starts, lastFlag, List.count_cons, hx, hs] <;> omega

theorem wc_count_buffer_eq (data : Nat → Nat) (len : Nat) (out : wc_counts_t) :
    wc_count_buffer data len out =
      { lines := (out.lines + newlines (bytesOf data len)) % 2 ^ 64,
        words := (out.words + wordCount isspace (bytesOf data len)) % 2 ^ 64,
        bytes := (out.bytes + len) % 2 ^ 64 } := by
  have hm : (0 : Nat) < 2 ^ 64 := by decide
  have hv := vector_loop_eq data len (len / 16) 0 0 0 false hm hm (by omega) (by omega)
  have ht := tail_loop_eq data (len % 16) (0 + 16 * (len / 16))
    ((0 + newlines (bytesFrom data 0 (16 * (len / 16)))) % 2 ^ 64)
    ((0 + starts isspace (bytesFrom data 0 (16 * (len / 16))) false) % 2 ^ 64)
    (lastFlag isspace (bytesFrom data 0 (16 * (len / 16))) false)
    (Nat.mod_lt _ hm) (Nat.mod_lt _ hm)
  rw [show 0 + 16 * (len / 16) + len % 16 = len by omega] at ht
  have hsplit : bytesOf data len =
      bytesFrom data 0 (16 * (len / 16)) ++ bytesFrom data (0 + 16 * (len / 16)) (len % 16) := by
    rw [bytesOf_eq_bytesFrom, ← bytesFrom_add]
    congr 1
    omega
  simp only [wc_count_buffer, hv, ht]
  rw [← starts_false, hsplit, starts_append]
  simp only [newlines, List.count_append, wc_counts_t.mk.injEq]
  refine ⟨by omega, by omega, by omega⟩

end chatgpt_o3

namespace Wc

theorem wordCount_word (ws : Nat → Bool) (A : List Nat) (h : ∀ a ∈ A, ws a = false)
    (hne : A ≠ []) : wordCount ws A = 1 := by
  rw [← starts_false, (starts_word ws A h hne false).1]
  simp

theorem replicate_word (ws : Nat → Bool) (n : Nat) (x : Nat) (hx : ws x = false) :
    ∀ a ∈ List.replicate n x, ws a = false := by
  intro a ha
  rw [List.eq_of_mem_replicate ha]
  exact hx

theorem newlines_replicate (n : Nat) (x : Nat) (hx : x ≠ 0x0A) :
    newlines (List.replicate n x) = 0 := by
  rw [newlines, List.count_eq_zero]
  intro h
  exact hx (List.eq_of_mem_replicate h).symm

theorem replicate_ne_nil (n : Nat) (x : Nat) (hn : 0 < n) : List.replicate n x ≠ [] := by
  intro h
  have := congrArg List.length h
  rw [List.length_replicate] at this
  simp at this
  omega

theorem fread_chunks_two (cap : Nat) (A B : List Nat) (hA : A.length = cap) (hc : 0 < cap)
    (hB : B ≠ []) (hBc : B.length ≤ cap) : fread_chunks cap (A ++ B) = [A, B] := by
  have hne : ¬ (A ++ B = [] ∨ cap = 0) := by
    intro h
    rcases h with h | h
    · exact hB (List.append_eq_nil.mp h).2
    · omega
  have hne2 : ¬ (B = [] ∨ cap = 0) := by
    intro h
    rcases h with h | h
    · exact hB h
    · omega
  have ht : (A ++ B).take cap = A := by rw [← hA]; exact List.take_left A B
  have hd : (A ++ B).drop cap = B := by rw [← hA]; exact List.drop_left A B
  have htB : B.take cap = B := List.take_of_length_le hBc
  have hdB : B.drop cap = [] := List.drop_of_length_le hBc
  rw [fread_chunks, if_neg hne, ht, hd, fread_chunks, if_neg hne2, htB, hdB, fread_chunks]
  simp

end Wc

namespace chatgpt_o3
open Wc

/-! ### Claims about `wc_count_buffer` and `wc_stream` -/

/-- C11 (functional correctness of `wc_count_buffer`): for every buffer, every
length and every initial `*out`, the call adds to `out->lines` the number of
newline bytes, to `out->words` the number of maximal runs of non-whitespace
bytes (whitespace being the six bytes of `isspace`) and to `out->bytes` the
length `len`; the additions are those of `uint64_t`, that is modulo 2^64. -/
theorem wc_count_buffer_correct (data : Nat → Nat) (len : Nat) (out : wc_counts_t) :
    (wc_count_buffer data len out).lines =
        (out.lines + newlines (bytesOf data len)) % 2 ^ 64 ∧
    (wc_count_buffer data len out).words =
        (out.words + wordCount isspace (bytesOf data len)) % 2 ^ 64 ∧
    (wc_count_buffer data len out).bytes = (out.bytes + len) % 2 ^ 64 := by
  rw [wc_count_buffer_eq]
  exact ⟨rfl, rfl, rfl⟩

/-- C12, the code at a failing input: a stream of 65537 bytes 'a' reaches
`wc_stream` as the two `fread` chunks of 65536 bytes and 1 byte; the loop
counts the single word twice (`words = 2`), while one `wc_count_buffer` call on
the whole stream counts it once (`words = 1`). -/
theorem wc_stream_split_word_counted_twice :
    fread_chunks (64 * 1024) (List.replicate 65536 0x61 ++ [0x61]) =
        [List.replicate 65536 0x61, [0x61]] ∧
    (wc_stream.loop (fread_chunks (64 * 1024) (List.replicate 65536 0x61 ++ [0x61]))
        ⟨0, 0, 0⟩).words = 2 ∧
    (wc_count_buffer (ofList (List.replicate 65536 0x61 ++ [0x61])) 65537 ⟨0, 0, 0⟩).words = 1 := by
  have ha : isspace 0x61 = false := by decide
  have hlen : (List.replicate 65536 0x61 : List Nat).length = 65536 := List.length_replicate _ _
  have hlen2 : (List.replicate 65536 0x61 ++ [0x61] : List Nat).length = 65537 := by
    rw [List.length_append, hlen]; rfl
  have hchunks : fread_chunks (64 * 1024) (List.replicate 65536 0x61 ++ [0x61]) =
      [List.replicate 65536 0x61, [0x61]] :=
    fread_chunks_two _ _ _ hlen (by decide) (by decide) (by decide)
  have hbig : wordCount isspace (List.replicate 65536 0x61) = 1 :=
    wordCount_word _ _ (replicate_word _ _ _ ha) (replicate_ne_nil _ _ (by decide))
  have hall : wordCount isspace (List.replicate 65536 0x61 ++ [0x61]) = 1 := by
    apply wordCount_word
    · intro a h
      rcases List.mem_append.mp h with h | h
      · exact replicate_word _ _ _ ha a h
      · rw [List.mem_singleton.mp h]; exact ha
    · intro h
      exact absurd (List.append_eq_nil.mp h).2 (by decide)
  have hone : wordCount isspace [0x61] = 1 := by decide
  have h1 := wc_count_buffer_eq (ofList (List.replicate 65536 0x61))
    (List.replicate 65536 0x61).length ⟨0, 0, 0⟩
  rw [bytesOf_ofList, hbig] at h1
  have h2 := fun c => wc_count_buffer_eq (ofList [0x61]) ([0x61] : List Nat).length c
  simp only [bytesOf_ofList, hone] at h2
  have h3 := wc_count_buffer_eq (ofList (List.replicate 65536 0x61 ++ [0x61]))
    (List.replicate 65536 0x61 ++ [0x61]).length ⟨0, 0, 0⟩
  rw [bytesOf_ofList, hall, hlen2] at h3
  refine ⟨hchunks, ?_, ?_⟩
  · rw [hchunks]
    have hnz : ((List.replicate 65536 0x61 : List Nat).length != 0) = true := by
      rw [hlen]; decide
    rw [wc_stream.loop, if_pos hnz, h1, wc_stream.loop, if_pos (by decide), h2, wc_stream.loop]
    show ((0 + 1) % 2 ^ 64 + 1) % 2 ^ 64 = 2
    decide
  · rw [h3]
    show (0 + 1) % 2 ^ 64 = 1
    decide

end chatgpt_o3

namespace claude_opus_4
open Wc

theorem loop64_done (mem : Nat → Nat) (data len count : Nat) (h : len < 64) :
    count_newlines_neon.loop64 mem data len count = (data, len, count) := by
  rw [count_newlines_neon.loop64]
  simp [Nat.not_le.mpr h]

theorem loop16_done (mem : Nat → Nat) (data len count : Nat) (h : len < 16) :
    count_newlines_neon.loop16 mem data len count = (data, len, count) := by
  rw [count_newlines_neon.loop16]
  simp [Nat.not_le.mpr h]

theorem loop16_step (mem : Nat → Nat) (data len count : Nat) (h : 16 ≤ len) :
    count_newlines_neon.loop16 mem data len count =
      count_newlines_neon.loop16 mem (data + 16) (len - 16)
        ((count + vaddvq_u8 (vceqq_u8 (vld1q_u8 mem data) (vdupq_n_u8 0x0A)) / 255) % 2 ^ 64) := by
  rw [count_newlines_neon.loop16]
  simp [h]

theorem loop1_done (mem : Nat → Nat) (data count : Nat) :
    count_newlines_neon.loop1 mem data 0 count = count := by
  rw [count_newlines_neon.loop1]
  simp

theorem loop1_step (mem : Nat → Nat) (data len count : Nat) :
    count_newlines_neon.loop1 mem data (len + 1) count =
      count_newlines_neon.loop1 mem (data + 1) len
        (if mem data == 0x0A then (count + 1) % 2 ^ 64 else count) := by
  rw [count_newlines_neon.loop1]
  simp

/-- C16, the code at a failing input: on the 18-byte input "Hello\nWorld\n\nTest\n"
of its own test, which holds 4 newline bytes, `count_newlines_neon` returns 1:
the first 16 bytes hold 3 newlines, `vaddvq_u8` gives (3 * 255) mod 256 = 253
and 253 / 255 = 0; only the newline among the last two bytes is counted. -/
theorem count_newlines_neon_mixed_test_fails :
    count_newlines_neon
      (ofList [72, 101, 108, 108, 111, 10, 87, 111, 114, 108, 100, 10, 10, 84, 101, 115, 116, 10])
      18 = 1 ∧
    newlines [72, 101, 108, 108, 111, 10, 87, 111, 114, 108, 100, 10, 10, 84, 101, 115, 116, 10]
      = 4 := by
  refine ⟨?_, by decide⟩
  unfold count_newlines_neon
  simp only [loop64_done _ _ 18 _ (by decide), loop16_step _ _ 18 _ (by decide)]
  simp only [show 18 - 16 = 1 + 1 from rfl, loop16_done _ _ (1 + 1) _ (by decide), loop1_step,
    loop1_done]
  decide

end claude_opus_4

namespace Wc

theorem starts_le_length (ws : Nat → Bool) (S : List Nat) :
    ∀ w, starts ws S w ≤ S.length := by
  induction S with
  | nil => intro w; simp [starts]
  | cons x xs ih =>
    intro w
    have h1 := ih false
    have h2 := ih true
    cases hx : ws x <;> cases w <;> simp [starts, hx] <;> omega

theorem wordCount_le_length (ws : Nat → Bool) (S : List Nat) : wordCount ws S ≤ S.length := by
  rw [← starts_false]
  exact starts_le_length ws S false

theorem newlines_le_length (S : List Nat) : newlines S ≤ S.length :=
  List.count_le_length 0x0A S

theorem bytesOf_length (buffer : Nat → Nat) (size : Nat) : (bytesOf buffer size).length = size := by
  simp [bytesOf]

theorem bytesOf_snoc (buffer : Nat → Nat) (n : Nat) :
    bytesOf buffer (n + 1) = bytesOf buffer n ++ [buffer n] := by
  simp [bytesOf, List.range_succ]

theorem lastFlag_last (ws : Nat → Bool) (buffer : Nat → Nat) (size : Nat) (h : 0 < size)
    (w : Bool) : lastFlag ws (bytesOf buffer size) w = !ws (buffer (size - 1)) := by
  obtain ⟨n, rfl⟩ : ∃ n, size = n + 1 := ⟨size - 1, by omega⟩
  rw [bytesOf_snoc, lastFlag_append]
  simp [lastFlag]

theorem closes_all_word (ws : Nat → Bool) (S : List Nat) (h : ∀ a ∈ S, ws a = false) :
    ∀ w, closes ws S w = 0 := by
  induction S with
  | nil => intro w; rfl
  | cons x xs ih =>
    intro w
    have hx : ws x = false := h x (List.mem_cons_self x xs)
    simp [closes, hx, ih (fun a ha => h a (List.mem_cons_of_mem x ha))]

theorem closes_eq_filter (ws : Nat → Bool) (size : Nat) :
    ∀ (buffer : Nat → Nat) (w : Bool),
      closes ws (bytesOf buffer size) w =
        ((List.range size).filter
          (fun i => ws (buffer i) && (if i = 0 then w else !ws (buffer (i - 1))))).length := by
  induction size with
  | zero => intro buffer w; simp [bytesOf, closes]
  | succ n ih =>
    intro buffer w
    rw [bytesOf_succ, List.range_succ_eq_map, List.filter_cons, List.filter_map]
    have hcomp : ((fun i => ws (buffer i) && (if i = 0 then w else !ws (buffer (i - 1)))) ∘
        Nat.succ) =
        (fun i => ws (buffer (i + 1)) &&
          (if i = 0 then !ws (buffer 0) else !ws (buffer (i - 1 + 1)))) := by
      funext i
      cases i with
      | zero => simp
      | succ j => simp
    rw [hcomp]
    cases hx : ws (buffer 0) <;> cases w <;>
      simp [closes, hx, ih (fun i => buffer (i + 1))] <;> omega

theorem closes_eq_wordEnds (ws : Nat → Bool) (buffer : Nat → Nat) (size : Nat) :
    closes ws (bytesOf buffer size) false = wordEnds ws buffer size := by
  rw [closes_eq_filter, wordEnds]
  congr 2
  funext i
  cases i with
  | zero => simp [isWordEnd]
  | succ j => simp [isWordEnd]

end Wc

namespace chatgpt_o4_mini_high
open Wc

theorem char_newline (char_signed : Bool) (b : Nat) (hb : b < 256) :
    (char_of_byte char_signed b == (0x0A : Int)) = (b == 0x0A) := by
  cases char_signed <;> by_cases h : b = 10 <;> simp [char_of_byte, h] <;> omega

theorem char_space (char_signed : Bool) (b : Nat) (hb : b < 256) :
    (is_ascii_space (char_of_byte char_signed b) == 0) = !isspace b := by
  have h : is_ascii_space (char_of_byte char_signed b) ≠ 0 ↔ isspace b = true := by
    cases char_signed <;> simp [is_ascii_space, char_of_byte, isspace] <;> omega
  cases hs : isspace b
  · have : is_ascii_space (char_of_byte char_signed b) = 0 := by
      by_contra hne
      have := h.mp hne
      simp [hs] at this
    simp [this]
  · have : is_ascii_space (char_of_byte char_signed b) ≠ 0 := h.mpr hs
    simp [this]

theorem count_buffer_loop_eq (char_signed : Bool) (buf : Nat → Nat) (n : Nat) :
    ∀ (i : Nat) (s : stats) (w : Bool), (∀ j, j < i + n → buf j < 256) →
      s.lines < 2 ^ 64 → s.words < 2 ^ 64 →
      count_buffer.loop char_signed buf (i + n) i s w =
        ⟨(s.lines + newlines (bytesFrom buf i n)) % 2 ^ 64,
         (s.words + closes isspace (bytesFrom buf i n) w) % 2 ^ 64, s.bytes⟩ := by
  induction n with
  | zero =>
    intro i s w _ hl hw
    rw [count_buffer.loop]
    simp only [Nat.add_zero, Nat.lt_irrefl, if_false, bytesFrom_zero, newlines, List.count_nil,
      closes, Nat.mod_eq_of_lt hl, Nat.mod_eq_of_lt hw]
  | succ n ih =>
    intro i s w hb hl hw
    have hm : (0 : Nat) < 2 ^ 64 := by decide
    have hbi : buf i < 256 := hb i (by omega)
    have hb2 : ∀ j, j < (i + 1) + n → buf j < 256 := fun j hj => hb j (by omega)
    rw [count_buffer.loop]
    have hc : i < i + (n + 1) := by omega
    simp only [hc, if_true, char_newline char_signed _ hbi, char_space char_signed _ hbi]
    rw [show i + (n + 1) = (i + 1) + n by omega, bytesFrom_succ]
    by_cases hx : (buf i == 10) = true <;> cases hs : isspace (buf i) <;> cases w <;>
      simp only [hx, hs, Bool.not_true, Bool.not_false, if_true, if_false, Bool.false_eq_true] <;>
      rw [ih _ _ _ hb2 (by first | exact Nat.mod_lt _ hm | exact hl)
        (by first | exact Nat.mod_lt _ hm | exact hw)] <;>
      simp [newlines, closes, List.count_cons, hx, hs] <;> omega

theorem count_buffer_eq (char_signed : Bool) (buf : Nat → Nat) (len : Nat) (s : stats)
    (hb : ∀ j, j < len → buf j < 256) (hl : s.lines < 2 ^ 64) (hw : s.words < 2 ^ 64) :
    count_buffer char_signed buf len s =
      ⟨(s.lines + newlines (bytesOf buf len)) % 2 ^ 64,
       (s.words + closes isspace (bytesOf buf len) false) % 2 ^ 64,
       (s.bytes + len) % 2 ^ 64⟩ := by
  have h := count_buffer_loop_eq char_signed buf len 0
    { s with bytes := (s.bytes + len) % 2 ^ 64 } false (by simpa using hb) hl hw
  rw [Nat.zero_add] at h
  rw [count_buffer, h, bytesOf_eq_bytesFrom]

end chatgpt_o4_mini_high

namespace Wc

theorem newlines_word (S : List Nat) (h : ∀ a ∈ S, isspace a = false) : newlines S = 0 := by
  rw [newlines, List.count_eq_zero]
  intro hmem
  have := h 0x0A hmem
  simp [isspace] at this

end Wc

namespace claude_opus_4
open Wc

theorem buffered_loop_words (chunks : List (List Nat)) :
    ∀ c : counts_t, (∀ ch ∈ chunks, ch ≠ []) → c.lines < 2 ^ 64 → c.words < 2 ^ 64 →
      (process_file_buffered.loop chunks c).words =
        (c.words + (chunks.map (wordCount count_words_and_lines.is_space)).sum) % 2 ^ 64 := by
  induction chunks with
  | nil =>
    intro c _ _ hw
    simp only [process_file_buffered.loop, List.map_nil, List.sum_nil, Nat.add_zero,
      Nat.mod_eq_of_lt hw]
  | cons ch rest ih =>
    intro c hne hl hw
    have hm : (0 : Nat) < 2 ^ 64 := by decide
    have hpos : 0 < ch.length := List.length_pos.mpr (hne ch (List.mem_cons_self ch rest))
    have hstep : process_file_buffered.loop (ch :: rest) c =
        process_file_buffered.loop rest
          (count_words_and_lines (ofList ch) ch.length
            { c with bytes := (c.bytes + ch.length) % 2 ^ 64 }) := by
      simp only [process_file_buffered.loop, hpos, if_true]
    rw [hstep, count_words_and_lines_eq (ofList ch) ch.length
        { c with bytes := (c.bytes + ch.length) % 2 ^ 64 } hl hw, bytesOf_ofList,
      ih _ (fun x hx => hne x (List.mem_cons_of_mem ch hx)) (Nat.mod_lt _ hm) (Nat.mod_lt _ hm)]
    simp only [List.map_cons, List.sum_cons]
    omega

theorem buffered_split_word (A B : List Nat) (hA : A ≠ []) (hB : B ≠ [])
    (hAw : ∀ a ∈ A, count_words_and_lines.is_space a = false)
    (hBw : ∀ b ∈ B, count_words_and_lines.is_space b = false) :
    (process_file_buffered.loop [A, B] ⟨0, 0, 0⟩).words = 2 ∧
    (process_file_buffered.loop [A ++ B] ⟨0, 0, 0⟩).words = 1 := by
  have hm : (0 : Nat) < 2 ^ 64 := by decide
  have hAB : A ++ B ≠ [] := fun h => hA (List.append_eq_nil.mp h).1
  have hwA : wordCount count_words_and_lines.is_space A = 1 := wordCount_word _ _ hAw hA
  have hwB : wordCount count_words_and_lines.is_space B = 1 := wordCount_word _ _ hBw hB
  have hwAB : wordCount count_words_and_lines.is_space (A ++ B) = 1 := by
    apply wordCount_word _ _ _ hAB
    intro a h
    rcases List.mem_append.mp h with h | h
    · exact hAw a h
    · exact hBw a h
  have hne : ∀ ch ∈ [A, B], ch ≠ [] := by
    intro ch hch
    rcases List.mem_cons.mp hch with h | h
    · rw [h]; exact hA
    · rw [List.mem_singleton.mp h]; exact hB
  have hne3 : ∀ ch ∈ [A ++ B], ch ≠ [] := by
    intro ch hch
    rw [List.mem_singleton.mp hch]; exact hAB
  have h2 := buffered_loop_words [A, B] ⟨0, 0, 0⟩ hne hm hm
  have h1 := buffered_loop_words [A ++ B] ⟨0, 0, 0⟩ hne3 hm hm
  simp only [List.map_cons, List.map_nil, List.sum_cons, List.sum_nil, hwA, hwB] at h2
  simp only [List.map_cons, List.map_nil, List.sum_cons, List.sum_nil, hwAB] at h1
  exact ⟨h2, h1⟩

/-- C13, the code at a failing input: a stream of 1 MiB + 1 bytes 'a' reaches
`process_file_buffered` as the two `fread` chunks of 1048576 bytes and 1 byte;
the loop counts the single word twice (`words = 2`), while the same stream
processed as one chunk counts it once (`words = 1`). -/
theorem process_file_buffered_split_word_counted_twice :
    fread_chunks (1024 * 1024) (List.replicate 1048576 0x61 ++ [0x61]) =
        [List.replicate 1048576 0x61, [0x61]] ∧
    (process_file_buffered.loop
        (fread_chunks (1024 * 1024) (List.replicate 1048576 0x61 ++ [0x61])) ⟨0, 0, 0⟩).words
      = 2 ∧
    (process_file_buffered.loop [List.replicate 1048576 0x61 ++ [0x61]] ⟨0, 0, 0⟩).words = 1 := by
  have ha : count_words_and_lines.is_space 0x61 = false := by decide
  have hlen : (List.replicate 1048576 0x61 : List Nat).length = 1048576 :=
    List.length_replicate _ _
  have hchunks : fread_chunks (1024 * 1024) (List.replicate 1048576 0x61 ++ [0x61]) =
      [List.replicate 1048576 0x61, [0x61]] :=
    fread_chunks_two _ _ _ hlen (by decide) (List.cons_ne_nil _ _) (by decide)
  have h := buffered_split_word (List.replicate 1048576 0x61) [0x61]
    (replicate_ne_nil _ _ (by decide)) (List.cons_ne_nil _ _) (replicate_word _ _ _ ha)
    (by decide)
  rw [hchunks]
  exact ⟨rfl, h.1, h.2⟩

/-- C17 (`count_words_and_lines` on a single buffer): for every buffer and every
initial `counts_t` (its `size_t` fields below 2^64), the call adds to `c->lines`
the number of newline bytes and to `c->words` the number of maximal runs of
bytes other than space, tab, newline and carriage return, and leaves
`c->bytes` unchanged; the additions are those of `size_t`, modulo 2^64. -/
theorem count_words_and_lines_single_buffer (data : Nat → Nat) (len : Nat) (c : counts_t)
    (hl : c.lines < 2 ^ 64) (hw : c.words < 2 ^ 64) :
    (count_words_and_lines data len c).lines =
        (c.lines + newlines (bytesOf data len)) % 2 ^ 64 ∧
    (count_words_and_lines data len c).words =
        (c.words + wordCount (fun b => b == 0x20 || b == 0x09 || b == 0x0A || b == 0x0D)
          (bytesOf data len)) % 2 ^ 64 ∧
    (count_words_and_lines data len c).bytes = c.bytes := by
  rw [count_words_and_lines_eq data len c hl hw]
  exact ⟨rfl, rfl, rfl⟩

/-- Witness of C17 on the test input "hello\nworld\n" with zeroed counts. -/
theorem count_words_and_lines_single_buffer_witness :
    ((0 : Nat) < 2 ^ 64 ∧ (0 : Nat) < 2 ^ 64) ∧
    (count_words_and_lines
        (ofList [104, 101, 108, 108, 111, 10, 119, 111, 114, 108, 100, 10]) 12 ⟨0, 0, 0⟩).lines =
      (0 + newlines (bytesOf
        (ofList [104, 101, 108, 108, 111, 10, 119, 111, 114, 108, 100, 10]) 12)) % 2 ^ 64 :=
  ⟨⟨by decide, by decide⟩,
   (count_words_and_lines_single_buffer
      (ofList [104, 101, 108, 108, 111, 10, 119, 111, 114, 108, 100, 10]) 12 ⟨0, 0, 0⟩
      (by decide) (by decide)).1⟩

end claude_opus_4

namespace chatgpt_o4_mini_high
open Wc

theorem read_into_bytes (buf : Nat → Nat) (chunk : List Nat) :
    bytesOf (read_into buf chunk) chunk.length = chunk := by
  apply List.ext_getElem
  · simp [bytesOf]
  · intro i h1 h2
    simp [bytesOf, read_into, h2, List.getD_eq_getElem?_getD, List.getElem?_eq_getElem h2]

theorem read_into_lt (buf : Nat → Nat) (chunk : List Nat) (h : ∀ a ∈ chunk, a < 256) :
    ∀ j, j < chunk.length → read_into buf chunk j < 256 := by
  intro j hj
  have hmem : chunk[j] ∈ chunk := List.getElem_mem hj
  simpa [read_into, hj, List.getD_eq_getElem?_getD, List.getElem?_eq_getElem hj] using
    h _ hmem

theorem process_fd_lost_word (char_signed : Bool) (buf0 : Nat → Nat) (A : List Nat)
    (hA : A.length = BUF_SIZE) (hAw : ∀ a ∈ A, isspace a = false) (hAb : ∀ a ∈ A, a < 256) :
    process_fd char_signed true buf0 [some A, some [0x20]] ⟨0, 0, 0⟩ =
      (0, ⟨0, 0, BUF_SIZE + 1⟩) := by
  have hm : (0 : Nat) < 2 ^ 64 := by decide
  have hBS : BUF_SIZE = 1048576 := rfl
  have hpos : 0 < A.length := by omega
  have h1 := count_buffer_eq char_signed (read_into buf0 A) A.length ⟨0, 0, 0⟩
    (read_into_lt buf0 A hAb) hm hm
  rw [read_into_bytes, newlines_word A hAw, closes_all_word _ A hAw] at h1
  have h2 := fun s hl hw => count_buffer_eq char_signed
    (read_into (read_into buf0 A) [0x20]) ([0x20] : List Nat).length s
    (read_into_lt _ [0x20] (by decide)) hl hw
  rw [read_into_bytes] at h2
  have hn : newlines [0x20] = 0 := by decide
  have hc : closes isspace [0x20] false = 0 := by decide
  have hone : ([0x20] : List Nat).length = 1 := rfl
  rw [hn, hc, hone] at h2
  have hlast : read_into (read_into buf0 A) [0x20] 0 = 0x20 := by
    simp [read_into]
  have hsp : (is_ascii_space (char_of_byte char_signed 0x20) == 0) = false := by
    rw [char_space char_signed 0x20 (by decide)]; decide
  have hloop : process_fd.loop char_signed [some A, some [0x20]] buf0 ⟨0, 0, 0⟩ =
      (0, read_into (read_into buf0 A) [0x20], ⟨0, 0, BUF_SIZE + 1⟩) := by
    have h1n : count_buffer char_signed (read_into buf0 A) A.length ⟨0, 0, 0⟩ =
        ⟨0, 0, A.length % 2 ^ 64⟩ := by
      rw [h1]
      simp only [Nat.zero_add, Nat.add_zero, Nat.zero_mod]
    have h2n := h2 ⟨0, 0, A.length % 2 ^ 64⟩ hm hm
    simp only [Nat.zero_add, Nat.add_zero, Nat.zero_mod] at h2n
    simp only [process_fd.loop, hpos, if_true, h1n, hone, Nat.lt_add_one, h2n, Prod.mk.injEq,
      stats.mk.injEq, true_and]
    omega
  have hidx : (BUF_SIZE + 1 - 1) % BUF_SIZE = 0 := by
    rw [Nat.add_sub_cancel, Nat.mod_self]
  have hb : 0 < BUF_SIZE + 1 := by omega
  have hr : ¬ ((0 : Int) < 0) := by decide
  simp only [process_fd, hloop, Bool.not_true, Bool.false_eq_true, if_false, hr, hb, if_true,
    hidx, hlast, hsp]

end chatgpt_o4_mini_high

namespace claude4_sonnet
open Wc
open chatgpt_o4_mini_high (char_of_byte char_newline)

set_option maxRecDepth 100000 in
theorem popcount_half : ∀ b0 b1 b2 b3 b4 b5 b6 b7 : Bool,
    popcountll (([cond b0 255 0, cond b1 255 0, cond b2 255 0, cond b3 255 0,
        cond b4 255 0, cond b5 255 0, cond b6 255 0, cond b7 255 0] : List Nat).foldr
        (fun x acc => x + 256 * acc) 0) / 8 =
      (cond b0 1 0) + (cond b1 1 0) + (cond b2 1 0) + (cond b3 1 0) +
      (cond b4 1 0) + (cond b5 1 0) + (cond b6 1 0) + (cond b7 1 0) := by
  decide

theorem popcount_half_bytes (x0 x1 x2 x3 x4 x5 x6 x7 : Nat) :
    popcountll (([if x0 = 10 then 255 else 0, if x1 = 10 then 255 else 0,
        if x2 = 10 then 255 else 0, if x3 = 10 then 255 else 0,
        if x4 = 10 then 255 else 0, if x5 = 10 then 255 else 0,
        if x6 = 10 then 255 else 0, if x7 = 10 then 255 else 0] : List Nat).foldr
        (fun x acc => x + 256 * acc) 0) / 8 =
      newlines [x0, x1, x2, x3, x4, x5, x6, x7] := by
  have h := popcount_half (decide (x0 = 10)) (decide (x1 = 10)) (decide (x2 = 10))
    (decide (x3 = 10)) (decide (x4 = 10)) (decide (x5 = 10)) (decide (x6 = 10))
    (decide (x7 = 10))
  simp only [Bool.cond_decide] at h
  rw [h]
  simp only [newlines, List.count_cons, List.count_nil, beq_iff_eq]
  omega

theorem neon_block (data : Nat → Nat) (ptr : Nat) :
    popcountll (vgetq_lane_u64
        (vreinterpretq_u64_u8 (vceqq_u8 (vld1q_u8 data ptr) (vdupq_n_u8 0x0A))) 0) / 8 +
      popcountll (vgetq_lane_u64
        (vreinterpretq_u64_u8 (vceqq_u8 (vld1q_u8 data ptr) (vdupq_n_u8 0x0A))) 1) / 8 =
      newlines (bytesFrom data ptr 16) := by
  have hb : bytesFrom data ptr 16 =
      [data ptr, data (ptr + 1), data (ptr + 2), data (ptr + 3), data (ptr + 4),
       data (ptr + 5), data (ptr + 6), data (ptr + 7)] ++
      [data (ptr + 8), data (ptr + 9), data (ptr + 10), data (ptr + 11), data (ptr + 12),
       data (ptr + 13), data (ptr + 14), data (ptr + 15)] := by
    simp [bytesFrom, List.range']
  have hlen : (bytesFrom data ptr 16).length = 16 := bytesFrom_length data ptr 16
  rw [gemeni25pro.vld1q_u8_eq_bytesFrom, vceqq_u8_dup _ _ hlen, hb]
  simp only [vreinterpretq_u64_u8, vgetq_lane_u64, List.map_append, List.map_cons, List.map_nil]
  have h1 := popcount_half_bytes (data ptr) (data (ptr + 1)) (data (ptr + 2)) (data (ptr + 3))
    (data (ptr + 4)) (data (ptr + 5)) (data (ptr + 6)) (data (ptr + 7))
  have h2 := popcount_half_bytes (data (ptr + 8)) (data (ptr + 9)) (data (ptr + 10))
    (data (ptr + 11)) (data (ptr + 12)) (data (ptr + 13)) (data (ptr + 14)) (data (ptr + 15))
  simp only [newlines, List.count_append] at h1 h2 ⊢
  rw [← h1, ← h2]
  rfl

end claude4_sonnet

namespace claude4_sonnet
open Wc
open chatgpt_o4_mini_high (char_of_byte char_newline)

theorem char_is_space (char_signed : Bool) (b : Nat) (hb : b < 256) :
    (char_of_byte char_signed b == (0x20 : Int) || char_of_byte char_signed b == (0x09 : Int) ||
      char_of_byte char_signed b == (0x0A : Int) || char_of_byte char_signed b == (0x0D : Int) ||
      char_of_byte char_signed b == (0x0C : Int) || char_of_byte char_signed b == (0x0B : Int)) =
      isspace b := by
  have h : ∀ v : Nat, v < 128 → (char_of_byte char_signed b == (v : Int)) = (b == v) := by
    intro v hv
    cases char_signed <;> by_cases h : b = v <;> simp [char_of_byte, h] <;> omega
  have h20 := h 0x20 (by decide)
  have h09 := h 0x09 (by decide)
  have h0A := h 0x0A (by decide)
  have h0D := h 0x0D (by decide)
  have h0C := h 0x0C (by decide)
  have h0B := h 0x0B (by decide)
  simp only [Nat.cast_ofNat] at h20 h09 h0A h0D h0C h0B
  rw [h20, h09, h0A, h0D, h0C, h0B]
  unfold isspace
  cases (b == 0x20) <;> cases (b == 0x09) <;> cases (b == 0x0A) <;> cases (b == 0x0D) <;>
    cases (b == 0x0C) <;> cases (b == 0x0B) <;> rfl

theorem simd_neon_loop_eq (data : Nat → Nat) (k : Nat) :
    ∀ (ptr count : Nat), count < 2 ^ 64 →
      count_lines_simd.neon_loop data (ptr + 16 * k) ptr count =
        (ptr + 16 * k, (count + newlines (bytesFrom data ptr (16 * k))) % 2 ^ 64) := by
  induction k with
  | zero =>
    intro ptr count hc
    rw [count_lines_simd.neon_loop]
    simp only [Nat.mul_zero, Nat.add_zero, Nat.lt_irrefl, if_false, bytesFrom_zero, newlines,
      List.count_nil, Nat.mod_eq_of_lt hc]
  | succ k ih =>
    intro ptr count hc
    have hm : (0 : Nat) < 2 ^ 64 := by decide
    rw [count_lines_simd.neon_loop]
    have hp : ptr < ptr + 16 * (k + 1) := by omega
    have hb := neon_block data ptr
    simp only [hp, if_true]
    rw [show ptr + 16 * (k + 1) = (ptr + 16) + 16 * k by omega, ih _ _ (Nat.mod_lt _ hm),
      show 16 * (k + 1) = 16 + 16 * k by omega, bytesFrom_add]
    simp only [newlines, List.count_append] at hb ⊢
    simp only [Prod.mk.injEq, true_and]
    omega

theorem simd_tail_loop_eq (char_signed : Bool) (data : Nat → Nat) (n : Nat) :
    ∀ (ptr count : Nat), (∀ j, j < ptr + n → data j < 256) → count < 2 ^ 64 →
      count_lines_simd.tail_loop char_signed data (ptr + n) ptr count =
        (count + newlines (bytesFrom data ptr n)) % 2 ^ 64 := by
  induction n with
  | zero =>
    intro ptr count _ hc
    rw [count_lines_simd.tail_loop]
    simp only [Nat.add_zero, Nat.lt_irrefl, if_false, bytesFrom_zero, newlines, List.count_nil,
      Nat.mod_eq_of_lt hc]
  | succ n ih =>
    intro ptr count hb hc
    have hm : (0 : Nat) < 2 ^ 64 := by decide
    have hbp : data ptr < 256 := hb ptr (by omega)
    rw [count_lines_simd.tail_loop]
    have hp : ptr < ptr + (n + 1) := by omega
    simp only [hp, if_true, char_newline char_signed _ hbp]
    rw [show ptr + (n + 1) = (ptr + 1) + n by omega, bytesFrom_succ]
    by_cases hx : (data ptr == 10) = true
    · rw [if_pos hx, ih _ _ (fun j hj => hb j (by omega)) (Nat.mod_lt _ hm)]
      simp only [newlines, List.count_cons, hx, if_true]
      omega
    · rw [if_neg hx, ih _ _ (fun j hj => hb j (by omega)) hc]
      simp only [newlines, List.count_cons, hx]
      simp

theorem fallback_loop_eq (char_signed : Bool) (data : Nat → Nat) (n : Nat) :
    ∀ (i count : Nat), (∀ j, j < i + n → data j < 256) → count < 2 ^ 64 →
      count_lines_simd.fallback_loop char_signed data (i + n) i count =
        (count + newlines (bytesFrom data i n)) % 2 ^ 64 := by
  induction n with
  | zero =>
    intro i count _ hc
    rw [count_lines_simd.fallback_loop]
    simp only [Nat.add_zero, Nat.lt_irrefl, if_false, bytesFrom_zero, newlines, List.count_nil,
      Nat.mod_eq_of_lt hc]
  | succ n ih =>
    intro i count hb hc
    have hm : (0 : Nat) < 2 ^ 64 := by decide
    have hbp : data i < 256 := hb i (by omega)
    rw [count_lines_simd.fallback_loop]
    have hp : i < i + (n + 1) := by omega
    simp only [hp, if_true, char_newline char_signed _ hbp]
    rw [show i + (n + 1) = (i + 1) + n by omega, bytesFrom_succ]
    by_cases hx : (data i == 10) = true
    · rw [if_pos hx, ih _ _ (fun j hj => hb j (by omega)) (Nat.mod_lt _ hm)]
      simp only [newlines, List.count_cons, hx, if_true]
      omega
    · rw [if_neg hx, ih _ _ (fun j hj => hb j (by omega)) hc]
      simp only [newlines, List.count_cons, hx]
      simp

theorem count_lines_simd_eq (arm_neon char_signed : Bool) (data : Nat → Nat) (size : Nat)
    (hsize : size < 2 ^ 64) (hb : ∀ j, j < size → data j < 256) :
    count_lines_simd arm_neon char_signed data size = newlines (bytesOf data size) := by
  have hm : (0 : Nat) < 2 ^ 64 := by decide
  have hle := newlines_le_length (bytesOf data size)
  rw [bytesOf_length] at hle
  cases arm_neon
  · have h := fallback_loop_eq char_signed data size 0 0 (by simpa using hb) hm
    rw [Nat.zero_add] at h
    simp only [count_lines_simd, Bool.false_eq_true, if_false, h, bytesOf_eq_bytesFrom] at hle ⊢
    omega
  · have hn := simd_neon_loop_eq data (size / 16) 0 0 hm
    have ht := simd_tail_loop_eq char_signed data (size % 16) (0 + 16 * (size / 16))
      ((0 + newlines (bytesFrom data 0 (16 * (size / 16)))) % 2 ^ 64)
      (fun j hj => hb j (by omega)) (Nat.mod_lt _ hm)
    rw [show 0 + 16 * (size / 16) + size % 16 = size by omega] at ht
    have hse : size - (size - 0) % 16 = 0 + 16 * (size / 16) := by omega
    have hsplit : bytesOf data size =
        bytesFrom data 0 (16 * (size / 16)) ++ bytesFrom data (0 + 16 * (size / 16)) (size % 16) := by
      rw [bytesOf_eq_bytesFrom, ← bytesFrom_add]
      congr 1
      omega
    simp only [count_lines_simd, if_true, hse, hn, ht]
    rw [hsplit] at hle ⊢
    simp only [newlines, List.count_append] at hle ⊢
    omega

theorem words_loop_eq (char_signed : Bool) (data : Nat → Nat) (n : Nat) :
    ∀ (i count : Nat) (w : Bool), (∀ j, j < i + n → data j < 256) → count < 2 ^ 64 →
      count_words_optimized.loop char_signed data (i + n) i count w =
        (count + starts isspace (bytesFrom data i n) w) % 2 ^ 64 := by
  induction n with
  | zero =>
    intro i count w _ hc
    rw [count_words_optimized.loop]
    simp only [Nat.add_zero, Nat.lt_irrefl, if_false, bytesFrom_zero, starts,
      Nat.mod_eq_of_lt hc]
  | succ n ih =>
    intro i count w hb hc
    have hm : (0 : Nat) < 2 ^ 64 := by decide
    have hbp : data i < 256 := hb i (by omega)
    have hb2 : ∀ j, j < (i + 1) + n → data j < 256 := fun j hj => hb j (by omega)
    rw [count_words_optimized.loop]
    have hp : i < i + (n + 1) := by omega
    simp only [hp, if_true, char_is_space char_signed _ hbp]
    rw [show i + (n + 1) = (i + 1) + n by omega, bytesFrom_succ]
    cases hs : isspace (data i) <;> cases w <;>
      simp only [Bool.not_true, Bool.not_false, Bool.and_true, Bool.and_false, Bool.true_and,
        Bool.false_and, if_true, if_false, Bool.false_eq_true, starts, hs] <;>
      rw [ih _ _ _ hb2 (by first | exact Nat.mod_lt _ hm | exact hc)] <;>
      omega

theorem count_words_optimized_eq (char_signed : Bool) (data : Nat → Nat) (size : Nat)
    (hsize : size < 2 ^ 64) (hb : ∀ j, j < size → data j < 256) :
    count_words_optimized char_signed data size = wordCount isspace (bytesOf data size) := by
  have hm : (0 : Nat) < 2 ^ 64 := by decide
  have hle := wordCount_le_length isspace (bytesOf data size)
  rw [bytesOf_length] at hle
  by_cases h0 : size = 0
  · subst h0
    simp [count_words_optimized, bytesOf, wordCount, maximalRuns]
  · have h := words_loop_eq char_signed data size 0 0 false (by simpa using hb) hm
    rw [Nat.zero_add] at h
    have hne : (size == 0) = false := by simpa using h0
    rw [count_words_optimized, hne]
    simp only [Bool.false_eq_true, if_false]
    rw [h, ← bytesOf_eq_bytesFrom, starts_false]
    omega

end claude4_sonnet

namespace Wc

theorem wordCount_word_space (A : List Nat) (hA : A ≠ []) (hAw : ∀ a ∈ A, isspace a = false) :
    wordCount isspace (A ++ [0x20]) = 1 := by
  have h := starts_word isspace A hAw hA false
  rw [← starts_false, starts_append, h.1, h.2]
  decide

end Wc

namespace chatgpt_o4_mini_high
open Wc

/-! ### Claims about `count_buffer` and `process_fd` -/

/-- C14, the code at a failing input: a file of 1 MiB of 'a' followed by one
space holds one word.  `read` delivers it as a full buffer of `BUF_SIZE` bytes
and then one byte; `count_buffer` forgets the word open at the end of the first
chunk, and the final check reads the space stored at `buf[0]`, so `process_fd`
returns 0 with `words = 0` (for either signedness of `char`). -/
theorem process_fd_word_at_chunk_end_lost :
    process_fd true true (fun _ => 0)
        [some (List.replicate 1048576 0x61), some [0x20]] ⟨0, 0, 0⟩ = (0, ⟨0, 0, 1048577⟩) ∧
    process_fd false true (fun _ => 0)
        [some (List.replicate 1048576 0x61), some [0x20]] ⟨0, 0, 0⟩ = (0, ⟨0, 0, 1048577⟩) ∧
    wordCount isspace (List.replicate 1048576 0x61 ++ [0x20]) = 1 := by
  have ha : isspace 0x61 = false := by decide
  have hlen : (List.replicate 1048576 0x61 : List Nat).length = BUF_SIZE :=
    List.length_replicate _ _
  have hw := replicate_word isspace 1048576 0x61 ha
  have hb : ∀ a ∈ List.replicate 1048576 0x61, a < 256 := by
    intro a h
    rw [List.eq_of_mem_replicate h]
    decide
  exact ⟨process_fd_lost_word true _ _ hlen hw hb, process_fd_lost_word false _ _ hlen hw hb,
    wordCount_word_space _ (replicate_ne_nil _ _ (by decide)) hw⟩

/-- C15 (`count_buffer` with the caller's finalization): for every buffer of
bytes and every length (a `size_t`), `count_buffer` on zeroed stats followed by
"if len > 0 and the last byte is not whitespace, words++" yields lines = number
of newline bytes, words = number of maximal non-whitespace runs, bytes = len;
`count_buffer` alone counts exactly the words closed by a whitespace byte
inside the buffer. -/
theorem count_buffer_with_finalization (char_signed : Bool) (buf : Nat → Nat) (len : Nat)
    (hlen : len < 2 ^ 64) (hb : ∀ j, j < len → buf j < 256) :
    unit_tests.count_and_finalize char_signed buf len =
        ⟨newlines (bytesOf buf len), wordCount isspace (bytesOf buf len), len⟩ ∧
    (count_buffer char_signed buf len ⟨0, 0, 0⟩).words = wordEnds isspace buf len := by
  have hm : (0 : Nat) < 2 ^ 64 := by decide
  have hcb := count_buffer_eq char_signed buf len ⟨0, 0, 0⟩ hb hm hm
  have hnl := newlines_le_length (bytesOf buf len)
  have hwc := wordCount_le_length isspace (bytesOf buf len)
  have hcl := closes_lastFlag isspace (bytesOf buf len) false
  rw [starts_false] at hcl
  rw [bytesOf_length] at hnl hwc
  simp only [Bool.false_eq_true, if_false, Nat.add_zero] at hcl
  constructor
  · by_cases h0 : len = 0
    · subst h0
      simp [unit_tests.count_and_finalize, hcb, bytesOf, newlines, closes, wordCount,
        maximalRuns]
    · have hpos : 0 < len := Nat.pos_of_ne_zero h0
      have hlast := lastFlag_last isspace buf len hpos false
      have hsp := char_space char_signed (buf (len - 1)) (hb _ (by omega))
      rw [hlast] at hcl
      simp only [unit_tests.count_and_finalize, hcb, hpos, decide_True, Bool.true_and, hsp]
      cases hs : isspace (buf (len - 1)) <;>
        simp only [hs, Bool.not_true, Bool.not_false, if_true, if_false, Bool.false_eq_true,
          Nat.zero_add, stats.mk.injEq] at hcl ⊢ <;>
        refine ⟨by omega, by omega, by omega⟩
  · rw [hcb, ← closes_eq_wordEnds]
    simp only [Nat.zero_add]
    omega

/-- Witness of C15 on the unit-test input " foo  bar\nbaz\tqux " (18 bytes). -/
theorem count_buffer_with_finalization_witness :
    (18 < 2 ^ 64 ∧
      ∀ j, j < 18 → ofList [32, 102, 111, 111, 32, 32, 98, 97, 114, 10, 98, 97, 122, 9,
        113, 117, 120, 32] j < 256) ∧
    (unit_tests.count_and_finalize true
        (ofList [32, 102, 111, 111, 32, 32, 98, 97, 114, 10, 98, 97, 122, 9, 113, 117, 120, 32])
        18 =
      ⟨newlines (bytesOf (ofList [32, 102, 111, 111, 32, 32, 98, 97, 114, 10, 98, 97, 122, 9,
          113, 117, 120, 32]) 18),
        wordCount isspace (bytesOf (ofList [32, 102, 111, 111, 32, 32, 98, 97, 114, 10, 98, 97,
          122, 9, 113, 117, 120, 32]) 18), 18⟩) :=
  ⟨⟨by decide, by decide⟩,
   (count_buffer_with_finalization true
      (ofList [32, 102, 111, 111, 32, 32, 98, 97, 114, 10, 98, 97, 122, 9, 113, 117, 120, 32])
      18 (by decide) (by decide)).1⟩

end chatgpt_o4_mini_high

namespace claude4_sonnet
open Wc

/-! ### Claims about `count_lines_simd`, `count_words_optimized` and `count_data` -/

/-- C18 (`count_lines_simd` returns the number of newline bytes): for every
buffer of bytes and every size (a `size_t`), both the NEON path (`arm_neon =
true`: 16-byte blocks, popcount of each 64-bit half of the comparison mask
divided by 8, then the scalar tail) and the fallback loop (`arm_neon = false`)
return exactly the number of bytes equal to 0x0A. -/
theorem count_lines_simd_correct (arm_neon char_signed : Bool) (data : Nat → Nat) (size : Nat)
    (hsize : size < 2 ^ 64) (hb : ∀ j, j < size → data j < 256) :
    count_lines_simd arm_neon char_signed data size = newlines (bytesOf data size) :=
  count_lines_simd_eq arm_neon char_signed data size hsize hb

/-- Witness of C18 on the test input "line1\nline2\nline3\n" (18 bytes), NEON path. -/
theorem count_lines_simd_correct_witness :
    (18 < 2 ^ 64 ∧
      ∀ j, j < 18 → ofList [108, 105, 110, 101, 49, 10, 108, 105, 110, 101, 50, 10,
        108, 105, 110, 101, 51, 10] j < 256) ∧
    count_lines_simd true true
        (ofList [108, 105, 110, 101, 49, 10, 108, 105, 110, 101, 50, 10,
          108, 105, 110, 101, 51, 10]) 18 =
      newlines (bytesOf (ofList [108, 105, 110, 101, 49, 10, 108, 105, 110, 101, 50, 10,
        108, 105, 110, 101, 51, 10]) 18) :=
  ⟨⟨by decide, by decide⟩,
   count_lines_simd_correct true true
     (ofList [108, 105, 110, 101, 49, 10, 108, 105, 110, 101, 50, 10,
       108, 105, 110, 101, 51, 10]) 18 (by decide) (by decide)⟩

/-- C19 (`count_words_optimized`): for every buffer of bytes and every size (a
`size_t`) the function returns the number of maximal runs of non-whitespace
bytes, whitespace being space, tab, newline, carriage return, form feed and
vertical tab; and it returns 0 for size 0. -/
theorem count_words_optimized_correct (char_signed : Bool) (data : Nat → Nat) (size : Nat)
    (hsize : size < 2 ^ 64) (hb : ∀ j, j < size → data j < 256) :
    count_words_optimized char_signed data size = wordCount isspace (bytesOf data size) ∧
    count_words_optimized char_signed data 0 = 0 :=
  ⟨count_words_optimized_eq char_signed data size hsize hb, by simp [count_words_optimized]⟩

/-- Witness of C19 on the test input "hello\tworld\ntest" (16 bytes). -/
theorem count_words_optimized_correct_witness :
    (16 < 2 ^ 64 ∧
      ∀ j, j < 16 → ofList [104, 101, 108, 108, 111, 9, 119, 111, 114, 108, 100, 10,
        116, 101, 115, 116] j < 256) ∧
    count_words_optimized true
        (ofList [104, 101, 108, 108, 111, 9, 119, 111, 114, 108, 100, 10, 116, 101, 115, 116])
        16 =
      wordCount isspace (bytesOf (ofList [104, 101, 108, 108, 111, 9, 119, 111, 114, 108, 100,
        10, 116, 101, 115, 116]) 16) :=
  ⟨⟨by decide, by decide⟩,
   (count_words_optimized_correct true
     (ofList [104, 101, 108, 108, 111, 9, 119, 111, 114, 108, 100, 10, 116, 101, 115, 116])
     16 (by decide) (by decide)).1⟩

/-- C20 (`count_data`): for every buffer of bytes, every size (a `size_t`) and
every options record, each of the fields lines, words, chars, bytes of the
result is respectively the number of newline bytes, the number of maximal
non-whitespace runs, `size` and `size` when the corresponding option is
non-zero, and 0 when that option is 0; with all four options set,
chars = bytes = size. -/
theorem count_data_fields (arm_neon char_signed : Bool) (data : Nat → Nat) (size : Nat)
    (opts : wc_options_t) (hsize : size < 2 ^ 64) (hb : ∀ j, j < size → data j < 256) :
    (count_data arm_neon char_signed data size opts).lines =
        (if opts.count_lines ≠ 0 then newlines (bytesOf data size) else 0) ∧
    (count_data arm_neon char_signed data size opts).words =
        (if opts.count_words ≠ 0 then wordCount isspace (bytesOf data size) else 0) ∧
    (count_data arm_neon char_signed data size opts).chars =
        (if opts.count_chars ≠ 0 then size else 0) ∧
    (count_data arm_neon char_signed data size opts).bytes =
        (if opts.count_bytes ≠ 0 then size else 0) ∧
    (opts.count_lines ≠ 0 → opts.count_words ≠ 0 → opts.count_chars ≠ 0 →
      opts.count_bytes ≠ 0 →
      (count_data arm_neon char_signed data size opts).chars = size ∧
      (count_data arm_neon char_signed data size opts).bytes = size) := by
  have hl := count_lines_simd_eq arm_neon char_signed data size hsize hb
  have hw := count_words_optimized_eq char_signed data size hsize hb
  by_cases h1 : opts.count_lines = 0 <;> by_cases h2 : opts.count_words = 0 <;>
    by_cases h3 : opts.count_chars = 0 <;> by_cases h4 : opts.count_bytes = 0 <;>
    simp [count_data, count_chars_ascii, h1, h2, h3, h4, hl, hw]

/-- Witness of C20 on the test input "hello world\ntest line\n" (22 bytes) with
all four options set. -/
theorem count_data_fields_witness :
    (22 < 2 ^ 64 ∧
      ∀ j, j < 22 → ofList [104, 101, 108, 108, 111, 32, 119, 111, 114, 108, 100, 10,
        116, 101, 115, 116, 32, 108, 105, 110, 101, 10] j < 256) ∧
    (count_data true true
        (ofList [104, 101, 108, 108, 111, 32, 119, 111, 114, 108, 100, 10,
          116, 101, 115, 116, 32, 108, 105, 110, 101, 10]) 22 ⟨1, 1, 1, 1, 0⟩).bytes =
      (if (1 : Int) ≠ 0 then 22 else 0) :=
  ⟨⟨by decide, by decide⟩,
   (count_data_fields true true
     (ofList [104, 101, 108, 108, 111, 32, 119, 111, 114, 108, 100, 10,
       116, 101, 115, 116, 32, 108, 105, 110, 101, 10]) 22 ⟨1, 1, 1, 1, 0⟩
     (by decide) (by decide)).2.2.2.1⟩

end claude4_sonnet

/-! ## grok3: characterisation of the loops -/

namespace Wc

theorem ofList_lt (l : List Nat) (h : ∀ a ∈ l, a < 256) : ∀ j, j < l.length → ofList l j < 256 := by
  intro j hj
  have hmem : l[j] ∈ l := List.getElem_mem hj
  simpa [ofList, List.getD_eq_getElem?_getD, List.getElem?_eq_getElem hj] using h _ hmem

theorem bytesOf_lt (buffer : Nat → Nat) (size : Nat) (h : ∀ j, j < size → buffer j < 256) :
    ∀ a ∈ bytesOf buffer size, a < 256 := by
  intro a ha
  simp only [bytesOf, List.mem_map, List.mem_range] at ha
  obtain ⟨j, hj, rfl⟩ := ha
  exact h j hj

end Wc

namespace grok3
open Wc
open chatgpt_o4_mini_high (char_of_byte char_newline)

theorem char_isspace_int (char_signed : Bool) (b : Nat) (hb : b < 256) :
    isspace_int (char_of_byte char_signed b) = isspace b := by
  have h : ∀ v : Nat, v < 128 → (char_of_byte char_signed b == (v : Int)) = (b == v) := by
    intro v hv
    cases char_signed <;> by_cases h : b = v <;> simp [char_of_byte, h] <;> omega
  have h20 := h 0x20 (by decide)
  have h09 := h 0x09 (by decide)
  have h0A := h 0x0A (by decide)
  have h0D := h 0x0D (by decide)
  have h0C := h 0x0C (by decide)
  have h0B := h 0x0B (by decide)
  simp only [Nat.cast_ofNat] at h20 h09 h0A h0D h0C h0B
  unfold isspace_int isspace
  rw [h20, h09, h0A, h0D, h0C, h0B]

theorem buffer_loop_eq (char_signed : Bool) (buffer : Nat → Nat) (n : Nat) :
    ∀ (i : Nat) (counts : Counts) (w : Bool), (∀ j, j < i + n → buffer j < 256) →
      process_buffer.loop char_signed buffer (i + n) i counts w =
        (⟨counts.lines + newlines (bytesFrom buffer i n),
          counts.words + starts isspace (bytesFrom buffer i n) w, counts.chars + n⟩,
         lastFlag isspace (bytesFrom buffer i n) w) := by
  induction n with
  | zero =>
    intro i counts w _
    rw [process_buffer.loop]
    simp [bytesFrom_zero, newlines, starts, lastFlag]
  | succ n ih =>
    intro i counts w hb
    have hbi : buffer i < 256 := hb i (by omega)
    have hb2 : ∀ j, j < (i + 1) + n → buffer j < 256 := fun j hj => hb j (by omega)
    rw [process_buffer.loop]
    have hc : i < i + (n + 1) := by omega
    simp only [hc, if_true, char_newline char_signed _ hbi, char_isspace_int char_signed _ hbi]
    rw [show i + (n + 1) = (i + 1) + n by omega, bytesFrom_succ]
    by_cases hx : (buffer i == 10) = true <;> cases hs : isspace (buffer i) <;> cases w <;>
      simp [ih _ _ _ hb2, newlines, starts, lastFlag, List.count_cons, hx, hs] <;> omega

theorem inner_loop_eq (char_signed : Bool) (buffer : Nat → Nat) (n : Nat) :
    ∀ (i : Nat) (counts : Counts) (w : Bool), (∀ j, j < i + n → buffer j < 256) →
      process_stdin.inner_loop char_signed buffer (i + n) i counts w =
        (⟨counts.lines + newlines (bytesFrom buffer i n),
          counts.words + starts isspace (bytesFrom buffer i n) w, counts.chars + n⟩,
         lastFlag isspace (bytesFrom buffer i n) w) := by
  induction n with
  | zero =>
    intro i counts w _
    rw [process_stdin.inner_loop]
    simp [bytesFrom_zero, newlines, starts, lastFlag]
  | succ n ih =>
    intro i counts w hb
    have hbi : buffer i < 256 := hb i (by omega)
    have hb2 : ∀ j, j < (i + 1) + n → buffer j < 256 := fun j hj => hb j (by omega)
    rw [process_stdin.inner_loop]
    have hc : i < i + (n + 1) := by omega
    simp only [hc, if_true, char_newline char_signed _ hbi, char_isspace_int char_signed _ hbi]
    rw [show i + (n + 1) = (i + 1) + n by omega, bytesFrom_succ]
    by_cases hx : (buffer i == 10) = true <;> cases hs : isspace (buffer i) <;> cases w <;>
      simp [ih _ _ _ hb2, newlines, starts, lastFlag, List.count_cons, hx, hs] <;> omega

theorem grok_process_buffer_eq (char_signed : Bool) (buffer : Nat → Nat) (size : Nat)
    (hb : ∀ j, j < size → buffer j < 256) :
    process_buffer char_signed buffer size =
      ⟨newlines (bytesOf buffer size), wordCount isspace (bytesOf buffer size), size⟩ := by
  have h := buffer_loop_eq char_signed buffer size 0 ⟨0, 0, 0⟩ false (by simpa using hb)
  rw [Nat.zero_add] at h
  rw [process_buffer, h, ← bytesOf_eq_bytesFrom, starts_false]
  simp

theorem stdin_loop_eq (char_signed : Bool) (chunks : List (List Nat)) :
    ∀ (counts : Counts) (w : Bool), (∀ c ∈ chunks, c ≠ []) → (∀ c ∈ chunks, ∀ a ∈ c, a < 256) →
      process_stdin.loop char_signed chunks (counts, w) =
        (⟨counts.lines + newlines chunks.flatten,
          counts.words + starts isspace chunks.flatten w,
          counts.chars + chunks.flatten.length⟩,
         lastFlag isspace chunks.flatten w) := by
  induction chunks with
  | nil => intro counts w _ _; simp [process_stdin.loop, newlines, starts, lastFlag]
  | cons c cs ih =>
    intro counts w hne hb
    have hpos : 0 < c.length := List.length_pos.mpr (hne c (List.mem_cons_self c cs))
    have hin := inner_loop_eq char_signed (ofList c) c.length 0 counts w
      (by simpa using ofList_lt c (hb c (List.mem_cons_self c cs)))
    rw [Nat.zero_add, ← bytesOf_eq_bytesFrom, bytesOf_ofList] at hin
    have hrec := ih (⟨counts.lines + newlines c, counts.words + starts isspace c w,
        counts.chars + c.length⟩) (lastFlag isspace c w)
      (fun x hx => hne x (List.mem_cons_of_mem c hx))
      (fun x hx => hb x (List.mem_cons_of_mem c hx))
    simp only [process_stdin.loop, hpos, if_true, hin]
    rw [hrec]
    simp only [List.flatten_cons, starts_append, lastFlag_append, newlines, List.count_append,
      List.length_append, Prod.mk.injEq, Counts.mk.injEq, and_true]
    refine ⟨by push_cast; omega, by push_cast; omega, by push_cast; omega⟩

end grok3

namespace grok3
open Wc

/-! ### Claims about grok3 `process_buffer` and `process_stdin` -/

/-- C21 (grok3 `process_buffer`): for every buffer of bytes and every size the
returned `Counts` has chars = size, lines = number of newline bytes and
words = number of maximal runs of non-whitespace bytes (`isspace`, "C" locale),
for either signedness of `char`. -/
theorem grok3_process_buffer_correct (char_signed : Bool) (buffer : Nat → Nat) (size : Nat)
    (hb : ∀ j, j < size → buffer j < 256) :
    (process_buffer char_signed buffer size).chars = size ∧
    (process_buffer char_signed buffer size).lines = newlines (bytesOf buffer size) ∧
    (process_buffer char_signed buffer size).words = wordCount isspace (bytesOf buffer size) := by
  rw [grok_process_buffer_eq char_signed buffer size hb]
  exact ⟨rfl, rfl, rfl⟩

/-- Witness of C21 on the unit-test input "hello world\n  test  \n" (21 bytes). -/
theorem grok3_process_buffer_correct_witness :
    (∀ j, j < 21 → ofList [104, 101, 108, 108, 111, 32, 119, 111, 114, 108, 100, 10,
        32, 32, 116, 101, 115, 116, 32, 32, 10] j < 256) ∧
    (process_buffer true (ofList [104, 101, 108, 108, 111, 32, 119, 111, 114, 108, 100, 10,
        32, 32, 116, 101, 115, 116, 32, 32, 10]) 21).chars = (21 : Nat) :=
  ⟨by decide,
   (grok3_process_buffer_correct true (ofList [104, 101, 108, 108, 111, 32, 119, 111, 114,
      108, 100, 10, 32, 32, 116, 101, 115, 116, 32, 32, 10]) 21 (by decide)).1⟩

/-- C22 (streaming and mmap paths are interchangeable): for every byte sequence
`S` and every partition of `S` into non-empty chunks returned by `read`, the
`Counts` computed by `process_stdin` (whose `in_word` is carried across the
reads) equal `process_buffer(S, len(S))`. -/
theorem process_stdin_eq_process_buffer (char_signed : Bool) (chunks : List (List Nat))
    (hne : ∀ c ∈ chunks, c ≠ []) (hb : ∀ c ∈ chunks, ∀ a ∈ c, a < 256) :
    process_stdin char_signed chunks =
      process_buffer char_signed (ofList chunks.flatten) chunks.flatten.length := by
  have hflat : ∀ a ∈ chunks.flatten, a < 256 := by
    intro a ha
    obtain ⟨c, hc, hac⟩ := List.mem_flatten.mp ha
    exact hb c hc a hac
  rw [grok_process_buffer_eq char_signed _ _ (ofList_lt _ hflat), bytesOf_ofList,
    process_stdin, stdin_loop_eq char_signed chunks _ _ hne hb, starts_false]
  simp

/-- Witness of C22 on the chunks "hello wo", "rld\n". -/
theorem process_stdin_eq_process_buffer_witness :
    ((∀ c ∈ [[104, 101, 108, 108, 111, 32, 119, 111], [114, 108, 100, 10]], c ≠ []) ∧
      (∀ c ∈ [[104, 101, 108, 108, 111, 32, 119, 111], [114, 108, 100, 10]],
        ∀ a ∈ c, a < 256)) ∧
    process_stdin true [[104, 101, 108, 108, 111, 32, 119, 111], [114, 108, 100, 10]] =
      process_buffer true
        (ofList ([[104, 101, 108, 108, 111, 32, 119, 111], [114, 108, 100, 10]] :
          List (List Nat)).flatten)
        ([[104, 101, 108, 108, 111, 32, 119, 111], [114, 108, 100, 10]] :
          List (List Nat)).flatten.length :=
  ⟨⟨by decide, by decide⟩,
   process_stdin_eq_process_buffer true
     [[104, 101, 108, 108, 111, 32, 119, 111], [114, 108, 100, 10]] (by decide) (by decide)⟩

/-- C23 (the variant implementations compute the same core): for every buffer
of bytes and every size (a `size_t`), chatgpt_o3 `wc_count_buffer` on zeroed
counts, claude4_sonnet `count_data` with the lines, words and bytes options
enabled, and grok3 `process_buffer` return the same lines, the same words and
the same byte count (`bytes`, resp. `chars`). -/
theorem variants_agree (arm_neon sonnet_char_signed grok_char_signed : Bool)
    (data : Nat → Nat) (size : Nat) (opts : claude4_sonnet.wc_options_t)
    (hsize : size < 2 ^ 64) (hb : ∀ j, j < size → data j < 256)
    (hl : opts.count_lines ≠ 0) (hw : opts.count_words ≠ 0) (hbytes : opts.count_bytes ≠ 0) :
    (chatgpt_o3.wc_count_buffer data size ⟨0, 0, 0⟩).lines =
        (claude4_sonnet.count_data arm_neon sonnet_char_signed data size opts).lines ∧
    (chatgpt_o3.wc_count_buffer data size ⟨0, 0, 0⟩).words =
        (claude4_sonnet.count_data arm_neon sonnet_char_signed data size opts).words ∧
    (chatgpt_o3.wc_count_buffer data size ⟨0, 0, 0⟩).bytes =
        (claude4_sonnet.count_data arm_neon sonnet_char_signed data size opts).bytes ∧
    ((chatgpt_o3.wc_count_buffer data size ⟨0, 0, 0⟩).lines : Int) =
        (process_buffer grok_char_signed data size).lines ∧
    ((chatgpt_o3.wc_count_buffer data size ⟨0, 0, 0⟩).words : Int) =
        (process_buffer grok_char_signed data size).words ∧
    ((chatgpt_o3.wc_count_buffer data size ⟨0, 0, 0⟩).bytes : Int) =
        (process_buffer grok_char_signed data size).chars := by
  have hnl := newlines_le_length (bytesOf data size)
  have hwc := wordCount_le_length isspace (bytesOf data size)
  rw [bytesOf_length] at hnl hwc
  have hsl := claude4_sonnet.count_lines_simd_eq arm_neon sonnet_char_signed data size hsize hb
  have hsw := claude4_sonnet.count_words_optimized_eq sonnet_char_signed data size hsize hb
  have h1 : (0 + newlines (bytesOf data size)) % 2 ^ 64 = newlines (bytesOf data size) := by
    omega
  have h2 : (0 + wordCount isspace (bytesOf data size)) % 2 ^ 64 =
      wordCount isspace (bytesOf data size) := by omega
  have h3 : (0 + size) % 2 ^ 64 = size := by omega
  rw [chatgpt_o3.wc_count_buffer_eq, grok_process_buffer_eq grok_char_signed data size hb]
  simp only [h1, h2, h3]
  by_cases hc : opts.count_chars = 0 <;>
    simp [claude4_sonnet.count_data, hl, hw, hbytes, hc, hsl, hsw]

/-- Witness of C23 on the input "one two\nthree\tfour\n" (19 bytes) with the
options record {1, 1, 0, 1, 0}. -/
theorem variants_agree_witness :
    ((19 < 2 ^ 64 ∧
      ∀ j, j < 19 → ofList [111, 110, 101, 32, 116, 119, 111, 10, 116, 104, 114, 101, 101, 9,
        102, 111, 117, 114, 10] j < 256) ∧
      ((1 : Int) ≠ 0 ∧ (1 : Int) ≠ 0 ∧ (1 : Int) ≠ 0)) ∧
    (chatgpt_o3.wc_count_buffer (ofList [111, 110, 101, 32, 116, 119, 111, 10, 116, 104, 114,
        101, 101, 9, 102, 111, 117, 114, 10]) 19 ⟨0, 0, 0⟩).lines =
      (claude4_sonnet.count_data true true (ofList [111, 110, 101, 32, 116, 119, 111, 10, 116,
        104, 114, 101, 101, 9, 102, 111, 117, 114, 10]) 19 ⟨1, 1, 0, 1, 0⟩).lines :=
  ⟨⟨⟨by decide, by decide⟩, ⟨by decide, by decide, by decide⟩⟩,
   (variants_agree true true true (ofList [111, 110, 101, 32, 116, 119, 111, 10, 116, 104, 114,
      101, 101, 9, 102, 111, 117, 114, 10]) 19 ⟨1, 1, 0, 1, 0⟩
      (by decide) (by decide) (by decide) (by decide) (by decide)).1⟩

end grok3

namespace gemeni25pro
open Wc

theorem process_buffer_lines_raw (arm_neon : Bool) (buffer : Nat → Nat) (size : Nat)
    (counts : Counts) (in_word_prev : Bool) :
    (process_buffer arm_neon buffer size counts in_word_prev).1.lines =
      counts.lines +
        ((if arm_neon then
            process_buffer.neon_loop buffer (size / 16 * 16) 0 0 +
              newlines (bytesFrom buffer (size / 16 * 16) (size % 16))
          else newlines (bytesOf buffer size) : Nat) : Int) := by
  cases arm_neon
  · simp [process_buffer, scalar_loop_all]
  · simp [process_buffer, scalar_loop_all, leftover_loop_tail]
    omega

theorem loop_snoc (arm_neon : Bool) (chunks : List (List Nat)) (c : List Nat) :
    ∀ st : Counts × Bool,
      process_file.loop arm_neon (chunks ++ [c]) st =
        process_buffer arm_neon (ofList c) c.length
          (process_file.loop arm_neon chunks st).1 (process_file.loop arm_neon chunks st).2 := by
  induction chunks with
  | nil => intro st; simp [process_file.loop]
  | cons x xs ih =>
    intro st
    rw [List.cons_append, process_file.loop, process_file.loop, ih]

theorem length_flatten_sum (chunks : List (List Nat)) :
    chunks.flatten.length = (chunks.map List.length).sum := by
  induction chunks with
  | nil => rfl
  | cons x xs ih => simp [ih]

/-! ### Further claims about gemeni2.5pro `process_buffer` -/

/-- C25 (`Counts` invariant over a stream): along every sequence of calls
starting from `Counts {0,0,0}` and `in_word = false` and threading the returned
flag, the state after one more chunk is `process_buffer` applied to the state
before it, each of lines, words and bytes is non-decreasing from one call to
the next, and after every call bytes equals the sum of the sizes of the chunks
fed so far. -/
theorem process_buffer_stream_invariant (arm_neon : Bool) (chunks : List (List Nat))
    (c : List Nat) :
    process_file.loop arm_neon (chunks ++ [c]) (⟨0, 0, 0⟩, false) =
        process_buffer arm_neon (ofList c) c.length
          (process_file.loop arm_neon chunks (⟨0, 0, 0⟩, false)).1
          (process_file.loop arm_neon chunks (⟨0, 0, 0⟩, false)).2 ∧
    (process_file.loop arm_neon chunks (⟨0, 0, 0⟩, false)).1.lines ≤
        (process_file.loop arm_neon (chunks ++ [c]) (⟨0, 0, 0⟩, false)).1.lines ∧
    (process_file.loop arm_neon chunks (⟨0, 0, 0⟩, false)).1.words ≤
        (process_file.loop arm_neon (chunks ++ [c]) (⟨0, 0, 0⟩, false)).1.words ∧
    (process_file.loop arm_neon chunks (⟨0, 0, 0⟩, false)).1.bytes ≤
        (process_file.loop arm_neon (chunks ++ [c]) (⟨0, 0, 0⟩, false)).1.bytes ∧
    (process_file.loop arm_neon chunks (⟨0, 0, 0⟩, false)).1.bytes =
        ((chunks.map List.length).sum : Nat) ∧
    (process_file.loop arm_neon (chunks ++ [c]) (⟨0, 0, 0⟩, false)).1.bytes =
        (((chunks ++ [c]).map List.length).sum : Nat) := by
  have hs := loop_snoc arm_neon chunks c (⟨0, 0, 0⟩, false)
  obtain ⟨-, hb1, -⟩ := loop_frame arm_neon chunks ⟨0, 0, 0⟩ false
  obtain ⟨-, hb2, -⟩ := loop_frame arm_neon (chunks ++ [c]) ⟨0, 0, 0⟩ false
  rw [length_flatten_sum] at hb1 hb2
  refine ⟨hs, ?_, ?_, ?_, by simpa using hb1, by simpa using hb2⟩
  · rw [hs, process_buffer_lines_raw]
    omega
  · rw [hs, process_buffer_words]
    omega
  · rw [hs, process_buffer_bytes]
    omega

/-- C26 (the vectorised newline count agrees with the scalar fallback): for
every buffer, every size (a `size_t`), every incoming counts and every
`in_word_prev`, the build with `__ARM_NEON` and the build without it produce
identical `Counts` and the same returned flag. -/
theorem process_buffer_neon_eq_scalar (buffer : Nat → Nat) (size : Nat) (counts : Counts)
    (in_word_prev : Bool) (hsize : size < 2 ^ 64) :
    process_buffer true buffer size counts in_word_prev =
      process_buffer false buffer size counts in_word_prev := by
  rw [process_buffer_eq true buffer size counts in_word_prev hsize,
    process_buffer_eq false buffer size counts in_word_prev hsize]

/-- Witness of C26 on the unit-test input "  word1  word2 \n" (16 bytes). -/
theorem process_buffer_neon_eq_scalar_witness :
    16 < 2 ^ 64 ∧
    process_buffer true
        (ofList [32, 32, 119, 111, 114, 100, 49, 32, 32, 119, 111, 114, 100, 50, 32, 10]) 16
        ⟨0, 0, 0⟩ false =
      process_buffer false
        (ofList [32, 32, 119, 111, 114, 100, 49, 32, 32, 119, 111, 114, 100, 50, 32, 10]) 16
        ⟨0, 0, 0⟩ false :=
  ⟨by decide, process_buffer_neon_eq_scalar _ 16 ⟨0, 0, 0⟩ false (by decide)⟩

end gemeni25pro

/-! ## Concrete scenarios of the unit tests -/

namespace chatgpt_o3
open Wc

/-- C27, refutation of the claim as stated: the string "  leading and trailing  \n"
has 25 bytes, and `wc_count_buffer` applied to it with zeroed counts does not
yield (1, 3, 27). -/
theorem wc_count_buffer_leading_trailing_counterexample :
    ([32, 32, 108, 101, 97, 100, 105, 110, 103, 32, 97, 110, 100, 32, 116, 114, 97, 105, 108,
      105, 110, 103, 32, 32, 10] : List Nat).length = 25 ∧
    wc_count_buffer
      (ofList [32, 32, 108, 101, 97, 100, 105, 110, 103, 32, 97, 110, 100, 32, 116, 114, 97,
        105, 108, 105, 110, 103, 32, 32, 10]) 25 ⟨0, 0, 0⟩ ≠ ⟨1, 3, 27⟩ := by
  refine ⟨by decide, ?_⟩
  rw [wc_count_buffer_eq, show (25 : Nat) = ([32, 32, 108, 101, 97, 100, 105, 110, 103, 32, 97,
    110, 100, 32, 116, 114, 97, 105, 108, 105, 110, 103, 32, 32, 10] : List Nat).length from rfl,
    bytesOf_ofList]
  decide

/-- C27 as amended: `wc_count_buffer` applied to the 25-byte string
"  leading and trailing  \n" with zeroed counts yields lines = 1, words = 3,
bytes = 25. -/
theorem wc_count_buffer_leading_trailing :
    wc_count_buffer
      (ofList [32, 32, 108, 101, 97, 100, 105, 110, 103, 32, 97, 110, 100, 32, 116, 114, 97,
        105, 108, 105, 110, 103, 32, 32, 10])
      ([32, 32, 108, 101, 97, 100, 105, 110, 103, 32, 97, 110, 100, 32, 116, 114, 97,
        105, 108, 105, 110, 103, 32, 32, 10] : List Nat).length ⟨0, 0, 0⟩ = ⟨1, 3, 25⟩ := by
  rw [wc_count_buffer_eq, bytesOf_ofList]
  decide

end chatgpt_o3

namespace gemeni25pro
open Wc

/-- C28, refutation of the claim as stated: "wor" followed by "ld " is 6 bytes;
neither the two-chunk feeding nor the one-chunk feeding of "world " (with the
end-of-stream finalization applied) yields the totals (0, 1, 7). -/
theorem process_buffer_world_split_counterexample :
    spec_finalize (process_file.loop true [[119, 111, 114], [108, 100, 32]] (⟨0, 0, 0⟩, false))
      ≠ ⟨0, 1, 7⟩ ∧
    spec_finalize (process_file.loop true [[119, 111, 114, 108, 100, 32]] (⟨0, 0, 0⟩, false))
      ≠ ⟨0, 1, 7⟩ := by
  simp only [process_file.loop]
  rw [process_buffer_eq true _ _ _ _ (by decide), process_buffer_eq true _ _ _ _ (by decide),
    process_buffer_eq true _ _ _ _ (by decide)]
  simp only [bytesOf_ofList]
  decide

/-- C28 as amended: feeding "wor" and then "ld " through `process_buffer` (zero
`Counts`, `in_word = false`, threading the returned flag, end-of-stream
finalization applied) yields the same totals as feeding "world " as one chunk,
namely lines = 0, words = 1, bytes = 6, in both builds. -/
theorem process_buffer_world_split (arm_neon : Bool) :
    spec_finalize (process_file.loop arm_neon [[119, 111, 114], [108, 100, 32]]
      (⟨0, 0, 0⟩, false)) = ⟨0, 1, 6⟩ ∧
    spec_finalize (process_file.loop arm_neon [[119, 111, 114, 108, 100, 32]]
      (⟨0, 0, 0⟩, false)) = ⟨0, 1, 6⟩ := by
  simp only [process_file.loop]
  rw [process_buffer_eq arm_neon _ _ _ _ (by decide),
    process_buffer_eq arm_neon _ _ _ _ (by decide),
    process_buffer_eq arm_neon _ _ _ _ (by decide)]
  simp only [bytesOf_ofList]
  decide

/-- C29, refutation of the claim as stated: on the 5-byte input " word" with zero
`Counts` and `in_word_prev = true`, `process_buffer` does not yield lines = 0,
words = 0, bytes = 5 with returned flag true. -/
theorem process_buffer_word_boundary_start_counterexample :
    process_buffer true (ofList [32, 119, 111, 114, 100]) 5 ⟨0, 0, 0⟩ true ≠
      (⟨0, 0, 5⟩, true) := by
  rw [process_buffer_eq true _ _ _ _ (by decide),
    show (5 : Nat) = ([32, 119, 111, 114, 100] : List Nat).length from rfl, bytesOf_ofList]
  decide

/-- C29 as amended: on the 5-byte input " word" with zero `Counts` and
`in_word_prev = true`, `process_buffer` yields lines = 0, words = 1, bytes = 5
and returns true, in both builds: the space ends the carried-in word and
"word" starts inside this call. -/
theorem process_buffer_word_boundary_start (arm_neon : Bool) :
    process_buffer arm_neon (ofList [32, 119, 111, 114, 100])
      ([32, 119, 111, 114, 100] : List Nat).length ⟨0, 0, 0⟩ true = (⟨0, 1, 5⟩, true) := by
  rw [process_buffer_eq arm_neon _ _ _ _ (by decide), bytesOf_ofList]
  decide

/-- C30, refutation of the claim as stated: the input
"this is a line\nand another\n" has 27 bytes, and `process_buffer` on it with
zero `Counts` and `in_word_prev = false` does not yield lines = 2, words = 6,
bytes = 29 with returned flag false. -/
theorem process_buffer_long_string_counterexample :
    ([116, 104, 105, 115, 32, 105, 115, 32, 97, 32, 108, 105, 110, 101, 10,
      97, 110, 100, 32, 97, 110, 111, 116, 104, 101, 114, 10] : List Nat).length = 27 ∧
    process_buffer true
      (ofList [116, 104, 105, 115, 32, 105, 115, 32, 97, 32, 108, 105, 110, 101, 10,
        97, 110, 100, 32, 97, 110, 111, 116, 104, 101, 114, 10]) 27 ⟨0, 0, 0⟩ false ≠
      (⟨2, 6, 29⟩, false) := by
  refine ⟨by decide, ?_⟩
  rw [process_buffer_eq true _ _ _ _ (by decide),
    show (27 : Nat) = ([116, 104, 105, 115, 32, 105, 115, 32, 97, 32, 108, 105, 110, 101, 10,
      97, 110, 100, 32, 97, 110, 111, 116, 104, 101, 114, 10] : List Nat).length from rfl,
    bytesOf_ofList]
  decide

/-- C30 as amended: `process_buffer` on the 27-byte input
"this is a line\nand another\n" (size = its length) with zero `Counts` and
`in_word_prev = false` yields lines = 2, words = 6, bytes = 27 and returns
false, in both builds. -/
theorem process_buffer_long_string (arm_neon : Bool) :
    process_buffer arm_neon
      (ofList [116, 104, 105, 115, 32, 105, 115, 32, 97, 32, 108, 105, 110, 101, 10,
        97, 110, 100, 32, 97, 110, 111, 116, 104, 101, 114, 10])
      ([116, 104, 105, 115, 32, 105, 115, 32, 97, 32, 108, 105, 110, 101, 10,
        97, 110, 100, 32, 97, 110, 111, 116, 104, 101, 114, 10] : List Nat).length
      ⟨0, 0, 0⟩ false = (⟨2, 6, 27⟩, false) := by
  rw [process_buffer_eq arm_neon _ _ _ _ (by decide), bytesOf_ofList]
  decide

end gemeni25pro

/-! ## The test buffers of the sources, returned flag, concatenation and invariants -/

namespace claude4_sonnet
open Wc

theorem large_unfold (mem0 : Nat → Nat) :
    test_count_lines_simd.large mem0 =
      Function.update (Function.update (Function.update (Function.update (Function.update
        (Function.update (Function.update (Function.update (Function.update
          (Function.update (memset mem0 0x61 99) 99 0) 10 0x0A) 20 0x0A) 30 0x0A) 40 0x0A)
            50 0x0A) 60 0x0A) 70 0x0A) 80 0x0A) 90 0x0A := by
  unfold test_count_lines_simd.large
  rw [test_count_lines_simd.loop, if_pos (by decide), test_count_lines_simd.loop,
    if_pos (by decide), test_count_lines_simd.loop, if_pos (by decide),
    test_count_lines_simd.loop, if_pos (by decide), test_count_lines_simd.loop,
    if_pos (by decide), test_count_lines_simd.loop, if_pos (by decide),
    test_count_lines_simd.loop, if_pos (by decide), test_count_lines_simd.loop,
    if_pos (by decide), test_count_lines_simd.loop, if_pos (by decide),
    test_count_lines_simd.loop, if_neg (by decide)]

theorem large_apply (mem0 : Nat → Nat) (j : Nat) (hj : j < 99) :
    test_count_lines_simd.large mem0 j = if 10 ≤ j ∧ j % 10 = 0 then 0x0A else 0x61 := by
  rw [large_unfold]
  by_cases h : 10 ≤ j ∧ j % 10 = 0
  · have hcases : j = 10 ∨ j = 20 ∨ j = 30 ∨ j = 40 ∨ j = 50 ∨ j = 60 ∨ j = 70 ∨ j = 80 ∨
        j = 90 := by omega
    rcases hcases with h | h | h | h | h | h | h | h | h <;> subst h <;>
      simp [Function.update_apply]
  · have h10 : j ≠ 10 := by omega
    have h20 : j ≠ 20 := by omega
    have h30 : j ≠ 30 := by omega
    have h40 : j ≠ 40 := by omega
    have h50 : j ≠ 50 := by omega
    have h60 : j ≠ 60 := by omega
    have h70 : j ≠ 70 := by omega
    have h80 : j ≠ 80 := by omega
    have h90 : j ≠ 90 := by omega
    have h99 : j ≠ 99 := by omega
    simp only [Function.update_apply, memset, h, h10, h20, h30, h40, h50, h60, h70, h80, h90,
      h99, hj, if_true, if_false]

theorem large_bytes (mem0 : Nat → Nat) :
    bytesOf (test_count_lines_simd.large mem0) 99 =
      (List.range 99).map (fun j => if 10 ≤ j ∧ j % 10 = 0 then 0x0A else 0x61) := by
  unfold bytesOf
  apply List.map_congr_left
  intro j hj
  exact large_apply mem0 j (List.mem_range.mp hj)

theorem large_lt (mem0 : Nat → Nat) :
    ∀ j, j < 99 → test_count_lines_simd.large mem0 j < 256 := by
  intro j hj
  rw [large_apply mem0 j hj]
  split_ifs <;> decide

theorem large_lines (arm_neon char_signed : Bool) (mem0 : Nat → Nat) :
    count_lines_simd arm_neon char_signed (test_count_lines_simd.large mem0) 99 = 9 := by
  rw [count_lines_simd_eq arm_neon char_signed _ 99 (by decide) (large_lt mem0), large_bytes]
  decide

/-- C31, refutation of the claim as stated: on the 99-byte buffer of the
large-buffer test (here with the array zeroed beforehand, NEON build, signed
`char`) `count_lines_simd(large, 99)` is not 8. -/
theorem count_lines_simd_large_buffer_counterexample :
    count_lines_simd true true (test_count_lines_simd.large (fun _ => 0)) 99 ≠ 8 := by
  rw [large_lines]
  decide

/-- C31 as amended: the 99-byte buffer filled with 'a' in which every index
i = 10, 20, ..., 90 is overwritten with a newline holds 9 newlines, and
`count_lines_simd(large, 99)` returns 9, in both builds, for either signedness
of `char` and whatever the array held before. -/
theorem count_lines_simd_large_buffer (arm_neon char_signed : Bool) (mem0 : Nat → Nat) :
    (∀ j, j < 99 →
      test_count_lines_simd.large mem0 j = if 10 ≤ j ∧ j % 10 = 0 then 0x0A else 0x61) ∧
    newlines (bytesOf (test_count_lines_simd.large mem0) 99) = 9 ∧
    count_lines_simd arm_neon char_signed (test_count_lines_simd.large mem0) 99 = 9 := by
  refine ⟨large_apply mem0, ?_, large_lines arm_neon char_signed mem0⟩
  rw [large_bytes]
  decide

end claude4_sonnet

namespace gemeni25pro
open Wc

/-- C33 (returned boundary flag): for every buffer, size, counts and
`in_word_prev`, in both builds, `process_buffer` returns `in_word_prev` when
size = 0 and otherwise returns true exactly when the last byte of the buffer is
not whitespace; so for size > 0 the returned flag is the same for both values
of `in_word_prev`. -/
theorem process_buffer_returned_flag (arm_neon : Bool) (buffer : Nat → Nat) (size : Nat)
    (counts : Counts) (in_word_prev : Bool) :
    (process_buffer arm_neon buffer 0 counts in_word_prev).2 = in_word_prev ∧
    (process_buffer arm_neon buffer (size + 1) counts in_word_prev).2 =
        !isspace (buffer size) ∧
    (process_buffer arm_neon buffer (size + 1) counts true).2 =
        (process_buffer arm_neon buffer (size + 1) counts false).2 := by
  have h := fun w => lastFlag_last isspace buffer (size + 1) (Nat.succ_pos size) w
  simp only [Nat.add_sub_cancel] at h
  refine ⟨?_, ?_, ?_⟩
  · rw [process_buffer_flag]
    rfl
  · rw [process_buffer_flag, h]
  · rw [process_buffer_flag, process_buffer_flag, h, h]

end gemeni25pro

namespace Wc

theorem endsInWord_eq_lastFlag (ws : Nat → Bool) (A : List Nat) :
    ∀ w, A ≠ [] → lastFlag ws A w = endsInWord ws A := by
  induction A with
  | nil => intro w h; exact absurd rfl h
  | cons x xs ih =>
    intro w _
    cases xs with
    | nil => simp [lastFlag, endsInWord]
    | cons y ys =>
      have h := ih (!ws x) (by simp)
      simp only [lastFlag] at h ⊢
      rw [h]
      simp [endsInWord, List.getLast?_cons_cons]

theorem lastFlag_false_eq (ws : Nat → Bool) (A : List Nat) :
    lastFlag ws A false = endsInWord ws A := by
  cases A with
  | nil => simp [lastFlag, endsInWord]
  | cons x xs => exact endsInWord_eq_lastFlag ws (x :: xs) false (by simp)

theorem starts_true_add (ws : Nat → Bool) (B : List Nat) :
    starts ws B true + (if startsInWord ws B then 1 else 0) = starts ws B false := by
  cases B with
  | nil => simp [starts, startsInWord]
  | cons x xs => cases hx : ws x <;> simp [starts, startsInWord, hx] <;> omega

theorem wordCount_append (ws : Nat → Bool) (A B : List Nat) :
    wordCount ws (A ++ B) + (if endsInWord ws A && startsInWord ws B then 1 else 0) =
      wordCount ws A + wordCount ws B := by
  rw [← starts_false, ← starts_false, ← starts_false, starts_append, lastFlag_false_eq]
  have h := starts_true_add ws B
  cases hA : endsInWord ws A
  · simp
  · cases hB : startsInWord ws B <;> simp only [hB] at h <;> simp at h ⊢ <;> omega

end Wc

namespace claude4_sonnet
open Wc

/-- C34 (concatenation law for word counts): for all byte sequences `A` and `B`
whose concatenation fits a `size_t`, `count_words_optimized` satisfies
words(A ++ B) = words(A) + words(B) - d, where d = 1 if `A` is non-empty and
ends in a non-whitespace byte and `B` is non-empty and starts with a
non-whitespace byte, and d = 0 otherwise (in particular d never exceeds
words(A) + words(B)). -/
theorem count_words_optimized_append (char_signed : Bool) (A B : List Nat)
    (hlen : (A ++ B).length < 2 ^ 64) (hA : ∀ a ∈ A, a < 256) (hB : ∀ b ∈ B, b < 256) :
    count_words_optimized char_signed (ofList (A ++ B)) (A ++ B).length =
      count_words_optimized char_signed (ofList A) A.length +
        count_words_optimized char_signed (ofList B) B.length -
        (if endsInWord isspace A && startsInWord isspace B then 1 else 0) ∧
    (if endsInWord isspace A && startsInWord isspace B then 1 else 0) ≤
      count_words_optimized char_signed (ofList A) A.length +
        count_words_optimized char_signed (ofList B) B.length := by
  have hAB : ∀ c ∈ A ++ B, c < 256 := by
    intro c hc
    rcases List.mem_append.mp hc with h | h
    · exact hA c h
    · exact hB c h
  have hl : (A ++ B).length = A.length + B.length := List.length_append A B
  rw [count_words_optimized_eq char_signed _ _ hlen (ofList_lt _ hAB),
    count_words_optimized_eq char_signed _ _ (by omega) (ofList_lt _ hA),
    count_words_optimized_eq char_signed _ _ (by omega) (ofList_lt _ hB),
    bytesOf_ofList, bytesOf_ofList, bytesOf_ofList]
  have h := wordCount_append isspace A B
  constructor <;> omega

/-- Witness of C34 on A = "ab", B = "c d": words 1 + 2 - 1 = 2. -/
theorem count_words_optimized_append_witness :
    ((([97, 98] ++ [99, 32, 100] : List Nat).length < 2 ^ 64 ∧
      (∀ a ∈ ([97, 98] : List Nat), a < 256)) ∧ (∀ b ∈ ([99, 32, 100] : List Nat), b < 256)) ∧
    count_words_optimized true (ofList ([97, 98] ++ [99, 32, 100]))
        ([97, 98] ++ [99, 32, 100] : List Nat).length =
      count_words_optimized true (ofList [97, 98]) ([97, 98] : List Nat).length +
        count_words_optimized true (ofList [99, 32, 100]) ([99, 32, 100] : List Nat).length -
        (if endsInWord isspace [97, 98] && startsInWord isspace [99, 32, 100] then 1 else 0) :=
  ⟨⟨⟨by decide, by decide⟩, by decide⟩,
   (count_words_optimized_append true [97, 98] [99, 32, 100] (by decide) (by decide)
      (by decide)).1⟩

end claude4_sonnet

namespace chatgpt_o4_mini_high
open Wc

theorem count_and_finalize_words (char_signed : Bool) (buf : Nat → Nat) (len : Nat)
    (hlen : len < 2 ^ 64) (hb : ∀ j, j < len → buf j < 256) :
    (unit_tests.count_and_finalize char_signed buf len).words =
      wordCount isspace (bytesOf buf len) := by
  have hm : (0 : Nat) < 2 ^ 64 := by decide
  have hcb := count_buffer_eq char_signed buf len ⟨0, 0, 0⟩ hb hm hm
  have hwc := wordCount_le_length isspace (bytesOf buf len)
  have hcl := closes_lastFlag isspace (bytesOf buf len) false
  rw [starts_false] at hcl
  rw [bytesOf_length] at hwc
  simp only [Bool.false_eq_true, if_false, Nat.add_zero] at hcl
  by_cases h0 : len = 0
  · subst h0
    simp [unit_tests.count_and_finalize, hcb, bytesOf, closes, wordCount, maximalRuns]
  · have hpos : 0 < len := Nat.pos_of_ne_zero h0
    have hlast := lastFlag_last isspace buf len hpos false
    have hsp := char_space char_signed (buf (len - 1)) (hb _ (by omega))
    rw [hlast] at hcl
    simp only [unit_tests.count_and_finalize, hcb, hpos, decide_True, Bool.true_and, hsp]
    cases hs : isspace (buf (len - 1)) <;>
      simp only [hs, Bool.not_true, Bool.not_false, if_true, if_false, Bool.false_eq_true,
        Nat.zero_add] at hcl ⊢ <;>
      omega

/-- C35 (counting words at their end equals counting them at their start): for
every buffer of bytes and every length (a `size_t`), the words produced by
`count_buffer` on zeroed stats plus the finalization (one more word iff the
buffer is non-empty and its last byte is not whitespace) equal
claude4_sonnet `count_words_optimized` on the same buffer, whatever the
signedness of `char` in either program. -/
theorem count_buffer_finalized_eq_count_words_optimized (o4_char_signed sonnet_char_signed : Bool)
    (buf : Nat → Nat) (len : Nat) (hlen : len < 2 ^ 64) (hb : ∀ j, j < len → buf j < 256) :
    (unit_tests.count_and_finalize o4_char_signed buf len).words =
        claude4_sonnet.count_words_optimized sonnet_char_signed buf len ∧
    (unit_tests.count_and_finalize o4_char_signed buf len).words =
        ((count_buffer o4_char_signed buf len ⟨0, 0, 0⟩).words +
          (if 0 < len ∧ isspace (buf (len - 1)) = false then 1 else 0)) % 2 ^ 64 := by
  constructor
  · rw [count_and_finalize_words o4_char_signed buf len hlen hb,
      claude4_sonnet.count_words_optimized_eq sonnet_char_signed buf len hlen hb]
  · have hm : (0 : Nat) < 2 ^ 64 := by decide
    have hcb := count_buffer_eq o4_char_signed buf len ⟨0, 0, 0⟩ hb hm hm
    by_cases hpos : 0 < len
    · have hsp := char_space o4_char_signed (buf (len - 1)) (hb _ (by omega))
      cases hs : isspace (buf (len - 1)) <;>
        simp [unit_tests.count_and_finalize, hpos, hsp, hs, hcb]
    · have h0 : len = 0 := by omega
      subst h0
      simp [unit_tests.count_and_finalize, hcb, bytesOf, closes]

/-- Witness of C35 on the unit-test input " foo  bar\nbaz\tqux" (17 bytes, open
word at the end). -/
theorem count_buffer_finalized_eq_count_words_optimized_witness :
    (17 < 2 ^ 64 ∧
      ∀ j, j < 17 → ofList [32, 102, 111, 111, 32, 32, 98, 97, 114, 10, 98, 97, 122, 9,
        113, 117, 120] j < 256) ∧
    (unit_tests.count_and_finalize true
        (ofList [32, 102, 111, 111, 32, 32, 98, 97, 114, 10, 98, 97, 122, 9, 113, 117, 120])
        17).words =
      claude4_sonnet.count_words_optimized false
        (ofList [32, 102, 111, 111, 32, 32, 98, 97, 114, 10, 98, 97, 122, 9, 113, 117, 120])
        17 :=
  ⟨⟨by decide, by decide⟩,
   (count_buffer_finalized_eq_count_words_optimized true false
      (ofList [32, 102, 111, 111, 32, 32, 98, 97, 114, 10, 98, 97, 122, 9, 113, 117, 120])
      17 (by decide) (by decide)).1⟩

end chatgpt_o4_mini_high

namespace gemeni25pro
open Wc

end gemeni25pro

/-! ## grok3: content and counts of integration test 3 -/

namespace Wc

end Wc

namespace grok3
open Wc

end grok3

namespace grok3
open Wc

end grok3

/-! ## The final check of chatgpt_o4-mini-high `process_fd` -/

namespace chatgpt_o4_mini_high
open Wc

theorem fd_loop_eq (char_signed : Bool) (chunks : List (List Nat)) :
    ∀ (buf : Nat → Nat) (loc : stats), (∀ c ∈ chunks, c ≠ []) →
      (∀ c ∈ chunks, ∀ a ∈ c, a < 256) →
      loc.lines < 2 ^ 64 → loc.words < 2 ^ 64 → loc.bytes < 2 ^ 64 →
      process_fd.loop char_signed (chunks.map some) buf loc =
        (0, chunks.foldl read_into buf,
          ⟨(loc.lines + (chunks.map newlines).sum) % 2 ^ 64,
           (loc.words + (chunks.map (fun c => closes isspace c false)).sum) % 2 ^ 64,
           (loc.bytes + (chunks.map List.length).sum) % 2 ^ 64⟩) := by
  induction chunks with
  | nil =>
    intro buf loc _ _ hl hw hb
    simp only [List.map_nil, process_fd.loop, List.foldl_nil, List.sum_nil, Nat.add_zero,
      Nat.mod_eq_of_lt hl, Nat.mod_eq_of_lt hw, Nat.mod_eq_of_lt hb]
  | cons c cs ih =>
    intro buf loc hne hbytes hl hw hb
    have hpos : 0 < c.length := List.length_pos.mpr (hne c (List.mem_cons_self c cs))
    have hm : (0 : Nat) < 2 ^ 64 := by decide
    have hcb := count_buffer_eq char_signed (read_into buf c) c.length loc
      (read_into_lt buf c (hbytes c (List.mem_cons_self c cs))) hl hw
    rw [read_into_bytes] at hcb
    have hrec := ih (read_into buf c) (count_buffer char_signed (read_into buf c) c.length loc)
      (fun c' hc' => hne c' (List.mem_cons_of_mem c hc'))
      (fun c' hc' => hbytes c' (List.mem_cons_of_mem c hc'))
      (by rw [hcb]; exact Nat.mod_lt _ hm) (by rw [hcb]; exact Nat.mod_lt _ hm)
      (by rw [hcb]; exact Nat.mod_lt _ hm)
    simp only [List.map_cons, process_fd.loop, hpos, if_true, List.foldl_cons, List.sum_cons]
    rw [hrec, hcb]
    simp only [Prod.mk.injEq, stats.mk.injEq, true_and]
    refine ⟨?_, ?_, ?_⟩ <;> omega

theorem sum_length_full (cap : Nat) (full : List (List Nat)) (h : ∀ c ∈ full, c.length = cap) :
    (full.map List.length).sum = full.length * cap := by
  induction full with
  | nil => simp
  | cons c cs ih =>
    have hc := h c (List.mem_cons_self c cs)
    have hrec := ih (fun c' hc' => h c' (List.mem_cons_of_mem c hc'))
    simp only [List.map_cons, List.sum_cons, List.length_cons, hc, hrec, Nat.add_mul, Nat.one_mul]
    omega

theorem sum_closes_le (chunks : List (List Nat)) :
    (chunks.map (fun c => closes isspace c false)).sum ≤ (chunks.map List.length).sum := by
  induction chunks with
  | nil => simp
  | cons c cs ih =>
    have h := closes_lastFlag isspace c false
    have hs := starts_le_length isspace c false
    simp only [List.map_cons, List.sum_cons]
    simp only [Bool.false_eq_true, if_false, Nat.add_zero] at h
    omega

theorem read_into_last (buf : Nat → Nat) (last : List Nat) (hne : last ≠ []) :
    read_into buf last (last.length - 1) = last.getLast hne := by
  have hpos : 0 < last.length := List.length_pos.mpr hne
  have hlt : last.length - 1 < last.length := by omega
  simp [read_into, hlt, List.getD_eq_getElem?_getD, List.getElem?_eq_getElem hlt,
    List.getLast_eq_getElem]

theorem endsInWord_getLast (ws : Nat → Bool) (S : List Nat) (hne : S ≠ []) :
    endsInWord ws S = !ws (S.getLast hne) := by
  simp [endsInWord, List.getLast?_eq_getLast S hne]

end chatgpt_o4_mini_high

namespace chatgpt_o4_mini_high
open Wc

/-- C37 (trailing-word check of `process_fd`): if every read except the last
returns exactly `BUF_SIZE` bytes and the last returns between 1 and `BUF_SIZE`
bytes (the whole input fitting a `uint64_t` count), then the read loop ends
without error with `local.bytes` = length of the input, the byte
`buf[(local.bytes - 1) % BUF_SIZE]` is the last byte of the input, and
`process_fd` returns 0 with `local` in which the finalization has added one to
words exactly when the input does not end in whitespace. -/
theorem process_fd_trailing_word_check (char_signed : Bool) (buf0 : Nat → Nat)
    (full : List (List Nat)) (last : List Nat) (s : stats)
    (hfull : ∀ c ∈ full, c.length = BUF_SIZE)
    (hpos : 0 < last.length) (hle : last.length ≤ BUF_SIZE)
    (hb : ∀ c ∈ full ++ [last], ∀ a ∈ c, a < 256)
    (htotal : (full ++ [last]).flatten.length < 2 ^ 64) :
    (process_fd.loop char_signed ((full ++ [last]).map some) buf0 ⟨0, 0, 0⟩).1 = 0 ∧
    (process_fd.loop char_signed ((full ++ [last]).map some) buf0 ⟨0, 0, 0⟩).2.2.bytes =
      (full ++ [last]).flatten.length ∧
    (full ++ [last]).flatten.getLast? =
      some ((process_fd.loop char_signed ((full ++ [last]).map some) buf0 ⟨0, 0, 0⟩).2.1
        (((process_fd.loop char_signed ((full ++ [last]).map some) buf0 ⟨0, 0, 0⟩).2.2.bytes - 1)
          % BUF_SIZE)) ∧
    process_fd char_signed true buf0 ((full ++ [last]).map some) s =
      (0, { (process_fd.loop char_signed ((full ++ [last]).map some) buf0 ⟨0, 0, 0⟩).2.2 with
            words :=
              (process_fd.loop char_signed ((full ++ [last]).map some) buf0 ⟨0, 0, 0⟩).2.2.words +
                (if endsInWord isspace (full ++ [last]).flatten then 1 else 0) }) := by
  have hm : (0 : Nat) < 2 ^ 64 := by decide
  have hBS : BUF_SIZE = 1048576 := rfl
  have hlast_ne : last ≠ [] := List.length_pos.mp hpos
  have hne : ∀ c ∈ full ++ [last], c ≠ [] := by
    intro c hc
    rcases List.mem_append.mp hc with h | h
    · have := hfull c h
      exact List.length_pos.mp (by omega)
    · rw [List.mem_singleton.mp h]
      exact hlast_ne
  have hloop := fd_loop_eq char_signed (full ++ [last]) buf0 ⟨0, 0, 0⟩ hne hb hm hm hm
  have hsum : ((full ++ [last]).map List.length).sum = full.length * BUF_SIZE + last.length := by
    rw [List.map_append, List.sum_append, sum_length_full BUF_SIZE full hfull]
    simp
  have hflat : (full ++ [last]).flatten.length = full.length * BUF_SIZE + last.length := by
    rw [gemeni25pro.length_flatten_sum, hsum]
  have hflat_ne : (full ++ [last]).flatten ≠ [] := by
    apply List.length_pos.mp
    omega
  have hgetLast : (full ++ [last]).flatten.getLast hflat_ne = last.getLast hlast_ne := by
    have e : (full ++ [last]).flatten = full.flatten ++ last := by simp
    have h1 : (full ++ [last]).flatten.getLast? = some (last.getLast hlast_ne) := by
      rw [e, List.getLast?_append_of_ne_nil _ hlast_ne, List.getLast?_eq_getLast _ hlast_ne]
    have h2 := List.getLast?_eq_getLast _ hflat_ne
    rw [h1] at h2
    exact (Option.some.inj h2).symm
  have hidx : (full.length * BUF_SIZE + last.length - 1) % BUF_SIZE = last.length - 1 := by
    rw [hBS] at hle ⊢
    omega
  have hbuf : (full ++ [last]).foldl read_into buf0 (last.length - 1) =
      last.getLast hlast_ne := by
    rw [List.foldl_append, List.foldl_cons, List.foldl_nil]
    exact read_into_last _ last hlast_ne
  have hlt : last.getLast hlast_ne < 256 :=
    hb last (by simp) _ (List.getLast_mem hlast_ne)
  have hsp := char_space char_signed (last.getLast hlast_ne) hlt
  have hends : endsInWord isspace (full ++ [last]).flatten =
      !isspace (last.getLast hlast_ne) := by
    rw [endsInWord_getLast isspace _ hflat_ne, hgetLast]
  have hwbound : ((full ++ [last]).map (fun c => closes isspace c false)).sum +
      (if endsInWord isspace (full ++ [last]).flatten then 1 else 0) ≤
        full.length * BUF_SIZE + last.length := by
    have h1 := sum_closes_le full
    rw [sum_length_full BUF_SIZE full hfull] at h1
    have h2 := closes_lastFlag isspace last false
    have h3 := starts_le_length isspace last false
    rw [lastFlag_false_eq] at h2
    have h4 : endsInWord isspace last = endsInWord isspace (full ++ [last]).flatten := by
      rw [hends, endsInWord_getLast isspace last hlast_ne]
    rw [h4] at h2
    simp only [Bool.false_eq_true, if_false, Nat.add_zero] at h2
    rw [List.map_append, List.sum_append]
    simp only [List.map_cons, List.map_nil, List.sum_cons, List.sum_nil, Nat.add_zero]
    omega
  have hbytes : (0 + ((full ++ [last]).map List.length).sum) % 2 ^ 64 =
      full.length * BUF_SIZE + last.length := by
    rw [hsum]
    omega
  have hr : ¬ ((0 : Int) < 0) := by decide
  have hposb : 0 < full.length * BUF_SIZE + last.length := by omega
  refine ⟨?_, ?_, ?_, ?_⟩
  · rw [hloop]
  · rw [hloop]
    simp only [hbytes]
    exact hflat.symm
  · rw [hloop]
    simp only [hbytes]
    rw [hidx, hbuf, List.getLast?_eq_getLast _ hflat_ne, hgetLast]
  · rw [hloop]
    simp only [process_fd, hloop, Bool.not_true, Bool.false_eq_true, if_false, hr, hbytes, hposb,
      if_true, hidx, hbuf, hsp, hends]
    cases hs : isspace (last.getLast hlast_ne)
    · simp only [Bool.not_false, if_true, Prod.mk.injEq, stats.mk.injEq, true_and, and_true]
      rw [hends, hs] at hwbound
      simp only [Bool.not_false, if_true] at hwbound
      omega
    · simp only [Bool.not_true, Bool.false_eq_true, if_false, Nat.add_zero]

end chatgpt_o4_mini_high

/-! ## gemeni2.5pro: the counters in 64-bit arithmetic -/

namespace Wc

theorem long_add_u64_range (x : Int) (n : Nat) :
    -2 ^ 63 ≤ long_add_u64 x n ∧ long_add_u64 x n < 2 ^ 63 := by
  unfold long_add_u64 to_long to_u64
  split <;> omega

theorem long_add_u64_emod (x : Int) (n : Nat) :
    long_add_u64 x n % 2 ^ 64 = (x + n) % 2 ^ 64 := by
  unfold long_add_u64 to_long to_u64
  split <;> omega

theorem long_add_u64_exact (x : Int) (n : Nat) (h1 : -2 ^ 63 ≤ x + n) (h2 : x + n < 2 ^ 63) :
    long_add_u64 x n = x + n := by
  unfold long_add_u64 to_long to_u64
  split <;> omega

theorem long_add_u64_add (x : Int) (a b : Nat) :
    long_add_u64 (long_add_u64 x a) b = long_add_u64 x (a + b) := by
  unfold long_add_u64 to_long to_u64
  split <;> split <;> split <;> omega

end Wc

namespace gemeni25pro.lp64
open Wc

theorem lp64_words (arm_neon : Bool) (buffer : Nat → Nat) (size : Nat)
    (counts : Counts) (in_word_prev : Bool) :
    (process_buffer arm_neon buffer size counts in_word_prev).1.words =
      counts.words + starts isspace (bytesOf buffer size) in_word_prev := by
  cases arm_neon <;> simp [process_buffer, scalar_loop_all, leftover_loop_tail]

theorem lp64_bytes (arm_neon : Bool) (buffer : Nat → Nat) (size : Nat)
    (counts : Counts) (in_word_prev : Bool) :
    (process_buffer arm_neon buffer size counts in_word_prev).1.bytes =
      long_add_u64 counts.bytes size := by
  cases arm_neon <;> simp [process_buffer, scalar_loop_all, leftover_loop_tail]

theorem lp64_flag (arm_neon : Bool) (buffer : Nat → Nat) (size : Nat)
    (counts : Counts) (in_word_prev : Bool) :
    (process_buffer arm_neon buffer size counts in_word_prev).2 =
      lastFlag isspace (bytesOf buffer size) in_word_prev := by
  cases arm_neon <;> simp [process_buffer, scalar_loop_all, leftover_loop_tail]

theorem lp64_lines_scalar (buffer : Nat → Nat) (size : Nat)
    (counts : Counts) (in_word_prev : Bool) :
    (process_buffer false buffer size counts in_word_prev).1.lines =
      counts.lines + newlines (bytesOf buffer size) := by
  simp [process_buffer, scalar_loop_all]

theorem lp64_lines_neon (buffer : Nat → Nat) (size : Nat)
    (counts : Counts) (in_word_prev : Bool) (h : size < 2 ^ 64) :
    (process_buffer true buffer size counts in_word_prev).1.lines =
      long_add_u64 counts.lines (newlines (bytesFrom buffer 0 (size / 16 * 16))) +
        newlines (bytesFrom buffer (size / 16 * 16) (size % 16)) := by
  simp [process_buffer, scalar_loop_all, leftover_loop_tail, neon_loop_blocks buffer size h]

theorem lp64_lines_emod (arm_neon : Bool) (buffer : Nat → Nat) (size : Nat)
    (counts : Counts) (in_word_prev : Bool) (h : size < 2 ^ 64) :
    (process_buffer arm_neon buffer size counts in_word_prev).1.lines % 2 ^ 64 =
      (counts.lines + newlines (bytesOf buffer size)) % 2 ^ 64 := by
  cases arm_neon
  · rw [lp64_lines_scalar]
  · have hs := newlines_split buffer size
    have he := long_add_u64_emod counts.lines (newlines (bytesFrom buffer 0 (size / 16 * 16)))
    rw [lp64_lines_neon buffer size counts in_word_prev h, hs]
    push_cast
    omega

theorem lp64_lines_exact (arm_neon : Bool) (buffer : Nat → Nat) (size : Nat)
    (counts : Counts) (in_word_prev : Bool) (h : size < 2 ^ 64)
    (h1 : -2 ^ 63 ≤ counts.lines) (h2 : counts.lines + newlines (bytesOf buffer size) < 2 ^ 63) :
    (process_buffer arm_neon buffer size counts in_word_prev).1.lines =
      counts.lines + newlines (bytesOf buffer size) := by
  cases arm_neon
  · rw [lp64_lines_scalar]
  · have hs := newlines_split buffer size
    rw [hs] at h2 ⊢
    push_cast at h2 ⊢
    rw [lp64_lines_neon buffer size counts in_word_prev h,
      long_add_u64_exact _ _ (by omega) (by omega)]
    omega

theorem lp64_loop_bytes (arm_neon : Bool) (chunks : List (List Nat)) :
    ∀ (counts : Counts) (in_word : Bool),
      (process_file.loop arm_neon chunks (counts, in_word)).1.bytes =
        (if chunks = [] then counts.bytes
         else long_add_u64 counts.bytes chunks.flatten.length) := by
  induction chunks with
  | nil => intro counts in_word; simp [process_file.loop]
  | cons c cs ih =>
    intro counts in_word
    have hb := lp64_bytes arm_neon (ofList c) c.length counts in_word
    simp only [process_file.loop, ih, hb, List.flatten_cons, List.length_append]
    by_cases hcs : cs = []
    · subst hcs
      simp
    · simp [hcs, long_add_u64_add]

end gemeni25pro.lp64

namespace gemeni25pro.lp64
open Wc

theorem lp64_eq_unbounded (arm_neon : Bool) (buffer : Nat → Nat) (size : Nat)
    (counts : Counts) (in_word_prev : Bool) (h : size < 2 ^ 64)
    (hl1 : -2 ^ 63 ≤ counts.lines) (hl2 : counts.lines + newlines (bytesOf buffer size) < 2 ^ 63)
    (hb1 : -2 ^ 63 ≤ counts.bytes) (hb2 : counts.bytes + size < 2 ^ 63) :
    process_buffer arm_neon buffer size counts in_word_prev =
      gemeni25pro.process_buffer arm_neon buffer size counts in_word_prev := by
  have e1 := lp64_lines_exact arm_neon buffer size counts in_word_prev h hl1 hl2
  have e2 := lp64_words arm_neon buffer size counts in_word_prev
  have e3 := lp64_bytes arm_neon buffer size counts in_word_prev
  have e4 := lp64_flag arm_neon buffer size counts in_word_prev
  rw [long_add_u64_exact _ _ (by omega) hb2] at e3
  rw [gemeni25pro.process_buffer_eq arm_neon buffer size counts in_word_prev h]
  generalize process_buffer arm_neon buffer size counts in_word_prev = r at e1 e2 e3 e4
  obtain ⟨⟨l, w, b⟩, f⟩ := r
  simp only at e1 e2 e3 e4
  rw [e1, e2, e3, e4]

/-- C5, refutation of the claim as stated: with `counts.lines = LONG_MAX` on
entry and a 16-byte buffer holding one newline, the NEON build leaves
`counts.lines = LONG_MIN`, not `LONG_MAX` plus the one newline of the buffer. -/
theorem process_buffer_line_count_counterexample :
    (process_buffer true
        (ofList [10, 97, 97, 97, 97, 97, 97, 97, 97, 97, 97, 97, 97, 97, 97, 97]) 16
        ⟨2 ^ 63 - 1, 0, 0⟩ false).1.lines = -2 ^ 63 ∧
    (process_buffer true
        (ofList [10, 97, 97, 97, 97, 97, 97, 97, 97, 97, 97, 97, 97, 97, 97, 97]) 16
        ⟨2 ^ 63 - 1, 0, 0⟩ false).1.lines ≠
      (2 ^ 63 - 1) + newlines (bytesOf
        (ofList [10, 97, 97, 97, 97, 97, 97, 97, 97, 97, 97, 97, 97, 97, 97, 97]) 16) := by
  rw [lp64_lines_neon _ 16 _ _ (by decide)]
  decide

/-- C5 as amended (line count, NEON build): for every buffer, every size (a
`size_t`), every incoming counts and `in_word_prev`, the newlines of the whole
16-byte blocks are added to `counts.lines` in 64-bit arithmetic and those of
the leftover bytes by `++`; the new `counts.lines` agrees with the old one plus
the number of `0x0A` bytes modulo 2^64, and equals it whenever that sum does not
exceed `LONG_MAX` (the old value being a `long`). -/
theorem process_buffer_line_count (buffer : Nat → Nat) (size : Nat) (counts : Counts)
    (in_word_prev : Bool) (hsize : size < 2 ^ 64) :
    (process_buffer true buffer size counts in_word_prev).1.lines =
        long_add_u64 counts.lines (newlines (bytesFrom buffer 0 (size / 16 * 16))) +
          newlines (bytesFrom buffer (size / 16 * 16) (size % 16)) ∧
    (process_buffer true buffer size counts in_word_prev).1.lines % 2 ^ 64 =
        (counts.lines + newlines (bytesOf buffer size)) % 2 ^ 64 ∧
    (-2 ^ 63 ≤ counts.lines → counts.lines + newlines (bytesOf buffer size) ≤ 2 ^ 63 - 1 →
      (process_buffer true buffer size counts in_word_prev).1.lines =
        counts.lines + newlines (bytesOf buffer size)) :=
  ⟨lp64_lines_neon buffer size counts in_word_prev hsize,
   lp64_lines_emod true buffer size counts in_word_prev hsize,
   fun h1 h2 => lp64_lines_exact true buffer size counts in_word_prev hsize h1 (by omega)⟩

/-- Witness of C5 on the 27-byte input "this is a line\nand another\n" entered
with `counts.lines = LONG_MAX - 2`: the result is `LONG_MAX`. -/
theorem process_buffer_line_count_witness :
    (27 < 2 ^ 64 ∧ (-2 ^ 63 : Int) ≤ 2 ^ 63 - 3 ∧
      (2 ^ 63 - 3 : Int) + newlines (bytesOf
        (ofList [116, 104, 105, 115, 32, 105, 115, 32, 97, 32, 108, 105, 110, 101, 10,
                 97, 110, 100, 32, 97, 110, 111, 116, 104, 101, 114, 10]) 27) ≤ 2 ^ 63 - 1) ∧
    (process_buffer true
      (ofList [116, 104, 105, 115, 32, 105, 115, 32, 97, 32, 108, 105, 110, 101, 10,
               97, 110, 100, 32, 97, 110, 111, 116, 104, 101, 114, 10]) 27
      ⟨2 ^ 63 - 3, 0, 0⟩ false).1.lines =
      (2 ^ 63 - 3) + newlines (bytesOf
        (ofList [116, 104, 105, 115, 32, 105, 115, 32, 97, 32, 108, 105, 110, 101, 10,
                 97, 110, 100, 32, 97, 110, 111, 116, 104, 101, 114, 10]) 27) :=
  ⟨⟨by decide, by decide, by decide⟩,
   (process_buffer_line_count _ 27 ⟨2 ^ 63 - 3, 0, 0⟩ false (by decide)).2.2 (by decide)
     (by decide)⟩

/-- C6, refutation of the claim as stated: with `counts.bytes = LONG_MAX` on
entry, a call with `size = 1` leaves `counts.bytes = LONG_MIN` in both builds,
not `LONG_MAX + 1`. -/
theorem process_buffer_byte_count_counterexample :
    (process_buffer true (ofList [97]) 1 ⟨0, 0, 2 ^ 63 - 1⟩ false).1.bytes = -2 ^ 63 ∧
    (process_buffer false (ofList [97]) 1 ⟨0, 0, 2 ^ 63 - 1⟩ false).1.bytes = -2 ^ 63 ∧
    (process_buffer true (ofList [97]) 1 ⟨0, 0, 2 ^ 63 - 1⟩ false).1.bytes ≠
      (2 ^ 63 - 1) + ((1 : Nat) : Int) := by
  rw [lp64_bytes, lp64_bytes]
  decide

/-- C6 as amended (byte count): every call of `process_buffer` adds `size` to
`counts.bytes` in 64-bit arithmetic: the new value agrees with the old one plus
`size` modulo 2^64 and equals it whenever that sum does not exceed `LONG_MAX`
(the old value being a `long`); hence after feeding any chunk sequence of a
stream `S` of at most `LONG_MAX` bytes from zero counts, `counts.bytes` equals
`len(S)`. -/
theorem process_buffer_byte_count (arm_neon : Bool) :
    (∀ (buffer : Nat → Nat) (size : Nat) (counts : Counts) (in_word_prev : Bool),
      (process_buffer arm_neon buffer size counts in_word_prev).1.bytes =
          long_add_u64 counts.bytes size ∧
      (process_buffer arm_neon buffer size counts in_word_prev).1.bytes % 2 ^ 64 =
          (counts.bytes + size) % 2 ^ 64 ∧
      (-2 ^ 63 ≤ counts.bytes → counts.bytes + size ≤ 2 ^ 63 - 1 →
        (process_buffer arm_neon buffer size counts in_word_prev).1.bytes =
          counts.bytes + size)) ∧
    (∀ chunks : List (List Nat), (chunks.flatten.length : Int) ≤ 2 ^ 63 - 1 →
      (process_file.loop arm_neon chunks (⟨0, 0, 0⟩, false)).1.bytes = chunks.flatten.length) := by
  refine ⟨fun buffer size counts w => ?_, fun chunks hlen => ?_⟩
  · rw [lp64_bytes]
    exact ⟨rfl, long_add_u64_emod _ _,
      fun h1 h2 => long_add_u64_exact _ _ (by omega) (by omega)⟩
  · rw [lp64_loop_bytes]
    by_cases hc : chunks = []
    · subst hc
      simp
    · have e : (⟨0, 0, 0⟩ : Counts).bytes = 0 := rfl
      rw [if_neg hc, e, long_add_u64_exact _ _ (by omega) (by omega)]
      simp

/-- Witness of C6: "hello world\n" (12 bytes) entered with
`counts.bytes = LONG_MAX - 12` gives `LONG_MAX`, and the chunks "hello wo",
"rld\n" fed from zero counts give 12. -/
theorem process_buffer_byte_count_witness :
    ((-2 ^ 63 : Int) ≤ 2 ^ 63 - 13 ∧ (2 ^ 63 - 13 : Int) + ((12 : Nat) : Int) ≤ 2 ^ 63 - 1 ∧
      ((([[104, 101, 108, 108, 111, 32, 119, 111], [114, 108, 100, 10]] :
        List (List Nat)).flatten.length : Nat) : Int) ≤ 2 ^ 63 - 1) ∧
    (process_buffer true
        (ofList [104, 101, 108, 108, 111, 32, 119, 111, 114, 108, 100, 10]) 12
        ⟨0, 0, 2 ^ 63 - 13⟩ false).1.bytes = (2 ^ 63 - 13) + ((12 : Nat) : Int) ∧
    (process_file.loop true [[104, 101, 108, 108, 111, 32, 119, 111], [114, 108, 100, 10]]
        (⟨0, 0, 0⟩, false)).1.bytes =
      (([[104, 101, 108, 108, 111, 32, 119, 111], [114, 108, 100, 10]] :
        List (List Nat)).flatten.length : Nat) :=
  ⟨⟨by decide, by decide, by decide⟩,
   ((process_buffer_byte_count true).1 _ 12 ⟨0, 0, 2 ^ 63 - 13⟩ false).2.2 (by decide)
     (by decide),
   (process_buffer_byte_count true).2 _ (by decide)⟩

/-- C24, refutation of the claim as stated: on the one-byte buffer "a", the
difference of `bytes` (after minus before) is 1 from `bytes = 0` and 1 - 2^64
from `bytes = LONG_MAX`. -/
theorem process_buffer_counts_additive_counterexample :
    (process_buffer true (ofList [97]) 1 ⟨0, 0, 0⟩ false).1.bytes - 0 = 1 ∧
    (process_buffer true (ofList [97]) 1 ⟨0, 0, 2 ^ 63 - 1⟩ false).1.bytes - (2 ^ 63 - 1) =
      1 - 2 ^ 64 ∧
    (process_buffer true (ofList [97]) 1 ⟨0, 0, 2 ^ 63 - 1⟩ false).1.bytes - (2 ^ 63 - 1) ≠
      (process_buffer true (ofList [97]) 1 ⟨0, 0, 0⟩ false).1.bytes - 0 := by
  rw [lp64_bytes, lp64_bytes]
  decide

/-- C24 as amended (`Counts` is only incremented, never read for control flow):
for every buffer, size (a `size_t`), `in_word_prev` and any two initial `Counts`
values, the returned flag is the same, the differences (after minus before) of
words are the same, and the differences of lines and of bytes are the same
modulo 2^64; they are the same outright when in neither call a sum leaves the
range of `long`.  The result depends on the incoming `Counts` only by addition:
the 64-bit addition of `size` for bytes, and the addition of what the call
yields from zero counts for words and (modulo 2^64) for lines. -/
theorem process_buffer_counts_additive (arm_neon : Bool) (buffer : Nat → Nat) (size : Nat)
    (in_word_prev : Bool) (c1 c2 : Counts) (hsize : size < 2 ^ 64) :
    (process_buffer arm_neon buffer size c1 in_word_prev).2 =
        (process_buffer arm_neon buffer size c2 in_word_prev).2 ∧
    (process_buffer arm_neon buffer size c1 in_word_prev).1.words - c1.words =
        (process_buffer arm_neon buffer size c2 in_word_prev).1.words - c2.words ∧
    ((process_buffer arm_neon buffer size c1 in_word_prev).1.lines - c1.lines) % 2 ^ 64 =
        ((process_buffer arm_neon buffer size c2 in_word_prev).1.lines - c2.lines) % 2 ^ 64 ∧
    ((process_buffer arm_neon buffer size c1 in_word_prev).1.bytes - c1.bytes) % 2 ^ 64 =
        ((process_buffer arm_neon buffer size c2 in_word_prev).1.bytes - c2.bytes) % 2 ^ 64 ∧
    (-2 ^ 63 ≤ c1.lines → c1.lines + newlines (bytesOf buffer size) ≤ 2 ^ 63 - 1 →
      -2 ^ 63 ≤ c2.lines → c2.lines + newlines (bytesOf buffer size) ≤ 2 ^ 63 - 1 →
      (process_buffer arm_neon buffer size c1 in_word_prev).1.lines - c1.lines =
        (process_buffer arm_neon buffer size c2 in_word_prev).1.lines - c2.lines) ∧
    (-2 ^ 63 ≤ c1.bytes → c1.bytes + size ≤ 2 ^ 63 - 1 →
      -2 ^ 63 ≤ c2.bytes → c2.bytes + size ≤ 2 ^ 63 - 1 →
      (process_buffer arm_neon buffer size c1 in_word_prev).1.bytes - c1.bytes =
        (process_buffer arm_neon buffer size c2 in_word_prev).1.bytes - c2.bytes) ∧
    (process_buffer arm_neon buffer size c1 in_word_prev).1.bytes =
        long_add_u64 c1.bytes size ∧
    (process_buffer arm_neon buffer size c1 in_word_prev).1.words =
        c1.words + (process_buffer arm_neon buffer size ⟨0, 0, 0⟩ in_word_prev).1.words ∧
    (process_buffer arm_neon buffer size c1 in_word_prev).1.lines % 2 ^ 64 =
        (c1.lines +
          (process_buffer arm_neon buffer size ⟨0, 0, 0⟩ in_word_prev).1.lines) % 2 ^ 64 := by
  have l0 := lp64_lines_emod arm_neon buffer size ⟨0, 0, 0⟩ in_word_prev hsize
  have l1 := lp64_lines_emod arm_neon buffer size c1 in_word_prev hsize
  have l2 := lp64_lines_emod arm_neon buffer size c2 in_word_prev hsize
  have b1 := long_add_u64_emod c1.bytes size
  have b2 := long_add_u64_emod c2.bytes size
  simp only [lp64_flag, lp64_words, lp64_bytes]
  simp only [Int.zero_add] at l0
  refine ⟨trivial, by omega, by omega, by omega, ?_, ?_, trivial, by omega, by omega⟩
  · intro h1 h2 h3 h4
    rw [lp64_lines_exact arm_neon buffer size c1 in_word_prev hsize h1 (by omega),
      lp64_lines_exact arm_neon buffer size c2 in_word_prev hsize h3 (by omega)]
    omega
  · intro h1 h2 h3 h4
    rw [long_add_u64_exact _ _ (by omega) (by omega),
      long_add_u64_exact _ _ (by omega) (by omega)]
    omega

/-- Witness of C24 on "a\nb c" (5 bytes, in_word_prev = true) entered with the
counts (LONG_MAX - 1, 7, LONG_MAX - 5) and (0, 0, 0). -/
theorem process_buffer_counts_additive_witness :
    (5 < 2 ^ 64 ∧
      ((-2 ^ 63 : Int) ≤ 2 ^ 63 - 6 ∧ (2 ^ 63 - 6 : Int) + ((5 : Nat) : Int) ≤ 2 ^ 63 - 1 ∧
        (-2 ^ 63 : Int) ≤ 0 ∧ (0 : Int) + ((5 : Nat) : Int) ≤ 2 ^ 63 - 1)) ∧
    (process_buffer true (ofList [97, 10, 98, 32, 99]) 5 ⟨2 ^ 63 - 2, 7, 2 ^ 63 - 6⟩ true).1.bytes -
        (2 ^ 63 - 6) =
      (process_buffer true (ofList [97, 10, 98, 32, 99]) 5 ⟨0, 0, 0⟩ true).1.bytes - 0 :=
  ⟨⟨by decide, by decide, by decide, by decide, by decide⟩,
   (process_buffer_counts_additive true (ofList [97, 10, 98, 32, 99]) 5 true
      ⟨2 ^ 63 - 2, 7, 2 ^ 63 - 6⟩ ⟨0, 0, 0⟩ (by decide)).2.2.2.2.2.1
      (by decide) (by decide) (by decide) (by decide)⟩

end gemeni25pro.lp64

/-! ## grok3: integration test 3 inside its block, and a two-read input of `process_fd` -/

namespace grok3
open Wc

end grok3

namespace grok3
open Wc

end grok3

namespace chatgpt_o4_mini_high
open Wc

theorem flatten_pair_length (A B : List Nat) :
    ([A] ++ [B]).flatten.length = A.length + B.length := by
  simp

/-- Witness of C37 on an input of two reads: a full buffer of `BUF_SIZE` bytes
'a' and then the 2 bytes " b"; the final check reads `buf[1048577 % BUF_SIZE]`,
that is `buf[1]`, the 'b' stored by the second read. -/
theorem process_fd_trailing_word_check_witness :
    ((∀ c ∈ [List.replicate 1048576 0x61], c.length = BUF_SIZE) ∧
      0 < ([0x20, 0x62] : List Nat).length ∧
      ([0x20, 0x62] : List Nat).length ≤ BUF_SIZE ∧
      (∀ c ∈ [List.replicate 1048576 0x61] ++ [[0x20, 0x62]], ∀ a ∈ c, a < 256) ∧
      ([List.replicate 1048576 0x61] ++ [[0x20, 0x62]]).flatten.length < 2 ^ 64) ∧
    ((process_fd.loop true (([List.replicate 1048576 0x61] ++ [[0x20, 0x62]]).map some)
        (fun _ => 0) ⟨0, 0, 0⟩).1 = 0 ∧
    (process_fd.loop true (([List.replicate 1048576 0x61] ++ [[0x20, 0x62]]).map some)
        (fun _ => 0) ⟨0, 0, 0⟩).2.2.bytes =
      ([List.replicate 1048576 0x61] ++ [[0x20, 0x62]]).flatten.length ∧
    ([List.replicate 1048576 0x61] ++ [[0x20, 0x62]]).flatten.getLast? =
      some ((process_fd.loop true
          (([List.replicate 1048576 0x61] ++ [[0x20, 0x62]]).map some)
          (fun _ => 0) ⟨0, 0, 0⟩).2.1
        (((process_fd.loop true (([List.replicate 1048576 0x61] ++ [[0x20, 0x62]]).map some)
          (fun _ => 0) ⟨0, 0, 0⟩).2.2.bytes - 1) % BUF_SIZE)) ∧
    process_fd true true (fun _ => 0)
        (([List.replicate 1048576 0x61] ++ [[0x20, 0x62]]).map some) ⟨0, 0, 0⟩ =
      (0, { (process_fd.loop true (([List.replicate 1048576 0x61] ++ [[0x20, 0x62]]).map some)
              (fun _ => 0) ⟨0, 0, 0⟩).2.2 with
            words :=
              (process_fd.loop true
                (([List.replicate 1048576 0x61] ++ [[0x20, 0x62]]).map some)
                (fun _ => 0) ⟨0, 0, 0⟩).2.2.words +
                (if endsInWord isspace
                    ([List.replicate 1048576 0x61] ++ [[0x20, 0x62]]).flatten then 1
                 else 0) })) :=
  have hfull : ∀ c ∈ [List.replicate 1048576 0x61], c.length = BUF_SIZE := fun c hc => by
    rw [List.mem_singleton.mp hc]
    exact List.length_replicate _ _
  have hb : ∀ c ∈ [List.replicate 1048576 0x61] ++ [[0x20, 0x62]], ∀ a ∈ c, a < 256 :=
    fun c hc a ha => by
      rcases List.mem_append.mp hc with h | h
      · rw [List.mem_singleton.mp h] at ha
        rw [List.eq_of_mem_replicate ha]
        decide
      · rw [List.mem_singleton.mp h] at ha
        rcases List.mem_cons.mp ha with h1 | h1
        · rw [h1]; decide
        · rw [List.mem_singleton.mp h1]; decide
  have htotal : ([List.replicate 1048576 0x61] ++ [[0x20, 0x62]]).flatten.length < 2 ^ 64 := by
    rw [flatten_pair_length, List.length_replicate]
    decide
  ⟨⟨hfull, by decide, by decide, hb, htotal⟩,
   process_fd_trailing_word_check true (fun _ => 0) [List.replicate 1048576 0x61] [0x20, 0x62]
     ⟨0, 0, 0⟩ hfull (by decide) (by decide) hb htotal⟩

end chatgpt_o4_mini_high
